import Mathlib

/-!
# Lexer of `lexer_single.c`: a shallow embedding and its verified properties

The C program keeps the scanner in process-wide globals (`g_in`, `g_line`,
`g_col`, `g_have_push`, `g_push_ch`).  Here they are the fields of an explicit
`Scanner` record that every operation takes and returns.

* A character read by the program is a C `int`: a byte value `0..255`, or
  `EOF = -1`.  Characters are therefore `Int` here, the unread part of the
  input file is a `List Byte`.
* `g_line` and `g_col` are C `int` counters.  They are `Int` here; the model
  assumes inputs short enough that they do not overflow.
* `char buf[256]` with its `len` is the list of the `len` characters stored so
  far; a `lexeme` is the C string that `strncpy` leaves in the token.  A `char`
  cell is given by the byte value `0..255` of the character stored into it;
  every character the program stores is a byte it has read, so the cast
  `(char)ch` keeps that value.
* Loops of the program that read until some character shows up are recursive
  functions over a step budget; a budget that runs out gives `none`.
* To speak about the values `g_line` takes in the course of a call, the scanner
  is given a second time over a character source that keeps a log of `g_line`
  (`Logged`, `getch_logged`, `ungetch_logged`, `next_token_logged`); the log
  changes neither tokens nor states (`next_token_logged_erase`).
-/

namespace Lexer

/-! ## Characters -/

/-- One byte of the input file. -/
abbrev Byte := Fin 256

/-- The value `fgetc` returns for a byte: the byte as a non-negative `int`. -/
def ofByte (b : Byte) : Int := (b.val : Int)

/-- `EOF` of `<stdio.h>`. -/
def EOF : Int := -1

/-- `isspace` of `<ctype.h>` in the "C" locale: space, `\t \n \v \f \r`. -/
def isspace (c : Int) : Bool := c = 32 || (9 ≤ c && c ≤ 13)

/-- `isdigit` of `<ctype.h>`: `0`..`9`. -/
def isdigit (c : Int) : Bool := 48 ≤ c && c ≤ 57

/-- `isalpha` of `<ctype.h>` in the "C" locale: `A`..`Z`, `a`..`z`. -/
def isalpha (c : Int) : Bool := (65 ≤ c && c ≤ 90) || (97 ≤ c && c ≤ 122)

/-- `isalnum` of `<ctype.h>`: `isalpha` or `isdigit`. -/
def isalnum (c : Int) : Bool := isalpha c || isdigit c

/-- The characters of a C string literal, as `int` codes. -/
def cstr (s : String) : List Int := s.toList.map (fun c => (c.toNat : Int))

/-- The bytes of a text, used to write concrete inputs. -/
def bytes (s : String) : List Byte := s.toList.map (fun c => Fin.ofNat c.toNat)

/-! ## Tokens (`token.h`) -/

/-- The enumeration `TokenType`. -/
inductive TokenType where
  | T_EOF | T_ERROR
  | T_KEYWORD | T_IDENTIFIER | T_NUMBER
  | T_LPAREN | T_RPAREN | T_LBRACE | T_RBRACE | T_SEMI | T_COMMA
  | T_ASSIGN | T_EQ | T_NEQ | T_LT | T_LTE | T_GT | T_GTE
  | T_PLUS | T_MINUS | T_MUL | T_DIV
  deriving DecidableEq, Repr

open TokenType

/-- The struct `Token`; `lexeme` is the C string held in `char lexeme[256]`. -/
structure Token where
  type : TokenType
  lexeme : List Int
  line : Int
  col : Int
  deriving DecidableEq, Repr

/-- The function `token_type_name`. -/
def token_type_name (t : TokenType) : List Int :=
  match t with
  | T_EOF => cstr "EOF"
  | T_ERROR => cstr "Error"
  | T_KEYWORD => cstr "keyword"
  | T_IDENTIFIER => cstr "identifier"
  | T_NUMBER => cstr "num"
  | T_LPAREN => cstr "("
  | T_RPAREN => cstr ")"
  | T_LBRACE => cstr "\x7b"
  | T_RBRACE => cstr "\x7d"
  | T_SEMI => cstr ";"
  | T_COMMA => cstr ","
  | T_ASSIGN => cstr "="
  | T_EQ => cstr "=="
  | T_NEQ => cstr "!="
  | T_LT => cstr "<"
  | T_LTE => cstr "<="
  | T_GT => cstr ">"
  | T_GTE => cstr ">="
  | T_PLUS => cstr "+"
  | T_MINUS => cstr "-"
  | T_MUL => cstr "*"
  | T_DIV => cstr "/"

/-! ## Character source (`getch`, `ungetch`) -/

/-- The globals of the scanner. `g_in` is what the file still holds unread. -/
structure Scanner where
  g_in : List Byte
  g_line : Int
  g_col : Int
  g_have_push : Int
  g_push_ch : Int
  deriving DecidableEq, Repr

/-- The table `KW` of reserved words. -/
def KW : List (List Int) :=
  [cstr "void", cstr "int", cstr "for", cstr "while", cstr "if", cstr "else",
   cstr "return", cstr "float", cstr "double", cstr "char", cstr "bool", cstr "print"]

/-- `fgetc(g_in)`: the next byte of the file, or `EOF` at its end. -/
def fgetc (f : List Byte) : Int × List Byte :=
  match f with
  | [] => (EOF, [])
  | b :: rest => (ofByte b, rest)

/-- The function `getch`. -/
def getch (s : Scanner) : Int × Scanner :=
  let r : Int × Scanner :=
    if s.g_have_push ≠ 0 then (s.g_push_ch, { s with g_have_push := 0 })
    else ((fgetc s.g_in).1, { s with g_in := (fgetc s.g_in).2 })
  let ch := r.1
  let s1 := r.2
  if ch = 10 then (ch, { s1 with g_line := s1.g_line + 1, g_col := 0 })
  else if ch ≠ EOF then (ch, { s1 with g_col := s1.g_col + 1 })
  else (ch, s1)

/-- The function `ungetch`. -/
def ungetch (ch : Int) (s : Scanner) : Scanner :=
  if ch = EOF then s
  else
    let s1 : Scanner := { s with g_have_push := 1, g_push_ch := ch }
    if ch = 10 then { s1 with g_line := s1.g_line - 1 }
    else
      let s2 : Scanner := { s1 with g_col := s1.g_col - 1 }
      if s2.g_col < 0 then { s2 with g_col := 0 } else s2

/-- The C string stored in a `char` array whose first cells are `l`,
followed by a terminating `\0`: the cells before the first `\0`. -/
def c_string (l : List Int) : List Int := l.takeWhile (fun c => c ≠ 0)

/-- The function `set_token`: `strncpy` copies at most 255 characters of the
C string `lex`; a null `lex` gives the empty lexeme. -/
def set_token (tp : TokenType) (lex : Option (List Int)) (line col : Int) : Token :=
  match lex with
  | some l => { type := tp, lexeme := (c_string l).take 255, line := line, col := col }
  | none => { type := tp, lexeme := [], line := line, col := col }

/-- The function `append_char` on a buffer of capacity `cap` holding `b`. -/
def append_char (b : List Int) (cap : Nat) (ch : Int) : List Int :=
  if b.length + 1 < cap then b ++ [ch] else b

/-- The function `is_keyword`: `strcmp` against each entry of `KW`. -/
def is_keyword (s : List Int) : Bool := KW.any (fun k => c_string k = c_string s)

/-- The function `scanner_init`, on the content of the file it is given. -/
def scanner_init (f : List Byte) : Scanner :=
  { g_in := f, g_line := 1, g_col := 0, g_have_push := 0, g_push_ch := 0 }

/-- What the next calls of `getch` will deliver: the pushed-back character, if
there is one, then the unread bytes of the file. -/
def pending (s : Scanner) : List Int :=
  (if s.g_have_push ≠ 0 then [s.g_push_ch] else []) ++ s.g_in.map ofByte

/-- The step budget given to a loop started in state `s`: more than the number
of characters that can still be read. -/
def budget (s : Scanner) : Nat := s.g_in.length + 2

/-! ## Scanner -/

/-- The loop `while (ch!='\n' && ch!=EOF) ch=getch();` of a line comment. -/
def skip_line : Nat → Int → Scanner → Option (Int × Scanner)
  | 0, _, _ => none
  | n + 1, ch, s =>
    if ch ≠ 10 ∧ ch ≠ EOF then skip_line n (getch s).1 (getch s).2
    else some (ch, s)

/-- The loop of a block comment,
`while ((cur=getch())!=EOF){ if (prev=='*' && cur=='/'){ closed=true; break; } prev=cur; }`;
the result is `closed`. -/
def skip_block : Nat → Int → Scanner → Option (Bool × Scanner)
  | 0, _, _ => none
  | n + 1, prev, s =>
    let cur := (getch s).1
    let s1 := (getch s).2
    if cur ≠ EOF then
      if prev = 42 ∧ cur = 47 then some (true, s1)
      else skip_block n cur s1
    else some (false, s1)

/-- The `while (1)` loop of `skip_ws_and_comments`. -/
def skip_loop : Nat → Scanner → Option (Int × Scanner)
  | 0, _ => none
  | n + 1, s =>
    let ch := (getch s).1
    let s1 := (getch s).2
    if ch = EOF then some (EOF, s1)
    else if isspace ch then skip_loop n s1
    else if ch = 47 then
      let ch2 := (getch s1).1
      let s2 := (getch s1).2
      if ch2 = 47 then
        match skip_line n ch s2 with
        | none => none
        | some (_, s3) => skip_loop n s3
      else if ch2 = 42 then
        match skip_block n 0 s2 with
        | none => none
        | some (closed, s3) => if !closed then some (EOF, s3) else skip_loop n s3
      else some (47, ungetch ch2 s2)
    else some (ch, s1)

/-- The function `skip_ws_and_comments`. -/
def skip_ws_and_comments (s : Scanner) : Option (Int × Scanner) :=
  skip_loop (budget s) s

/-- The loop `while ((ch=getch())!=EOF && (isalnum(ch)||ch=='_')) append_char(...)`;
the result is the last `ch`, the buffer and the state. -/
def ident_loop : Nat → List Int → Scanner → Option (Int × List Int × Scanner)
  | 0, _, _ => none
  | n + 1, buf, s =>
    let ch := (getch s).1
    let s1 := (getch s).2
    if ch ≠ EOF ∧ (isalnum ch ∨ ch = 95) then ident_loop n (append_char buf 256 ch) s1
    else some (ch, buf, s1)

/-- The function `scan_identifier_or_keyword`. -/
def scan_identifier_or_keyword (first : Int) (L C : Int) (s : Scanner) :
    Option (Token × Scanner) :=
  let buf := append_char [] 256 first
  match ident_loop (budget s) buf s with
  | none => none
  | some (ch, buf, s1) =>
    let s2 := if ch ≠ EOF then ungetch ch s1 else s1
    some (set_token (if is_keyword buf then T_KEYWORD else T_IDENTIFIER) (some buf) L C, s2)

/-- The loop `while ((ch=getch())!=EOF && isdigit(ch)) append_char(...)`, which
`scan_number` runs three times; the result is the last `ch`, the buffer and the
state. -/
def digit_loop : Nat → List Int → Scanner → Option (Int × List Int × Scanner)
  | 0, _, _ => none
  | n + 1, buf, s =>
    let ch := (getch s).1
    let s1 := (getch s).2
    if ch ≠ EOF ∧ isdigit ch then digit_loop n (append_char buf 256 ch) s1
    else some (ch, buf, s1)

/-- The part of `scan_number` from `if (ch=='e'||ch=='E')` to its end. -/
def scan_exponent (ch : Int) (buf : List Int) (L C : Int) (s : Scanner) :
    Option (Token × Scanner) :=
  if ch = 101 ∨ ch = 69 then
    let save_ch := ch
    let buf := append_char buf 256 ch
    let ch2 := (getch s).1
    let s1 := (getch s).2
    let signed : Bool := ch2 = 43 ∨ ch2 = 45
    let buf := if signed then append_char buf 256 ch2 else buf
    let s2 := if signed then (getch s1).2 else s1
    let ch2 := if signed then (getch s1).1 else ch2
    if ¬ isdigit ch2 then
      let buf := if buf.length ≠ 0 then buf.dropLast else buf
      let s3 := ungetch save_ch s2
      let s4 := if ch2 ≠ EOF then ungetch ch2 s3 else s3
      some (set_token T_NUMBER (some buf) L C, s4)
    else
      let buf := append_char buf 256 ch2
      match digit_loop (budget s2) buf s2 with
      | none => none
      | some (ch, buf, s3) =>
        let s4 := if ch ≠ EOF then ungetch ch s3 else s3
        some (set_token T_NUMBER (some buf) L C, s4)
  else
    let s1 := if ch ≠ EOF then ungetch ch s else s
    some (set_token T_NUMBER (some buf) L C, s1)

/-- The function `scan_number`. -/
def scan_number (first : Int) (L C : Int) (s : Scanner) : Option (Token × Scanner) :=
  let buf := append_char [] 256 first
  match digit_loop (budget s) buf s with
  | none => none
  | some (ch, buf, s1) =>
    if ch = 46 then
      let buf := append_char buf 256 ch
      let ch2 := (getch s1).1
      let s2 := (getch s1).2
      if isdigit ch2 then
        let buf := append_char buf 256 ch2
        match digit_loop (budget s2) buf s2 with
        | none => none
        | some (ch, buf, s3) => scan_exponent ch buf L C s3
      else scan_exponent ch2 buf L C s2
    else scan_exponent ch buf L C s1

/-- The cases `=`, `!`, `<`, `>` of `next_token`, which differ in their
tokens only: `{ int c2=getch(); if (c2=='='){ set_token(out,two,lex2,L,C); return two; }
ungetch(c2); set_token(out,one,lex1,L,C); return one; }`. -/
def scan_relop (two : TokenType) (lex2 : String) (one : TokenType) (lex1 : String)
    (L C : Int) (s : Scanner) : Token × Scanner :=
  let c2 := (getch s).1
  let s1 := (getch s).2
  if c2 = 61 then (set_token two (some (cstr lex2)) L C, s1)
  else (set_token one (some (cstr lex1)) L C, ungetch c2 s1)

/-- The function `next_token`. -/
def next_token (s : Scanner) : Option (Token × Scanner) :=
  match skip_ws_and_comments s with
  | none => none
  | some (ch, s1) =>
    if ch = EOF then some (set_token T_EOF (some (cstr "EOF")) s1.g_line s1.g_col, s1)
    else
      let L := s1.g_line
      let C := if s1.g_col > 0 then s1.g_col else 1
      if isalpha ch ∨ ch = 95 then scan_identifier_or_keyword ch L C s1
      else if isdigit ch then scan_number ch L C s1
      else if ch = 46 then some (set_token T_ERROR (some (cstr ".")) L C, s1)
      else if ch = 40 then some (set_token T_LPAREN (some (cstr "(")) L C, s1)
      else if ch = 41 then some (set_token T_RPAREN (some (cstr ")")) L C, s1)
      else if ch = 123 then some (set_token T_LBRACE (some (cstr "\x7b")) L C, s1)
      else if ch = 125 then some (set_token T_RBRACE (some (cstr "\x7d")) L C, s1)
      else if ch = 59 then some (set_token T_SEMI (some (cstr ";")) L C, s1)
      else if ch = 44 then some (set_token T_COMMA (some (cstr ",")) L C, s1)
      else if ch = 43 then some (set_token T_PLUS (some (cstr "+")) L C, s1)
      else if ch = 45 then some (set_token T_MINUS (some (cstr "-")) L C, s1)
      else if ch = 42 then some (set_token T_MUL (some (cstr "*")) L C, s1)
      else if ch = 47 then some (set_token T_DIV (some (cstr "/")) L C, s1)
      else if ch = 61 then some (scan_relop T_EQ "==" T_ASSIGN "=" L C s1)
      else if ch = 33 then some (scan_relop T_NEQ "!=" T_ERROR "!" L C s1)
      else if ch = 60 then some (scan_relop T_LTE "<=" T_LT "<" L C s1)
      else if ch = 62 then some (scan_relop T_GTE ">=" T_GT ">" L C s1)
      else some (set_token T_ERROR (some [ch]) L C, s1)

/-- The loop of `main`: the tokens `next_token` returns, up to and including
the first end-of-stream token. -/
def scan_all : Nat → Scanner → Option (List Token)
  | 0, _ => none
  | n + 1, s =>
    match next_token s with
    | none => none
    | some (t, s1) =>
      if t.type = T_EOF then some [t]
      else
        match scan_all n s1 with
        | none => none
        | some ts => some (t :: ts)

/-- All tokens of a file: `scanner_init` followed by the loop of `main`. -/
def tokens (f : List Byte) : Option (List Token) :=
  scan_all (f.length + 1) (scanner_init f)

/-! ## Notions used to state the properties -/

/-- The states the character source can be in: the one `scanner_init` sets up
and those it gets to by calls of `getch` and `ungetch`. -/
inductive Reachable : Scanner → Prop where
  | init (f : List Byte) : Reachable (scanner_init f)
  | getch {s : Scanner} : Reachable s → Reachable (getch s).2
  | ungetch {s : Scanner} (c : Int) : Reachable s → Reachable (ungetch c s)

/-- A character that goes on an identifier: `isalnum(ch) || ch=='_'`. -/
def is_ident_char (c : Int) : Bool := isalnum c || c = 95

/-- The text holds the two characters `*/` somewhere. -/
def has_close : List Byte → Bool
  | [] => false
  | [_] => false
  | a :: b :: r => (ofByte a = 42 && ofByte b = 47) || has_close (b :: r)

/-- The file consists solely of what `skip_ws_and_comments` is to skip, in the
words of the specification: ASCII whitespace, line comments (`//` up to a
newline or the end of the input) and terminated block comments (`/*` up to the
first `*/` that follows, no nesting). -/
inductive Skippable : List Byte → Prop where
  | nil : Skippable []
  | space (b : Byte) (rest : List Byte) :
      isspace (ofByte b) = true → Skippable rest → Skippable (b :: rest)
  | line_end (body : List Byte) :
      (∀ b ∈ body, ofByte b ≠ 10) → Skippable (47 :: 47 :: body)
  | line (body rest : List Byte) :
      (∀ b ∈ body, ofByte b ≠ 10) → Skippable rest → Skippable (47 :: 47 :: body ++ 10 :: rest)
  | block (body rest : List Byte) :
      has_close (body ++ [42]) = false → Skippable rest →
      Skippable (47 :: 42 :: body ++ 42 :: 47 :: rest)

/-- A run of digits. -/
def is_digits (l : List Byte) : Bool := l.all (fun b => isdigit (ofByte b))

/-- A numeric literal cut into the parts of the grammar of the specification,
`digits ('.' digits)? ((e|E) [+-]? digits)?`: the integer digits, the digits
after the point if there is a point, and the marker, sign and digits of the
exponent if there is one. -/
structure NumLit where
  int : List Byte
  frac : Option (List Byte)
  exp : Option (Byte × Option Byte × List Byte)

/-- The text of the decimal part: the point and its digits. -/
def frac_text : Option (List Byte) → List Byte
  | none => []
  | some d => 46 :: d

/-- The text of the exponent: marker, sign if any, digits. -/
def exp_text : Option (Byte × Option Byte × List Byte) → List Byte
  | none => []
  | some (m, sg, d) => m :: (sg.toList ++ d)

/-- The text of a numeric literal. -/
def NumLit.text (n : NumLit) : List Byte := n.int ++ frac_text n.frac ++ exp_text n.exp

/-- The decimal part is absent, or has one or more digits. -/
def frac_ok : Option (List Byte) → Bool
  | none => true
  | some d => d ≠ [] && is_digits d

/-- The exponent is absent, or has a marker `e` or `E`, possibly a sign `+` or
`-`, and one or more digits. -/
def exp_ok : Option (Byte × Option Byte × List Byte) → Bool
  | none => true
  | some (m, sg, d) =>
    (ofByte m = 101 || ofByte m = 69) &&
    (match sg with
     | none => true
     | some x => ofByte x = 43 || ofByte x = 45) &&
    d ≠ [] && is_digits d

/-- The parts follow the grammar: one or more integer digits, then a
well-formed decimal part and exponent. -/
def NumLit.wf (n : NumLit) : Bool :=
  n.int ≠ [] && is_digits n.int && frac_ok n.frac && exp_ok n.exp

/-- The text `w` matches the grammar `digits ('.' digits)? ((e|E) [+-]? digits)?`. -/
def is_number_text (w : List Byte) : Prop := ∃ n : NumLit, n.wf = true ∧ n.text = w

/-- The text `w` is the longest of the initial segments of `inp` that match
the grammar of numbers. -/
def is_longest_number (inp w : List Byte) : Prop :=
  (∃ r, inp = w ++ r) ∧ is_number_text w ∧
  ∀ v r, inp = v ++ r → is_number_text v → v.length ≤ w.length

/-- The line of the character at offset `i` of the file `f`, in the words of
the specification: 1 + the number of newlines before it. -/
def spec_line (f : List Byte) (i : Nat) : Int :=
  1 + ((f.take i).filter (fun b => ofByte b = 10)).length

/-- The column of the character at offset `i` of the file `f`, in the words of
the specification: 1 + the number of characters between it and the most
recent newline before it (or the start of the file). -/
def spec_col (f : List Byte) (i : Nat) : Int :=
  1 + (((f.take i).reverse).takeWhile (fun b => ofByte b ≠ 10)).length

/-- The text consists solely of whitespace and complete comments: ASCII
whitespace, line comments with the newline that ends them, and block comments
with the first `*/` behind their `/*`, which ends them. -/
inductive Skipped : List Byte → Prop where
  | nil : Skipped []
  | space (b : Byte) (rest : List Byte) :
      isspace (ofByte b) = true → Skipped rest → Skipped (b :: rest)
  | line (body rest : List Byte) :
      (∀ b ∈ body, ofByte b ≠ 10) → Skipped rest → Skipped (47 :: 47 :: body ++ 10 :: rest)
  | block (body rest : List Byte) :
      has_close (body ++ [42]) = false → Skipped rest →
      Skipped (47 :: 42 :: body ++ 42 :: 47 :: rest)

/-- The number of characters the next calls of `getch` can still deliver. -/
def remaining (s : Scanner) : Nat := s.g_in.length + (if s.g_have_push ≠ 0 then 1 else 0)

/-- The state `s` has read the first `k` bytes of the file `f`, holds no
pushed-back character, and its line counter is the line of offset `k`. -/
def Clean (f : List Byte) (s : Scanner) (k : Nat) : Prop :=
  s.g_have_push = 0 ∧ k ≤ f.length ∧ s.g_in = f.drop k ∧ s.g_line = spec_line f k

/-- The state `s` is at offset `i` of the file `f`: the next character `getch`
delivers is the byte at offset `i` (the end marker if `i` is the length of `f`)
and the line counter is the line of offset `i`.  Either nothing is pushed back
and the bytes from offset `i` on are unread; or the byte at offset `i` is in the
pushback slot, the bytes from an offset `k` behind it on are unread, and no
newline lies between the two.  The offset `k` is `i + 1`; or it is `i + 2` and
the end of the file, where the byte at offset `i` is `e` or `E` and the byte
behind it is a sign (the state the malformed-exponent branch of `scan_number`
leaves there: the sign is lost). -/
def Tracks (f : List Byte) (s : Scanner) (i : Nat) : Prop :=
  Clean f s i ∨
  ∃ k b, i < k ∧ k ≤ f.length ∧ f[i]? = some b ∧ s.g_have_push ≠ 0 ∧ s.g_push_ch = ofByte b ∧
    s.g_in = f.drop k ∧ s.g_line = spec_line f i ∧ spec_line f (i + 1) = spec_line f k ∧
    (k = i + 1 ∨
      (k = i + 2 ∧ k = f.length ∧ (ofByte b = 101 ∨ ofByte b = 69) ∧
        ∃ sg, f[i + 1]? = some sg ∧ (ofByte sg = 43 ∨ ofByte sg = 45)))

/-- The character `ch` and the state `s` are what `getch` has just returned at
offset `k` of the file `f`: the byte at offset `k`, with `s` behind it, or the
end marker at the end of `f`. -/
def JustRead (f : List Byte) (ch : Int) (s : Scanner) (k : Nat) : Prop :=
  (∃ b, f[k]? = some b ∧ ch = ofByte b ∧ Clean f s (k + 1)) ∨
  (ch = EOF ∧ k = f.length ∧ Clean f s k)

/-- The states in which the driver calls `next_token` on the file `f`: the one
`scanner_init` sets up, and the state each call of `next_token` leaves. -/
inductive Scanned (f : List Byte) : Scanner → Prop where
  | init : Scanned f (scanner_init f)
  | next {s s2 : Scanner} {t : Token} :
      Scanned f s → next_token s = some (t, s2) → Scanned f s2

/-- The result of the call of `next_token` that comes after `n` earlier calls,
starting in state `s`. -/
def calls : Nat → Scanner → Option (Token × Scanner)
  | 0, s => next_token s
  | n + 1, s =>
    match next_token s with
    | none => none
    | some (_, s1) => calls n s1

/-- What `skip_ws_and_comments` delivers when called at offset `i` of the file
`f`: the end marker, in a clean state at the end of the file; or the byte at an
offset `j` not before `i`, which is no whitespace, in a state at an offset `q`
behind `j` with no newline between `j` and `q` (a clean state, unless the byte
is `/`). -/
def Delivered (f : List Byte) (i : Nat) (ch : Int) (s1 : Scanner) : Prop :=
  (ch = EOF ∧ Clean f s1 f.length) ∨
  ∃ j q b, i ≤ j ∧ f[j]? = some b ∧ ch = ofByte b ∧ isspace ch = false ∧ j < q ∧
    Tracks f s1 q ∧ spec_line f (j + 1) = spec_line f q ∧ (ch ≠ 47 → Clean f s1 q)

/-- The state `s` is at offset `i` of the file `f`, in terms of what is
pending.  The characters pending are the bytes of `f` from offset `i` on; or,
in the state the malformed-exponent branch of `scan_number` leaves at the end
of the file after an exponent marker and a sign (the marker is pending again,
the sign is lost), `f` ends with an `e` or `E` at offset `i` and a sign, and the
marker alone is pending. -/
def AtOffset (f : List Byte) (s : Scanner) (i : Nat) : Prop :=
  (i ≤ f.length ∧ pending s = (f.drop i).map ofByte) ∨
  ∃ m sg, f.drop i = [m, sg] ∧ (ofByte m = 101 ∨ ofByte m = 69) ∧
    (ofByte sg = 43 ∨ ofByte sg = 45) ∧ pending s = [ofByte m]

/-- The byte `b`, with `rest` behind it, starts a token: it is no whitespace,
and if it is `/`, neither `/` nor `*` follows it. -/
def TokenStart (b : Byte) (rest : List Byte) : Prop :=
  isspace (ofByte b) = false ∧
  (ofByte b = 47 → ∀ x ∈ rest.head?, ofByte x ≠ 47 ∧ ofByte x ≠ 42)

/-! ## The scanner with a log of the line counter

The functions of the scanner once more, word for word, over a character source
that writes down the value of `g_line` after every call of `getch` and of
`ungetch`.  The log does not influence the scan. -/

/-- The globals of the scanner together with a log: the values that `g_line`
has had after each call of `getch` and `ungetch` so far, the latest first. -/
structure Logged where
  st : Scanner
  lines : List Int
  deriving DecidableEq, Repr

/-- The function `getch`; the value of `g_line` it leaves is logged. -/
def getch_logged (s : Logged) : Int × Logged :=
  ((getch s.st).1, ⟨(getch s.st).2, (getch s.st).2.g_line :: s.lines⟩)

/-- The function `ungetch`; the value of `g_line` it leaves is logged. -/
def ungetch_logged (ch : Int) (s : Logged) : Logged :=
  ⟨ungetch ch s.st, (ungetch ch s.st).g_line :: s.lines⟩

/-- The loop `while (ch!='\n' && ch!=EOF) ch=getch();` of a line comment, with the
log. -/
def skip_line_logged : Nat → Int → Logged → Option (Int × Logged)
  | 0, _, _ => none
  | n + 1, ch, s =>
    if ch ≠ 10 ∧ ch ≠ EOF then skip_line_logged n (getch_logged s).1 (getch_logged s).2
    else some (ch, s)

/-- The loop of a block comment,
`while ((cur=getch())!=EOF){ if (prev=='*' && cur=='/'){ closed=true; break; } prev=cur; }`;
the result is `closed`.  With the log. -/
def skip_block_logged : Nat → Int → Logged → Option (Bool × Logged)
  | 0, _, _ => none
  | n + 1, prev, s =>
    let cur := (getch_logged s).1
    let s1 := (getch_logged s).2
    if cur ≠ EOF then
      if prev = 42 ∧ cur = 47 then some (true, s1)
      else skip_block_logged n cur s1
    else some (false, s1)

/-- The `while (1)` loop of `skip_ws_and_comments`, with the log. -/
def skip_loop_logged : Nat → Logged → Option (Int × Logged)
  | 0, _ => none
  | n + 1, s =>
    let ch := (getch_logged s).1
    let s1 := (getch_logged s).2
    if ch = EOF then some (EOF, s1)
    else if isspace ch then skip_loop_logged n s1
    else if ch = 47 then
      let ch2 := (getch_logged s1).1
      let s2 := (getch_logged s1).2
      if ch2 = 47 then
        match skip_line_logged n ch s2 with
        | none => none
        | some (_, s3) => skip_loop_logged n s3
      else if ch2 = 42 then
        match skip_block_logged n 0 s2 with
        | none => none
        | some (closed, s3) => if !closed then some (EOF, s3) else skip_loop_logged n s3
      else some (47, ungetch_logged ch2 s2)
    else some (ch, s1)

/-- The function `skip_ws_and_comments`, with the log. -/
def skip_ws_and_comments_logged (s : Logged) : Option (Int × Logged) :=
  skip_loop_logged (budget s.st) s

/-- The loop `while ((ch=getch())!=EOF && (isalnum(ch)||ch=='_')) append_char(...)`;
the result is the last `ch`, the buffer and the state.  With the log. -/
def ident_loop_logged : Nat → List Int → Logged → Option (Int × List Int × Logged)
  | 0, _, _ => none
  | n + 1, buf, s =>
    let ch := (getch_logged s).1
    let s1 := (getch_logged s).2
    if ch ≠ EOF ∧ (isalnum ch ∨ ch = 95) then ident_loop_logged n (append_char buf 256 ch) s1
    else some (ch, buf, s1)

/-- The function `scan_identifier_or_keyword`, with the log. -/
def scan_identifier_or_keyword_logged (first : Int) (L C : Int) (s : Logged) :
    Option (Token × Logged) :=
  let buf := append_char [] 256 first
  match ident_loop_logged (budget s.st) buf s with
  | none => none
  | some (ch, buf, s1) =>
    let s2 := if ch ≠ EOF then ungetch_logged ch s1 else s1
    some (set_token (if is_keyword buf then T_KEYWORD else T_IDENTIFIER) (some buf) L C, s2)

/-- The loop `while ((ch=getch())!=EOF && isdigit(ch)) append_char(...)`, which
`scan_number` runs three times; the result is the last `ch`, the buffer and the
state.  With the log. -/
def digit_loop_logged : Nat → List Int → Logged → Option (Int × List Int × Logged)
  | 0, _, _ => none
  | n + 1, buf, s =>
    let ch := (getch_logged s).1
    let s1 := (getch_logged s).2
    if ch ≠ EOF ∧ isdigit ch then digit_loop_logged n (append_char buf 256 ch) s1
    else some (ch, buf, s1)

/-- The part of `scan_number` from `if (ch=='e'||ch=='E')` to its end, with the
log. -/
def scan_exponent_logged (ch : Int) (buf : List Int) (L C : Int) (s : Logged) :
    Option (Token × Logged) :=
  if ch = 101 ∨ ch = 69 then
    let save_ch := ch
    let buf := append_char buf 256 ch
    let ch2 := (getch_logged s).1
    let s1 := (getch_logged s).2
    let signed : Bool := ch2 = 43 ∨ ch2 = 45
    let buf := if signed then append_char buf 256 ch2 else buf
    let s2 := if signed then (getch_logged s1).2 else s1
    let ch2 := if signed then (getch_logged s1).1 else ch2
    if ¬ isdigit ch2 then
      let buf := if buf.length ≠ 0 then buf.dropLast else buf
      let s3 := ungetch_logged save_ch s2
      let s4 := if ch2 ≠ EOF then ungetch_logged ch2 s3 else s3
      some (set_token T_NUMBER (some buf) L C, s4)
    else
      let buf := append_char buf 256 ch2
      match digit_loop_logged (budget s2.st) buf s2 with
      | none => none
      | some (ch, buf, s3) =>
        let s4 := if ch ≠ EOF then ungetch_logged ch s3 else s3
        some (set_token T_NUMBER (some buf) L C, s4)
  else
    let s1 := if ch ≠ EOF then ungetch_logged ch s else s
    some (set_token T_NUMBER (some buf) L C, s1)

/-- The function `scan_number`, with the log. -/
def scan_number_logged (first : Int) (L C : Int) (s : Logged) : Option (Token × Logged) :=
  let buf := append_char [] 256 first
  match digit_loop_logged (budget s.st) buf s with
  | none => none
  | some (ch, buf, s1) =>
    if ch = 46 then
      let buf := append_char buf 256 ch
      let ch2 := (getch_logged s1).1
      let s2 := (getch_logged s1).2
      if isdigit ch2 then
        let buf := append_char buf 256 ch2
        match digit_loop_logged (budget s2.st) buf s2 with
        | none => none
        | some (ch, buf, s3) => scan_exponent_logged ch buf L C s3
      else scan_exponent_logged ch2 buf L C s2
    else scan_exponent_logged ch buf L C s1

/-- The cases `=`, `!`, `<`, `>` of `next_token`, which differ in their
tokens only: `{ int c2=getch(); if (c2=='='){ set_token(out,two,lex2,L,C); return two; }
ungetch(c2); set_token(out,one,lex1,L,C); return one; }`.  With the log. -/
def scan_relop_logged (two : TokenType) (lex2 : String) (one : TokenType) (lex1 : String)
    (L C : Int) (s : Logged) : Token × Logged :=
  let c2 := (getch_logged s).1
  let s1 := (getch_logged s).2
  if c2 = 61 then (set_token two (some (cstr lex2)) L C, s1)
  else (set_token one (some (cstr lex1)) L C, ungetch_logged c2 s1)

/-- The function `next_token`, with the log. -/
def next_token_logged (s : Logged) : Option (Token × Logged) :=
  match skip_ws_and_comments_logged s with
  | none => none
  | some (ch, s1) =>
    if ch = EOF then some (set_token T_EOF (some (cstr "EOF")) s1.st.g_line s1.st.g_col, s1)
    else
      let L := s1.st.g_line
      let C := if s1.st.g_col > 0 then s1.st.g_col else 1
      if isalpha ch ∨ ch = 95 then scan_identifier_or_keyword_logged ch L C s1
      else if isdigit ch then scan_number_logged ch L C s1
      else if ch = 46 then some (set_token T_ERROR (some (cstr ".")) L C, s1)
      else if ch = 40 then some (set_token T_LPAREN (some (cstr "(")) L C, s1)
      else if ch = 41 then some (set_token T_RPAREN (some (cstr ")")) L C, s1)
      else if ch = 123 then some (set_token T_LBRACE (some (cstr "\x7b")) L C, s1)
      else if ch = 125 then some (set_token T_RBRACE (some (cstr "\x7d")) L C, s1)
      else if ch = 59 then some (set_token T_SEMI (some (cstr ";")) L C, s1)
      else if ch = 44 then some (set_token T_COMMA (some (cstr ",")) L C, s1)
      else if ch = 43 then some (set_token T_PLUS (some (cstr "+")) L C, s1)
      else if ch = 45 then some (set_token T_MINUS (some (cstr "-")) L C, s1)
      else if ch = 42 then some (set_token T_MUL (some (cstr "*")) L C, s1)
      else if ch = 47 then some (set_token T_DIV (some (cstr "/")) L C, s1)
      else if ch = 61 then some (scan_relop_logged T_EQ "==" T_ASSIGN "=" L C s1)
      else if ch = 33 then some (scan_relop_logged T_NEQ "!=" T_ERROR "!" L C s1)
      else if ch = 60 then some (scan_relop_logged T_LTE "<=" T_LT "<" L C s1)
      else if ch = 62 then some (scan_relop_logged T_GTE ">=" T_GT ">" L C s1)
      else some (set_token T_ERROR (some [ch]) L C, s1)

/-- The line counter of the state is at least 1, and so is every value in the
log. -/
def LogOk (s : Logged) : Prop := 1 ≤ s.st.g_line ∧ ∀ l ∈ s.lines, 1 ≤ l

/-- The state `s` with its log is in order and `ch` is the character that the
last call of `getch` returned: if `ch` is a newline, the line counter is at
least 2. -/
def ReadOk (ch : Int) (s : Logged) : Prop := LogOk s ∧ (ch = 10 → 2 ≤ s.st.g_line)

set_option maxRecDepth 4000

/-! ## The character source -/

theorem ofByte_nonneg (b : Byte) : 0 ≤ ofByte b := by
  unfold ofByte; omega

theorem ofByte_lt (b : Byte) : ofByte b < 256 := by
  unfold ofByte; omega

theorem ofByte_ne_EOF (b : Byte) : ofByte b ≠ EOF := by
  unfold ofByte EOF; omega

theorem ungetch_EOF (s : Scanner) : ungetch EOF s = s := by
  simp [ungetch]

/-- Reading with an empty pushback slot at the end of the file. -/
theorem getch_nil (l c p : Int) :
    getch ⟨[], l, c, 0, p⟩ = (EOF, ⟨[], l, c, 0, p⟩) := by
  simp [getch, fgetc, show EOF ≠ (10 : Int) by decide]

/-- Reading a byte other than a newline with an empty pushback slot. -/
theorem getch_cons (b : Byte) (rest : List Byte) (l c p : Int) (h : ofByte b ≠ 10) :
    getch ⟨b :: rest, l, c, 0, p⟩ = (ofByte b, ⟨rest, l, c + 1, 0, p⟩) := by
  simp [getch, fgetc, h, ofByte_ne_EOF]

/-- Reading a newline with an empty pushback slot. -/
theorem getch_newline (b : Byte) (rest : List Byte) (l c p : Int) (h : ofByte b = 10) :
    getch ⟨b :: rest, l, c, 0, p⟩ = (10, ⟨rest, l + 1, 0, 0, p⟩) := by
  simp [getch, fgetc, h]

/-- Reading a pushed-back character other than a newline. -/
theorem getch_push (inp : List Byte) (l c hv p : Int) (hv0 : hv ≠ 0) (h : p ≠ 10)
    (hE : p ≠ EOF) : getch ⟨inp, l, c, hv, p⟩ = (p, ⟨inp, l, c + 1, 0, p⟩) := by
  simp [getch, hv0, h, hE]

/-- Reading a pushed-back newline. -/
theorem getch_push_newline (inp : List Byte) (l c hv : Int) (hv0 : hv ≠ 0) :
    getch ⟨inp, l, c, hv, 10⟩ = (10, ⟨inp, l + 1, 0, 0, 10⟩) := by
  simp [getch, hv0]

/-- Pushing back a character other than a newline. -/
theorem ungetch_char (ch : Int) (inp : List Byte) (l c hv p : Int) (h : ch ≠ 10)
    (hE : ch ≠ EOF) :
    ungetch ch ⟨inp, l, c, hv, p⟩ = ⟨inp, l, if c - 1 < 0 then 0 else c - 1, 1, ch⟩ := by
  simp only [ungetch, h, hE, if_false]
  split_ifs <;> rfl

/-- Pushing back a newline. -/
theorem ungetch_newline (inp : List Byte) (l c hv p : Int) :
    ungetch 10 ⟨inp, l, c, hv, p⟩ = ⟨inp, l - 1, c, 1, 10⟩ := by
  simp [ungetch, show (10 : Int) ≠ EOF by decide]

theorem getch_have_push (s : Scanner) : (getch s).2.g_have_push = 0 := by
  unfold getch
  by_cases h : s.g_have_push = 0 <;> simp only [h] <;> split_ifs <;> simp_all

/-- In a reachable state the column counter is not negative and the pushback
slot never holds the end marker. -/
theorem reachable_inv {s : Scanner} (h : Reachable s) :
    0 ≤ s.g_col ∧ (s.g_have_push ≠ 0 → s.g_push_ch ≠ EOF) := by
  induction h with
  | init f => simp [scanner_init]
  | @getch s _ ih =>
    obtain ⟨hc, _⟩ := ih
    refine ⟨?_, fun h => absurd (getch_have_push s) h⟩
    unfold getch
    by_cases hp : s.g_have_push = 0 <;> simp only [hp] <;> split_ifs <;> simp <;> omega
  | @ungetch s c _ ih =>
    obtain ⟨hc, hp⟩ := ih
    obtain ⟨inp, l, col, hv, p⟩ := s
    simp only at hc hp
    by_cases hE : c = EOF
    · subst hE; rw [ungetch_EOF]; exact ⟨hc, hp⟩
    · by_cases hn : c = 10
      · subst hn; rw [ungetch_newline]; exact ⟨hc, fun _ => hE⟩
      · rw [ungetch_char _ _ _ _ _ _ hn hE]
        refine ⟨?_, fun _ => hE⟩
        show 0 ≤ (if col - 1 < 0 then 0 else col - 1)
        split_ifs <;> omega

/-- The function `getch` delivers the head of `pending` (the end marker if
there is none) and leaves its tail, provided the slot holds no end marker. -/
theorem getch_pending (s : Scanner) (hp : s.g_have_push ≠ 0 → s.g_push_ch ≠ EOF) :
    (getch s).1 = (pending s).headD EOF ∧ pending (getch s).2 = (pending s).tail := by
  obtain ⟨inp, l, c, hv, p⟩ := s
  by_cases h : hv = 0
  · subst h
    cases inp with
    | nil => simp [getch_nil, pending]
    | cons b rest =>
      by_cases hb : ofByte b = 10
      · simp [getch_newline _ _ _ _ _ hb, pending, hb]
      · simp [getch_cons _ _ _ _ _ hb, pending]
  · have hp2 : p ≠ EOF := hp h
    by_cases hn : p = 10
    · subst hn; simp [getch_push_newline _ _ _ _ h, pending, h]
    · simp [getch_push _ _ _ _ _ h hn hp2, pending, h]

/-- Pushing back the character just read restores what is pending. -/
theorem pending_ungetch_getch (s : Scanner) (hp : s.g_have_push ≠ 0 → s.g_push_ch ≠ EOF) :
    pending (ungetch (getch s).1 (getch s).2) = pending s := by
  obtain ⟨inp, l, c, hv, p⟩ := s
  by_cases h : hv = 0
  · subst h
    cases inp with
    | nil => simp [getch_nil, ungetch_EOF]
    | cons b rest =>
      by_cases hb : ofByte b = 10
      · simp [getch_newline _ _ _ _ _ hb, ungetch_newline, pending, hb]
      · simp [getch_cons _ _ _ _ _ hb, ungetch_char _ _ _ _ _ _ hb (ofByte_ne_EOF b), pending]
  · have hp2 : p ≠ EOF := hp h
    by_cases hn : p = 10
    · subst hn; simp [getch_push_newline _ _ _ _ h, ungetch_newline, pending, h]
    · simp [getch_push _ _ _ _ _ h hn hp2, ungetch_char _ _ _ _ _ _ hn hp2, pending, h]

/-- What a call of `getch` in a reachable state returns: the end marker only
when nothing is pending, and then the state is unchanged; a newline leaves the
column at 0, any other character leaves it at 1 or more. -/
theorem getch_result (s : Scanner) (hc : 0 ≤ s.g_col)
    (hp : s.g_have_push ≠ 0 → s.g_push_ch ≠ EOF) :
    ((getch s).1 = EOF → (getch s).2 = s ∧ s.g_have_push = 0 ∧ s.g_in = []) ∧
    ((getch s).1 ≠ EOF → (getch s).1 ≠ 10 → 1 ≤ (getch s).2.g_col) ∧
    ((getch s).1 = 10 → (getch s).2.g_col = 0) := by
  obtain ⟨inp, l, c, hv, p⟩ := s
  simp only at hc hp
  by_cases h : hv = 0
  · subst h
    cases inp with
    | nil => simp [getch_nil, show EOF ≠ (10 : Int) by decide]
    | cons b rest =>
      by_cases hb : ofByte b = 10
      · simp [getch_newline _ _ _ _ _ hb, show (10 : Int) ≠ EOF by decide]
      · simp only [getch_cons _ _ _ _ _ hb]
        exact ⟨fun h => absurd h (ofByte_ne_EOF b), fun _ _ => by show 1 ≤ c + 1; omega,
          fun h => absurd h hb⟩
  · have hp2 : p ≠ EOF := hp h
    by_cases hn : p = 10
    · subst hn; simp [getch_push_newline _ _ _ _ h, show (10 : Int) ≠ EOF by decide]
    · simp only [getch_push _ _ _ _ _ h hn hp2]
      exact ⟨fun h => absurd h hp2, fun _ _ => by show 1 ≤ c + 1; omega, fun h => absurd h hn⟩

/-- Pushing back `x` and reading again, in a state whose column is 0 if `x` is
a newline and at least 1 otherwise. -/
theorem ungetch_then_getch (x : Int) (t : Scanner) (hx : x ≠ EOF)
    (h1 : x ≠ 10 → 1 ≤ t.g_col) (h0 : x = 10 → t.g_col = 0) :
    (getch (ungetch x t)).1 = x ∧
    (getch (ungetch x t)).2.g_line = t.g_line ∧
    (getch (ungetch x t)).2.g_col = t.g_col ∧
    (x ≠ 10 → (ungetch x t).g_col = t.g_col - 1 ∧ (ungetch x t).g_line = t.g_line) ∧
    (x = 10 → (ungetch x t).g_line = t.g_line - 1 ∧ (ungetch x t).g_col = t.g_col) := by
  obtain ⟨inp, l, c, hv, p⟩ := t
  by_cases hn : x = 10
  · subst hn
    have hc : c = 0 := h0 rfl
    subst hc
    simp [ungetch_newline, getch_push_newline]
  · have hc : 1 ≤ c := h1 hn
    have hc1 : ¬ (c - 1 < 0) := by omega
    rw [ungetch_char _ _ _ _ _ _ hn hx, if_neg hc1, getch_push _ _ _ _ _ one_ne_zero hn hx]
    simp [hn]

/-- C8: in every state reachable from `scanner_init`, with `c` the character
`getch` has just returned, `ungetch(c)` followed by `getch()` returns `c` again
and leaves line and column as they were before the `ungetch`; `ungetch(c)`
itself takes one off the column for a `c` other than newline and end marker,
takes one off the line and keeps the column for a newline, and `ungetch` of the
end marker changes no state. -/
theorem getch_ungetch_roundtrip (s : Scanner) (h : Reachable s) :
    (getch (ungetch (getch s).1 (getch s).2)).1 = (getch s).1 ∧
    (getch (ungetch (getch s).1 (getch s).2)).2.g_line = (getch s).2.g_line ∧
    (getch (ungetch (getch s).1 (getch s).2)).2.g_col = (getch s).2.g_col ∧
    ((getch s).1 ≠ 10 → (getch s).1 ≠ EOF →
      (ungetch (getch s).1 (getch s).2).g_col = (getch s).2.g_col - 1 ∧
      (ungetch (getch s).1 (getch s).2).g_line = (getch s).2.g_line) ∧
    ((getch s).1 = 10 →
      (ungetch (getch s).1 (getch s).2).g_line = (getch s).2.g_line - 1 ∧
      (ungetch (getch s).1 (getch s).2).g_col = (getch s).2.g_col) ∧
    (∀ t : Scanner, ungetch EOF t = t) := by
  obtain ⟨hc, hp⟩ := reachable_inv h
  obtain ⟨hE, h1, h0⟩ := getch_result s hc hp
  by_cases hx : (getch s).1 = EOF
  · obtain ⟨e1, e2, e3⟩ := hE hx
    have hne : EOF ≠ (10 : Int) := by decide
    rw [hx, ungetch_EOF, e1, e1, hx]
    exact ⟨rfl, rfl, rfl, fun _ h => absurd rfl h, fun h => absurd h hne, ungetch_EOF⟩
  · obtain ⟨k1, k2, k3, k4, k5⟩ := ungetch_then_getch (getch s).1 (getch s).2 hx (h1 hx) h0
    exact ⟨k1, k2, k3, fun h _ => k4 h, k5, ungetch_EOF⟩

/-- A run of C8 on a state reached from `scanner_init`. -/
theorem getch_ungetch_roundtrip_witness :
    (getch (ungetch (getch (scanner_init (bytes "ab"))).1
      (getch (scanner_init (bytes "ab"))).2)).1 = 97 :=
  (getch_ungetch_roundtrip (scanner_init (bytes "ab")) (Reachable.init _)).1.trans (by decide)

/-! ## Skipping whitespace and comments -/

/-- A character other than the end marker and `/` that `skip_ws_and_comments`
returns is the character it read last: the pushback slot is empty. -/
theorem skip_loop_no_push : ∀ (n : Nat) (s s1 : Scanner) (ch : Int),
    skip_loop n s = some (ch, s1) → ch ≠ EOF → ch ≠ 47 → s1.g_have_push = 0 := by
  intro n
  induction n with
  | zero => intro s s1 ch h; simp [skip_loop] at h
  | succ n ih =>
    intro s s1 ch h hE h47
    simp only [skip_loop] at h
    split_ifs at h with a1 a2 a3 a4 a5
    · simp only [Option.some.injEq, Prod.mk.injEq] at h
      exact absurd h.1.symm hE
    · exact ih _ _ _ h hE h47
    · cases hl : skip_line n (getch s).1 (getch (getch s).2).2 with
      | none => simp [hl] at h
      | some r => simp only [hl] at h; exact ih _ _ _ h hE h47
    · cases hl : skip_block n 0 (getch (getch s).2).2 with
      | none => simp [hl] at h
      | some r =>
        simp only [hl] at h
        split_ifs at h
        · simp only [Option.some.injEq, Prod.mk.injEq] at h
          exact absurd h.1.symm hE
        · exact ih _ _ _ h hE h47
    · simp only [Option.some.injEq, Prod.mk.injEq] at h
      exact absurd h.1.symm h47
    · simp only [Option.some.injEq, Prod.mk.injEq] at h
      rw [← h.2]
      exact getch_have_push s

theorem skip_no_push (s s1 : Scanner) (ch : Int)
    (h : skip_ws_and_comments s = some (ch, s1)) (hE : ch ≠ EOF) (h47 : ch ≠ 47) :
    s1.g_have_push = 0 :=
  skip_loop_no_push _ s s1 ch h hE h47

/-- With an empty pushback slot, what is pending is the unread file. -/
theorem pending_no_push (s : Scanner) (h : s.g_have_push = 0) :
    pending s = s.g_in.map ofByte := by
  simp [pending, h]

/-- At the end of the input `next_token` returns the end-of-stream token. -/
theorem next_token_at_end (s : Scanner) (h0 : s.g_have_push = 0) (hin : s.g_in = []) :
    next_token s = some (⟨T_EOF, cstr "EOF", s.g_line, s.g_col⟩, s) := by
  obtain ⟨inp, l, c, hv, p⟩ := s
  simp only at h0 hin
  subst h0 hin
  simp only [next_token, skip_ws_and_comments, budget, skip_loop, getch_nil]
  simp [set_token, c_string, cstr]

/-! ## Relational and assignment operators -/

/-- The token and state `scan_relop` gives when a `=` follows. -/
theorem scan_relop_two (two one : TokenType) (lex2 lex1 : String) (L C : Int)
    (s1 : Scanner) (rest : List Byte) (h0 : s1.g_have_push = 0) (hin : s1.g_in = 61 :: rest) :
    (scan_relop two lex2 one lex1 L C s1).1 = set_token two (some (cstr lex2)) L C ∧
    pending (scan_relop two lex2 one lex1 L C s1).2 = rest.map ofByte := by
  obtain ⟨inp, l, c, hv, p⟩ := s1
  simp only at h0 hin
  subst h0 hin
  have h61 : ofByte 61 = 61 := by decide
  have hne : ofByte 61 ≠ 10 := by decide
  simp [scan_relop, getch_cons _ _ _ _ _ hne, h61, pending]

/-- The token and state `scan_relop` gives when no `=` follows. -/
theorem scan_relop_one (two one : TokenType) (lex2 lex1 : String) (L C : Int)
    (s1 : Scanner) (h0 : s1.g_have_push = 0)
    (hin : ∀ b ∈ s1.g_in.head?, ofByte b ≠ 61) :
    (scan_relop two lex2 one lex1 L C s1).1 = set_token one (some (cstr lex1)) L C ∧
    pending (scan_relop two lex2 one lex1 L C s1).2 = s1.g_in.map ofByte ∧
    (s1.g_in = [] → (scan_relop two lex2 one lex1 L C s1).2 = s1) := by
  have hc2 : (getch s1).1 ≠ 61 := by
    obtain ⟨inp, l, c, hv, p⟩ := s1
    simp only at h0 hin
    subst h0
    cases inp with
    | nil => simp [getch_nil, EOF]
    | cons b rest =>
      have hb : ofByte b ≠ 61 := hin b (by simp)
      by_cases hn : ofByte b = 10
      · simp [getch_newline _ _ _ _ _ hn]
      · simp [getch_cons _ _ _ _ _ hn, hb]
  refine ⟨by simp [scan_relop, hc2], ?_, ?_⟩
  · simp only [scan_relop, hc2, if_false]
    rw [pending_ungetch_getch s1 (fun h => absurd h0 h), pending_no_push s1 h0]
  · intro hnil
    obtain ⟨inp, l, c, hv, p⟩ := s1
    simp only at h0 hnil
    subst h0 hnil
    simp [scan_relop, getch_nil, ungetch_EOF, show EOF ≠ (61 : Int) by decide]

/-- C4: for each first character `=`, `!`, `<`, `>` that `skip_ws_and_comments`
delivers: if the next character of the input is `=`, `next_token` returns the
two-character token (`==`, `!=`, `<=`, `>=`) and both characters are consumed;
otherwise it returns the one-character token (`=`, error `!`, `<`, `>`), what
follows stays pending untouched, and at the end of the input the next call
returns the end-of-stream token. -/
theorem relop_tokens (s s1 : Scanner) (q : Int × (TokenType × String) × (TokenType × String))
    (hq : q ∈ [((61 : Int), (T_EQ, "=="), (T_ASSIGN, "=")), (33, (T_NEQ, "!="), (T_ERROR, "!")),
               (60, (T_LTE, "<="), (T_LT, "<")), (62, (T_GTE, ">="), (T_GT, ">"))])
    (hskip : skip_ws_and_comments s = some (q.1, s1)) :
    (∀ rest : List Byte, s1.g_in = 61 :: rest →
      ∃ s2, next_token s = some (⟨q.2.1.1, cstr q.2.1.2, s1.g_line,
                if s1.g_col > 0 then s1.g_col else 1⟩, s2) ∧
        pending s2 = rest.map ofByte) ∧
    ((∀ b ∈ s1.g_in.head?, ofByte b ≠ 61) →
      ∃ s2, next_token s = some (⟨q.2.2.1, cstr q.2.2.2, s1.g_line,
                if s1.g_col > 0 then s1.g_col else 1⟩, s2) ∧
        pending s2 = s1.g_in.map ofByte ∧
        (s1.g_in = [] → ∃ s3, next_token s2 = some (⟨T_EOF, cstr "EOF", s2.g_line, s2.g_col⟩, s3))) := by
  have hpush : s1.g_have_push = 0 := by
    apply skip_no_push s s1 q.1 hskip
    all_goals
      simp only [List.mem_cons, List.mem_singleton, List.not_mem_nil, or_false] at hq
      rcases hq with rfl | rfl | rfl | rfl <;> decide
  have hnt : next_token s = some (scan_relop q.2.1.1 q.2.1.2 q.2.2.1 q.2.2.2 s1.g_line
      (if s1.g_col > 0 then s1.g_col else 1) s1) := by
    simp only [next_token, hskip]
    simp only [List.mem_cons, List.mem_singleton, List.not_mem_nil, or_false] at hq
    rcases hq with rfl | rfl | rfl | rfl <;> simp [isalpha, isdigit, EOF]
  have hlex : ∀ (tp : TokenType) (x : String) (L C : Int),
      (x = "==" ∨ x = "=" ∨ x = "!=" ∨ x = "!" ∨ x = "<=" ∨ x = "<" ∨ x = ">=" ∨ x = ">") →
      set_token tp (some (cstr x)) L C = ⟨tp, cstr x, L, C⟩ := by
    intro tp x L C hx
    rcases hx with rfl | rfl | rfl | rfl | rfl | rfl | rfl | rfl <;>
      simp [set_token, c_string, cstr]
  have hq2 : (q.2.1.2 = "==" ∨ q.2.1.2 = "=" ∨ q.2.1.2 = "!=" ∨ q.2.1.2 = "!" ∨ q.2.1.2 = "<=" ∨
      q.2.1.2 = "<" ∨ q.2.1.2 = ">=" ∨ q.2.1.2 = ">") ∧
      (q.2.2.2 = "==" ∨ q.2.2.2 = "=" ∨ q.2.2.2 = "!=" ∨ q.2.2.2 = "!" ∨ q.2.2.2 = "<=" ∨
      q.2.2.2 = "<" ∨ q.2.2.2 = ">=" ∨ q.2.2.2 = ">") := by
    simp only [List.mem_cons, List.mem_singleton, List.not_mem_nil, or_false] at hq
    rcases hq with rfl | rfl | rfl | rfl <;> simp
  constructor
  · intro rest hin
    obtain ⟨e1, e2⟩ := scan_relop_two q.2.1.1 q.2.2.1 q.2.1.2 q.2.2.2 s1.g_line
      (if s1.g_col > 0 then s1.g_col else 1) s1 rest hpush hin
    refine ⟨_, ?_, e2⟩
    rw [hnt, ← hlex _ _ _ _ hq2.1, ← e1]
  · intro hin
    obtain ⟨e1, e2, e3⟩ := scan_relop_one q.2.1.1 q.2.2.1 q.2.1.2 q.2.2.2 s1.g_line
      (if s1.g_col > 0 then s1.g_col else 1) s1 hpush hin
    refine ⟨_, ?_, e2, ?_⟩
    · rw [hnt, ← hlex _ _ _ _ hq2.2, ← e1]
    · intro hnil
      rw [e3 hnil]
      exact ⟨_, next_token_at_end s1 hpush hnil⟩

/-- C4 on the input `<=x`: the token is `<=` and `x` stays pending. -/
theorem relop_tokens_witness :
    ∃ s2, next_token (scanner_init (bytes "<=x")) = some (⟨T_LTE, cstr "<=", 1, 1⟩, s2) ∧
      pending s2 = cstr "x" :=
  (relop_tokens (scanner_init (bytes "<=x")) ⟨bytes "=x", 1, 1, 0, 0⟩
      (60, (T_LTE, "<="), (T_LT, "<")) (by decide) (by decide)).1 (bytes "x") (by decide)

/-! ## Error tokens -/

/-- C6 as stated fails for the NUL byte: the file that holds the single byte 0
gives an error token, but its text is empty, not the one character. -/
theorem nul_byte_gives_empty_text :
    (next_token (scanner_init [0])).map (fun r => (r.1.type, r.1.lexeme)) = some (T_ERROR, []) ∧
    (next_token (scanner_init [0])).map (fun r => r.1.lexeme) ≠ some [ofByte 0] := by
  decide

/-- C6, amended: if the first character `c` that `skip_ws_and_comments` delivers
is a byte that is no letter, digit or underscore, none of
`( ) { } ; , + - * / = < >`, and not a `!` with a `=` right after it, then
`next_token` returns an error token, consumes only `c`, and leaves what follows
`c` pending for the next call; the text of the token is the one character `c`
unless `c` is the NUL byte, for which the text is empty.  In particular `$`
scans to error `$` then end-of-stream, and a bare `.` gives error `.`. -/
theorem error_token :
    (∀ (s s1 : Scanner) (c : Byte),
      skip_ws_and_comments s = some (ofByte c, s1) →
      isalpha (ofByte c) = false → isdigit (ofByte c) = false → ofByte c ≠ 95 →
      ofByte c ∉ [(40 : Int), 41, 123, 125, 59, 44, 43, 45, 42, 47, 61, 60, 62] →
      (ofByte c = 33 → ∀ b ∈ s1.g_in.head?, ofByte b ≠ 61) →
      ∃ s2, next_token s = some (⟨T_ERROR, if ofByte c = 0 then [] else [ofByte c], s1.g_line,
                if s1.g_col > 0 then s1.g_col else 1⟩, s2) ∧
        pending s2 = s1.g_in.map ofByte) ∧
    tokens (bytes "$") = some [⟨T_ERROR, cstr "$", 1, 1⟩, ⟨T_EOF, cstr "EOF", 1, 1⟩] ∧
    tokens (bytes ".") = some [⟨T_ERROR, cstr ".", 1, 1⟩, ⟨T_EOF, cstr "EOF", 1, 1⟩] := by
  refine ⟨?_, by decide, by decide⟩
  intro s s1 c hskip ha hd hu hp hbang
  simp only [List.mem_cons, List.mem_singleton, List.not_mem_nil, or_false, not_or] at hp
  obtain ⟨p1, p2, p3, p4, p5, p6, p7, p8, p9, p10, p11, p12, p13⟩ := hp
  have hE := ofByte_ne_EOF c
  have hpush : s1.g_have_push = 0 := skip_no_push s s1 _ hskip hE p10
  by_cases h33 : ofByte c = 33
  · obtain ⟨e1, e2, _⟩ := scan_relop_one T_NEQ T_ERROR "!=" "!" s1.g_line
      (if s1.g_col > 0 then s1.g_col else 1) s1 hpush (hbang h33)
    have hnt : next_token s = some (scan_relop T_NEQ "!=" T_ERROR "!" s1.g_line
        (if s1.g_col > 0 then s1.g_col else 1) s1) := by
      simp only [next_token, hskip, h33]
      simp [isalpha, isdigit, EOF]
    have e3 : set_token T_ERROR (some (cstr "!")) s1.g_line
        (if s1.g_col > 0 then s1.g_col else 1) =
        ⟨T_ERROR, [33], s1.g_line, if s1.g_col > 0 then s1.g_col else 1⟩ := by
      simp [set_token, c_string, cstr]
    refine ⟨_, ?_, e2⟩
    rw [hnt, h33, if_neg (show ¬ ((33 : Int) = 0) by decide), ← e3, ← e1]
  · by_cases h46 : ofByte c = 46
    · refine ⟨s1, ?_, pending_no_push s1 hpush⟩
      simp only [next_token, hskip, h46]
      simp [isalpha, isdigit, EOF, set_token, c_string, cstr]
    · refine ⟨s1, ?_, pending_no_push s1 hpush⟩
      simp only [next_token, hskip]
      by_cases h0 : ofByte c = 0
      · simp [h0, isalpha, isdigit, EOF, set_token, c_string]
      · simp [ha, hd, hu, hE, p1, p2, p3, p4, p5, p6, p7, p8, p9, p10, p11, p12, p13, h33, h46,
          h0, set_token, c_string]

/-- C6, amended, on the file `$;`: an error token `$`, and `;` stays pending. -/
theorem error_token_witness :
    ∃ s2, next_token (scanner_init (bytes "$;")) = some (⟨T_ERROR, cstr "$", 1, 1⟩, s2) ∧
      pending s2 = cstr ";" :=
  error_token.1 (scanner_init (bytes "$;")) ⟨bytes ";", 1, 1, 0, 0⟩ 36
    (by decide) (by decide) (by decide) (by decide) (by decide) (by decide)

/-! ## Identifiers and keywords -/

/-- The guarded `if (ch!=EOF) ungetch(ch);` is `ungetch(ch)`. -/
theorem ungetch_guarded (x : Int) (t : Scanner) :
    (if x ≠ EOF then ungetch x t else t) = ungetch x t := by
  by_cases h : x = EOF
  · subst h; simp [ungetch_EOF]
  · simp [h]

/-- The character `getch` returns when the pushback slot is empty. -/
theorem getch_fst_no_push (inp : List Byte) (l c p : Int) :
    (getch ⟨inp, l, c, 0, p⟩).1 = (inp.head?.map ofByte).getD EOF := by
  cases inp with
  | nil => simp [getch_nil]
  | cons b rest =>
    by_cases hb : ofByte b = 10
    · simp [getch_newline _ _ _ _ _ hb, hb]
    · simp [getch_cons _ _ _ _ _ hb]

/-- A buffer with room takes the character. -/
theorem append_char_room (buf : List Int) (ch : Int) (h : buf.length + 1 ≤ 255) :
    append_char buf 256 ch = buf ++ [ch] := by
  unfold append_char
  rw [if_pos (by omega)]

/-- The loop of `scan_identifier_or_keyword` on a run of identifier characters
that fits the buffer: it stores the run and stops at the character after it. -/
theorem ident_loop_run (run : List Byte) : ∀ (n : Nat) (buf : List Int) (rest : List Byte)
    (l c p : Int),
    (∀ b ∈ run, is_ident_char (ofByte b) = true) →
    (∀ b ∈ rest.head?, is_ident_char (ofByte b) = false) →
    run.length < n → buf.length + run.length ≤ 255 →
    ident_loop n buf ⟨run ++ rest, l, c, 0, p⟩ =
      some ((getch ⟨rest, l, c + run.length, 0, p⟩).1, buf ++ run.map ofByte,
            (getch ⟨rest, l, c + run.length, 0, p⟩).2) := by
  induction run with
  | nil =>
    intro n buf rest l c p _ hrest hn _
    obtain ⟨m, rfl⟩ : ∃ m, n = m + 1 := ⟨n - 1, by simp at hn; omega⟩
    have hstop : ¬ ((getch ⟨rest, l, c, 0, p⟩).1 ≠ EOF ∧
        (isalnum (getch ⟨rest, l, c, 0, p⟩).1 = true ∨ (getch ⟨rest, l, c, 0, p⟩).1 = 95)) := by
      rw [getch_fst_no_push]
      cases rest with
      | nil => simp
      | cons b r =>
        have := hrest b (by simp)
        simp only [is_ident_char, Bool.or_eq_false_iff, decide_eq_false_iff_not] at this
        simp [this.1, this.2]
    simp only [List.nil_append, ident_loop, List.length_nil, Nat.cast_zero, add_zero,
      List.map_nil, List.append_nil]
    rw [if_neg hstop]
  | cons b run ih =>
    intro n buf rest l c p hrun hrest hn hlen
    obtain ⟨m, rfl⟩ : ∃ m, n = m + 1 := ⟨n - 1, by simp at hn; omega⟩
    have hb : is_ident_char (ofByte b) = true := hrun b (by simp)
    have hb10 : ofByte b ≠ 10 := by
      intro h; rw [h] at hb; exact absurd hb (by decide)
    have hcont : (ofByte b ≠ EOF ∧ (isalnum (ofByte b) = true ∨ ofByte b = 95)) := by
      refine ⟨ofByte_ne_EOF b, ?_⟩
      simpa [is_ident_char] using hb
    simp only [List.length_cons] at hn hlen
    simp only [List.cons_append, ident_loop, getch_cons _ _ _ _ _ hb10]
    rw [if_pos hcont, append_char_room _ _ (by omega),
      ih m (buf ++ [ofByte b]) rest l (c + 1) p (fun x hx => hrun x (by simp [hx])) hrest
        (by omega) (by simp; omega)]
    have hc : c + 1 + (run.length : Int) = c + ((b :: run).length : Int) := by
      simp only [List.length_cons]; push_cast; ring
    rw [hc]
    simp

/-- An identifier character is not the NUL character. -/
theorem ident_char_ne_zero (c : Int) (h : is_ident_char c = true) : c ≠ 0 := by
  intro h0; rw [h0] at h; exact absurd h (by decide)

/-- A list without NUL is the C string it holds. -/
theorem c_string_of_nonzero (l : List Int) (h : ∀ x ∈ l, x ≠ 0) : c_string l = l := by
  unfold c_string
  rw [List.takeWhile_eq_self_iff]
  intro x hx
  simpa using h x hx

/-- On a buffer without NUL, `is_keyword` tests membership in `KW`. -/
theorem is_keyword_iff (buf : List Int) (h : c_string buf = buf) :
    is_keyword buf = true ↔ buf ∈ KW := by
  have hKW : ∀ k ∈ KW, c_string k = k := by decide
  unfold is_keyword
  rw [h, List.any_eq_true]
  constructor
  · rintro ⟨k, hk, e⟩
    rw [hKW k hk] at e
    exact (of_decide_eq_true e) ▸ hk
  · intro hk
    exact ⟨buf, hk, by rw [hKW buf hk]; simp⟩

/-- The function `scan_identifier_or_keyword` on a run of identifier
characters that fits the buffer. -/
theorem scan_identifier_run (first : Int) (L C : Int) (run rest : List Byte) (l c p : Int)
    (hfirst : is_ident_char first = true)
    (hrun : ∀ b ∈ run, is_ident_char (ofByte b) = true)
    (hrest : ∀ b ∈ rest.head?, is_ident_char (ofByte b) = false)
    (hlen : run.length + 1 ≤ 255) :
    ∃ s2, scan_identifier_or_keyword first L C ⟨run ++ rest, l, c, 0, p⟩ =
        some (⟨if first :: run.map ofByte ∈ KW then T_KEYWORD else T_IDENTIFIER,
               first :: run.map ofByte, L, C⟩, s2) ∧
      pending s2 = rest.map ofByte := by
  have hnz : ∀ x ∈ first :: run.map ofByte, x ≠ 0 := by
    intro x hx
    simp only [List.mem_cons, List.mem_map] at hx
    rcases hx with rfl | ⟨b, hb, rfl⟩
    · exact ident_char_ne_zero _ hfirst
    · exact ident_char_ne_zero _ (hrun b hb)
  have hcs := c_string_of_nonzero _ hnz
  have hloop := ident_loop_run run (budget ⟨run ++ rest, l, c, 0, p⟩) [first] rest l c p hrun hrest
    (by simp [budget]; omega) (by simp; omega)
  refine ⟨ungetch (getch ⟨rest, l, c + run.length, 0, p⟩).1
    (getch ⟨rest, l, c + run.length, 0, p⟩).2, ?_, ?_⟩
  · simp only [scan_identifier_or_keyword, append_char_room [] first (by simp), List.nil_append,
      hloop, ungetch_guarded, List.singleton_append]
    congr 2
    simp only [set_token, hcs]
    rw [List.take_of_length_le (by simp; omega)]
    by_cases hk : first :: run.map ofByte ∈ KW
    · simp [hk, (is_keyword_iff _ hcs).2 hk]
    · have : is_keyword (first :: run.map ofByte) = false := by
        rw [Bool.eq_false_iff]; exact fun h => hk ((is_keyword_iff _ hcs).1 h)
      simp [hk, this]
  · rw [pending_ungetch_getch _ (fun h => absurd rfl h), pending_no_push _ rfl]

/-- C1: when the first character that `skip_ws_and_comments` delivers is a
letter or an underscore and `run` is the maximal run of letters, digits and
underscores after it (so that `r` is that character followed by `run`), and `r`
has at most 255 characters, `next_token` returns a token whose text is `r`,
whose kind is keyword exactly when `r` is one of the 12 reserved words and
identifier otherwise, and the character after `r`, if any, is the first one
pending for the next call.  On `int x = 10;` the tokens are keyword `int`,
identifier `x`, `=`, number `10`, `;`, end-of-stream. -/
theorem identifier_or_keyword_token :
    (∀ (s s1 : Scanner) (ch : Int) (run rest : List Byte),
      skip_ws_and_comments s = some (ch, s1) →
      (isalpha ch = true ∨ ch = 95) →
      s1.g_in = run ++ rest →
      (∀ b ∈ run, is_ident_char (ofByte b) = true) →
      (∀ b ∈ rest.head?, is_ident_char (ofByte b) = false) →
      run.length + 1 ≤ 255 →
      ∃ s2, next_token s = some
          (⟨if ch :: run.map ofByte ∈ [cstr "void", cstr "int", cstr "for", cstr "while",
                cstr "if", cstr "else", cstr "return", cstr "float", cstr "double", cstr "char",
                cstr "bool", cstr "print"] then T_KEYWORD else T_IDENTIFIER,
            ch :: run.map ofByte, s1.g_line, if s1.g_col > 0 then s1.g_col else 1⟩, s2) ∧
        pending s2 = rest.map ofByte) ∧
    tokens (bytes "int x = 10;") = some
      [⟨T_KEYWORD, cstr "int", 1, 1⟩, ⟨T_IDENTIFIER, cstr "x", 1, 5⟩, ⟨T_ASSIGN, cstr "=", 1, 7⟩,
       ⟨T_NUMBER, cstr "10", 1, 9⟩, ⟨T_SEMI, cstr ";", 1, 11⟩, ⟨T_EOF, cstr "EOF", 1, 11⟩] := by
  refine ⟨?_, by decide⟩
  intro s s1 ch run rest hskip hfirst hin hrun hrest hlen
  have hid : is_ident_char ch = true := by
    rcases hfirst with h | h
    · simp [is_ident_char, isalnum, h]
    · simp [is_ident_char, h]
  have hE : ch ≠ EOF := by
    intro h; rw [h] at hid; exact absurd hid (by decide)
  have h47 : ch ≠ 47 := by
    intro h; rw [h] at hid; exact absurd hid (by decide)
  have hpush : s1.g_have_push = 0 := skip_no_push s s1 ch hskip hE h47
  obtain ⟨inp, l, c, hv, p⟩ := s1
  simp only at hpush hin
  subst hpush hin
  obtain ⟨s2, e1, e2⟩ := scan_identifier_run ch l (if c > 0 then c else 1) run rest l c p hid
    hrun hrest hlen
  refine ⟨s2, ?_, e2⟩
  simp only [next_token, hskip, if_neg hE, if_pos hfirst]
  exact e1

/-- C1 on the file `if(`: the keyword `if`, and `(` stays pending. -/
theorem identifier_or_keyword_token_witness :
    ∃ s2, next_token (scanner_init (bytes "if(")) = some (⟨T_KEYWORD, cstr "if", 1, 1⟩, s2) ∧
      pending s2 = cstr "(" :=
  identifier_or_keyword_token.1 (scanner_init (bytes "if(")) ⟨bytes "f(", 1, 1, 0, 0⟩ 105
    [102] [40] (by decide) (by decide) (by decide) (by decide) (by decide)
    (by decide)

/-! ## Numbers -/

/-- A digit is not a newline, not the end marker and not NUL. -/
theorem isdigit_ne (c : Int) (h : isdigit c = true) : c ≠ 10 ∧ c ≠ EOF ∧ c ≠ 0 := by
  simp only [isdigit, Bool.and_eq_true, decide_eq_true_eq] at h
  unfold EOF
  omega

/-- The digit loop of `scan_number` on a run of digits that fits the buffer:
it stores the run and stops at the character after it. -/
theorem digit_loop_run (run : List Byte) : ∀ (n : Nat) (buf : List Int) (rest : List Byte)
    (l c p : Int),
    is_digits run = true →
    (∀ b ∈ rest.head?, isdigit (ofByte b) = false) →
    run.length < n → buf.length + run.length ≤ 255 →
    digit_loop n buf ⟨run ++ rest, l, c, 0, p⟩ =
      some ((getch ⟨rest, l, c + run.length, 0, p⟩).1, buf ++ run.map ofByte,
            (getch ⟨rest, l, c + run.length, 0, p⟩).2) := by
  induction run with
  | nil =>
    intro n buf rest l c p _ hrest hn _
    obtain ⟨m, rfl⟩ : ∃ m, n = m + 1 := ⟨n - 1, by simp at hn; omega⟩
    have hstop : ¬ ((getch ⟨rest, l, c, 0, p⟩).1 ≠ EOF ∧
        isdigit (getch ⟨rest, l, c, 0, p⟩).1 = true) := by
      rw [getch_fst_no_push]
      cases rest with
      | nil => simp
      | cons b r =>
        have := hrest b (by simp)
        simp [this]
    simp only [List.nil_append, digit_loop, List.length_nil, Nat.cast_zero, add_zero,
      List.map_nil, List.append_nil]
    rw [if_neg hstop]
  | cons b run ih =>
    intro n buf rest l c p hrun hrest hn hlen
    obtain ⟨m, rfl⟩ : ∃ m, n = m + 1 := ⟨n - 1, by simp at hn; omega⟩
    simp only [is_digits, List.all_cons, Bool.and_eq_true] at hrun
    have hb : isdigit (ofByte b) = true := hrun.1
    have hb10 : ofByte b ≠ 10 := (isdigit_ne _ hb).1
    have hcont : (ofByte b ≠ EOF ∧ isdigit (ofByte b) = true) := ⟨ofByte_ne_EOF b, hb⟩
    simp only [List.length_cons] at hn hlen
    simp only [List.cons_append, digit_loop, getch_cons _ _ _ _ _ hb10]
    rw [if_pos hcont, append_char_room _ _ (by omega),
      ih m (buf ++ [ofByte b]) rest l (c + 1) p hrun.2 hrest (by omega) (by simp; omega)]
    have hc : c + 1 + (run.length : Int) = c + ((b :: run).length : Int) := by
      simp only [List.length_cons]; push_cast; ring
    rw [hc]
    simp

/-- The digit loop returns, whatever the input, when its budget exceeds the
number of unread bytes by one or more. -/
theorem digit_loop_total : ∀ (n : Nat) (buf : List Int) (s : Scanner),
    s.g_in.length + (if s.g_have_push ≠ 0 then 1 else 0) < n →
    ∃ r, digit_loop n buf s = some r := by
  intro n
  induction n with
  | zero => intro buf s h; omega
  | succ n ih =>
    intro buf s h
    simp only [digit_loop]
    split_ifs with hc
    · apply ih
      rw [getch_have_push]
      simp only [ne_eq, not_true_eq_false, if_false, add_zero]
      obtain ⟨inp, l, c, hv, p⟩ := s
      by_cases h0 : hv = 0
      · subst h0
        cases inp with
        | nil => rw [getch_nil] at hc; exact absurd rfl hc.1
        | cons b r =>
          simp only [List.length_cons] at h
          by_cases hb : ofByte b = 10
          · rw [getch_newline _ _ _ _ _ hb]; simp only; omega
          · rw [getch_cons _ _ _ _ _ hb]; simp only; omega
      · simp only [h0, ne_eq, not_false_eq_true, if_true] at h
        have : (getch ⟨inp, l, c, hv, p⟩).2.g_in = inp := by
          unfold getch
          simp only [h0, ne_eq, not_false_eq_true, if_true]
          split_ifs <;> rfl
        rw [this]; omega
    · exact ⟨_, rfl⟩

/-- The end of `scan_number` when no exponent marker is ahead: the token text
is the buffer and what was ahead stays pending. -/
theorem scan_exponent_none (buf : List Int) (L C : Int) (R : List Byte) (l c p : Int)
    (hR : ∀ b ∈ R.head?, ofByte b ≠ 101 ∧ ofByte b ≠ 69) :
    ∃ s2, scan_exponent (getch ⟨R, l, c, 0, p⟩).1 buf L C (getch ⟨R, l, c, 0, p⟩).2 =
        some (set_token T_NUMBER (some buf) L C, s2) ∧
      pending s2 = R.map ofByte := by
  have hch : ¬ ((getch ⟨R, l, c, 0, p⟩).1 = 101 ∨ (getch ⟨R, l, c, 0, p⟩).1 = 69) := by
    rw [getch_fst_no_push]
    cases R with
    | nil => simp [EOF]
    | cons b r => have := hR b (by simp); simpa using this
  refine ⟨ungetch (getch ⟨R, l, c, 0, p⟩).1 (getch ⟨R, l, c, 0, p⟩).2, ?_, ?_⟩
  · simp only [scan_exponent, if_neg hch, ungetch_guarded]
  · rw [pending_ungetch_getch _ (fun h => absurd rfl h), pending_no_push _ rfl]

/-- The end of `scan_number` at an exponent marker that neither a sign nor a
digit follows, with room for the marker in the buffer: the token text is the
buffer as it was before the marker. -/
theorem scan_exponent_bare_marker (buf : List Int) (L C : Int) (m : Byte) (r : List Byte)
    (l c p : Int) (hm : ofByte m = 101 ∨ ofByte m = 69)
    (hr : ∀ b ∈ r.head?, isdigit (ofByte b) = false ∧ ofByte b ≠ 43 ∧ ofByte b ≠ 45)
    (hlen : buf.length + 1 ≤ 255) :
    ∃ s2, scan_exponent (getch ⟨m :: r, l, c, 0, p⟩).1 buf L C (getch ⟨m :: r, l, c, 0, p⟩).2 =
        some (set_token T_NUMBER (some buf) L C, s2) := by
  have hm10 : ofByte m ≠ 10 := by omega
  have hch2 : ¬ ((getch ⟨r, l, c + 1, 0, p⟩).1 = 43 ∨ (getch ⟨r, l, c + 1, 0, p⟩).1 = 45) ∧
      isdigit (getch ⟨r, l, c + 1, 0, p⟩).1 = false := by
    rw [getch_fst_no_push]
    cases r with
    | nil => simp [EOF, isdigit]
    | cons b r => have := hr b (by simp); simpa using ⟨⟨this.2.1, this.2.2⟩, this.1⟩
  rw [getch_cons _ _ _ _ _ hm10]
  simp only [scan_exponent, if_pos hm, append_char_room buf _ hlen]
  simp [hch2.1, hch2.2]

/-- The end of `scan_number` at a well-formed exponent that fits the buffer and
that no digit follows: the exponent goes into the token text, and what comes
after it stays pending. -/
theorem scan_exponent_some (buf : List Int) (L C : Int) (m : Byte) (sg : Option Byte)
    (d rest : List Byte) (l c p : Int) (hok : exp_ok (some (m, sg, d)) = true)
    (hrest : ∀ b ∈ rest.head?, isdigit (ofByte b) = false)
    (hlen : buf.length + (exp_text (some (m, sg, d))).length ≤ 255) :
    ∃ s2, scan_exponent (getch ⟨exp_text (some (m, sg, d)) ++ rest, l, c, 0, p⟩).1 buf L C
          (getch ⟨exp_text (some (m, sg, d)) ++ rest, l, c, 0, p⟩).2 =
        some (set_token T_NUMBER (some (buf ++ (exp_text (some (m, sg, d))).map ofByte)) L C, s2) ∧
      pending s2 = rest.map ofByte := by
  simp only [exp_ok, Bool.and_eq_true, Bool.or_eq_true, decide_eq_true_eq] at hok
  obtain ⟨⟨⟨hm, hsg⟩, hd⟩, hdig⟩ := hok
  have hm10 : ofByte m ≠ 10 := by omega
  obtain ⟨y, d1, rfl⟩ : ∃ y d1, d = y :: d1 := by
    cases d with
    | nil => simp at hd
    | cons y d1 => exact ⟨y, d1, rfl⟩
  simp only [is_digits, List.all_cons, Bool.and_eq_true] at hdig
  obtain ⟨hy, hd1⟩ := hdig
  obtain ⟨hy10, hyE, _⟩ := isdigit_ne _ hy
  have hysg : ¬ (ofByte y = 43 ∨ ofByte y = 45) := by
    simp only [isdigit, Bool.and_eq_true, decide_eq_true_eq] at hy; omega
  cases sg with
  | none =>
    simp only [exp_text, Option.toList, List.nil_append, List.cons_append, List.length_cons]
      at hlen ⊢
    rw [getch_cons _ _ _ _ _ hm10]
    have hloop := digit_loop_run d1 (budget ⟨d1 ++ rest, l, c + 1 + 1, 0, p⟩)
      (buf ++ [ofByte m] ++ [ofByte y]) rest l (c + 1 + 1) p hd1 hrest
      (by simp [budget]; omega) (by simp; omega)
    refine ⟨ungetch (getch ⟨rest, l, c + 1 + 1 + d1.length, 0, p⟩).1
      (getch ⟨rest, l, c + 1 + 1 + d1.length, 0, p⟩).2, ?_, ?_⟩
    · simp only [scan_exponent, if_pos hm, append_char_room buf _ (by omega),
        getch_cons _ _ _ _ _ hy10]
      simp only [hysg, decide_False, Bool.false_eq_true, if_false, hy, not_true_eq_false]
      rw [append_char_room (buf ++ [ofByte m]) _ (by simp; omega), hloop]
      simp only [ungetch_guarded]
      simp
    · rw [pending_ungetch_getch _ (fun h => absurd rfl h), pending_no_push _ rfl]
  | some x =>
    have hx : ofByte x = 43 ∨ ofByte x = 45 := by simpa using hsg
    have hx10 : ofByte x ≠ 10 := by omega
    simp only [exp_text, Option.toList, List.cons_append, List.nil_append, List.length_cons,
      List.singleton_append] at hlen ⊢
    rw [getch_cons _ _ _ _ _ hm10]
    have hloop := digit_loop_run d1 (budget ⟨d1 ++ rest, l, c + 1 + 1 + 1, 0, p⟩)
      (buf ++ [ofByte m] ++ [ofByte x] ++ [ofByte y]) rest l (c + 1 + 1 + 1) p hd1 hrest
      (by simp [budget]; omega) (by simp; omega)
    refine ⟨ungetch (getch ⟨rest, l, c + 1 + 1 + 1 + d1.length, 0, p⟩).1
      (getch ⟨rest, l, c + 1 + 1 + 1 + d1.length, 0, p⟩).2, ?_, ?_⟩
    · simp only [scan_exponent, if_pos hm, append_char_room buf _ (by omega),
        getch_cons _ _ _ _ _ hx10, getch_cons _ _ _ _ _ hy10]
      simp only [hx, decide_True, if_true, hy, not_true_eq_false, if_false]
      rw [append_char_room (buf ++ [ofByte m]) _ (by simp; omega),
        append_char_room (buf ++ [ofByte m] ++ [ofByte x]) _ (by simp; omega), hloop]
      simp only [ungetch_guarded]
      simp
    · rw [pending_ungetch_getch _ (fun h => absurd rfl h), pending_no_push _ rfl]

/-- The token `set_token` builds from a buffer without NUL of at most 255
characters carries the buffer as its text. -/
theorem set_token_clean (tp : TokenType) (buf : List Int) (L C : Int)
    (hnz : ∀ x ∈ buf, x ≠ 0) (hlen : buf.length ≤ 255) :
    set_token tp (some buf) L C = ⟨tp, buf, L, C⟩ := by
  simp only [set_token, c_string_of_nonzero buf hnz, List.take_of_length_le hlen]

/-- The end of `scan_number` after the integer and decimal part, in the three
cases above: a well-formed exponent goes into the text; without one the text is
the buffer.  What follows stays pending unless it starts with `e` or `E`. -/
theorem scan_exponent_spec (buf : List Int) (L C : Int)
    (ex : Option (Byte × Option Byte × List Byte)) (rest : List Byte) (l c p : Int)
    (hok : exp_ok ex = true)
    (hrest : ∀ b ∈ rest.head?, isdigit (ofByte b) = false)
    (hmark : ex = none → ∀ m r, rest = m :: r → (ofByte m = 101 ∨ ofByte m = 69) →
      (∀ b ∈ r.head?, isdigit (ofByte b) = false ∧ ofByte b ≠ 43 ∧ ofByte b ≠ 45) ∧
      buf.length + 1 ≤ 255)
    (hlen : buf.length + (exp_text ex).length ≤ 255) :
    ∃ s2, scan_exponent (getch ⟨exp_text ex ++ rest, l, c, 0, p⟩).1 buf L C
          (getch ⟨exp_text ex ++ rest, l, c, 0, p⟩).2 =
        some (set_token T_NUMBER (some (buf ++ (exp_text ex).map ofByte)) L C, s2) ∧
      ((∀ b ∈ rest.head?, ofByte b ≠ 101 ∧ ofByte b ≠ 69) → pending s2 = rest.map ofByte) := by
  cases ex with
  | some e =>
    obtain ⟨m, sg, d⟩ := e
    obtain ⟨s2, e1, e2⟩ := scan_exponent_some buf L C m sg d rest l c p hok hrest hlen
    exact ⟨s2, e1, fun _ => e2⟩
  | none =>
    simp only [exp_text, List.nil_append, List.map_nil, List.append_nil]
    by_cases hR : ∀ b ∈ rest.head?, ofByte b ≠ 101 ∧ ofByte b ≠ 69
    · obtain ⟨s2, e1, e2⟩ := scan_exponent_none buf L C rest l c p hR
      exact ⟨s2, e1, fun _ => e2⟩
    · cases rest with
      | nil => simp at hR
      | cons m r =>
        have hm : ofByte m = 101 ∨ ofByte m = 69 := by
          simp only [List.head?_cons, Option.mem_def, Option.some.injEq, forall_eq'] at hR
          omega
        obtain ⟨h1, h2⟩ := hmark rfl m r rfl hm
        obtain ⟨s2, e1⟩ := scan_exponent_bare_marker buf L C m r l c p hm h1 h2
        exact ⟨s2, e1, fun h => absurd h hR⟩

/-- The characters of a numeric literal are not NUL. -/
theorem numlit_text_nonzero (n : NumLit) (h : n.wf = true) :
    ∀ x ∈ n.text.map ofByte, x ≠ 0 := by
  obtain ⟨i, fr, ex⟩ := n
  simp only [NumLit.wf, Bool.and_eq_true, decide_eq_true_eq] at h
  obtain ⟨⟨⟨_, hi⟩, hf⟩, he⟩ := h
  have hdig : ∀ (d : List Byte), is_digits d = true → ∀ b ∈ d, ofByte b ≠ 0 := by
    intro d hd b hb
    simp only [is_digits, List.all_eq_true] at hd
    exact (isdigit_ne _ (hd b hb)).2.2
  intro x hx
  simp only [NumLit.text, List.map_append, List.mem_append, List.mem_map] at hx
  rcases hx with (⟨b, hb, rfl⟩ | ⟨b, hb, rfl⟩) | ⟨b, hb, rfl⟩
  · exact hdig i hi b hb
  · cases fr with
    | none => simp [frac_text] at hb
    | some d =>
      simp only [frac_ok, Bool.and_eq_true] at hf
      simp only [frac_text, List.mem_cons] at hb
      rcases hb with rfl | hb
      · decide
      · exact hdig d hf.2 b hb
  · cases ex with
    | none => simp [exp_text] at hb
    | some e =>
      obtain ⟨m, sg, d⟩ := e
      simp only [exp_ok, Bool.and_eq_true, Bool.or_eq_true, decide_eq_true_eq] at he
      obtain ⟨⟨⟨hm, hsg⟩, _⟩, hd⟩ := he
      simp only [exp_text, List.mem_cons, List.mem_append] at hb
      rcases hb with rfl | hb | hb
      · omega
      · cases sg with
        | none => simp at hb
        | some x =>
          simp only [Option.toList, List.mem_singleton] at hb
          subst hb
          have : ofByte b = 43 ∨ ofByte b = 45 := by simpa using hsg
          omega
      · exact hdig d hd b hb

/-- No digit starts the decimal part or the exponent. -/
theorem head_not_digit (fr : Option (List Byte)) (ex : Option (Byte × Option Byte × List Byte))
    (rest : List Byte) (hex : exp_ok ex = true)
    (hrest : ∀ b ∈ rest.head?, isdigit (ofByte b) = false) :
    (∀ b ∈ (exp_text ex ++ rest).head?, isdigit (ofByte b) = false) ∧
    (∀ b ∈ (frac_text fr ++ exp_text ex ++ rest).head?, isdigit (ofByte b) = false) := by
  have h1 : ∀ b ∈ (exp_text ex ++ rest).head?, isdigit (ofByte b) = false := by
    cases ex with
    | none => simpa [exp_text] using hrest
    | some e =>
      obtain ⟨m, sg, d⟩ := e
      simp only [exp_ok, Bool.and_eq_true, Bool.or_eq_true, decide_eq_true_eq] at hex
      have hm := hex.1.1.1
      intro b hb
      simp only [exp_text, List.cons_append, List.head?_cons, Option.mem_def,
        Option.some.injEq] at hb
      subst hb
      simp only [isdigit, Bool.and_eq_false_iff, decide_eq_false_iff_not]
      omega
  refine ⟨h1, ?_⟩
  cases fr with
  | none => simpa [frac_text] using h1
  | some d =>
    intro b hb
    simp only [frac_text, List.cons_append, List.head?_cons, Option.mem_def,
      Option.some.injEq] at hb
    subst hb
    decide

/-- The function `scan_number` on a literal `w` of the grammar that fits the
buffer, given as the first digit `c` already read and the rest of `w` ahead,
when after `w` comes no digit, no `.` if `w` has neither point nor exponent,
and no exponent marker with a digit or sign behind it if `w` has no exponent
(a marker must leave room for itself in the buffer): the token is a number
with text `w`.  What follows `w` stays pending unless it starts with `e`, `E`. -/
theorem scan_number_spec (c : Byte) (d1 : List Byte) (fr : Option (List Byte))
    (ex : Option (Byte × Option Byte × List Byte)) (rest : List Byte) (L C l col p : Int)
    (hwf : NumLit.wf ⟨c :: d1, fr, ex⟩ = true)
    (hrest : ∀ b ∈ rest.head?, isdigit (ofByte b) = false)
    (hdot : fr = none → ex = none → ∀ b ∈ rest.head?, ofByte b ≠ 46)
    (hmark : ex = none → ∀ m r, rest = m :: r → (ofByte m = 101 ∨ ofByte m = 69) →
      (∀ b ∈ r.head?, isdigit (ofByte b) = false ∧ ofByte b ≠ 43 ∧ ofByte b ≠ 45) ∧
      (NumLit.text ⟨c :: d1, fr, ex⟩).length + 1 ≤ 255)
    (hlen : (NumLit.text ⟨c :: d1, fr, ex⟩).length ≤ 255) :
    ∃ s2, scan_number (ofByte c) L C ⟨d1 ++ frac_text fr ++ exp_text ex ++ rest, l, col, 0, p⟩ =
        some (⟨T_NUMBER, (NumLit.text ⟨c :: d1, fr, ex⟩).map ofByte, L, C⟩, s2) ∧
      ((∀ b ∈ rest.head?, ofByte b ≠ 101 ∧ ofByte b ≠ 69) → pending s2 = rest.map ofByte) := by
  have hnz := numlit_text_nonzero _ hwf
  simp only [NumLit.wf, Bool.and_eq_true, decide_eq_true_eq] at hwf
  obtain ⟨⟨⟨_, hint⟩, hfr⟩, hex⟩ := hwf
  simp only [is_digits, List.all_cons, Bool.and_eq_true] at hint
  obtain ⟨hh1, hh2⟩ := head_not_digit fr ex rest hex hrest
  simp only [NumLit.text, List.length_append, List.length_cons] at hlen hmark
  have hloop1 := digit_loop_run d1
    (budget ⟨d1 ++ (frac_text fr ++ exp_text ex ++ rest), l, col, 0, p⟩) [ofByte c]
    (frac_text fr ++ exp_text ex ++ rest) l col p hint.2 hh2
    (by simp [budget]; omega) (by simp; omega)
  have htok : ∀ t : List Int, t = (NumLit.text ⟨c :: d1, fr, ex⟩).map ofByte →
      set_token T_NUMBER (some t) L C =
        ⟨T_NUMBER, (NumLit.text ⟨c :: d1, fr, ex⟩).map ofByte, L, C⟩ := by
    intro t ht
    subst ht
    exact set_token_clean _ _ _ _ hnz (by simp [NumLit.text]; omega)
  simp only [scan_number, append_char_room [] (ofByte c) (by simp), List.nil_append]
  simp only [List.append_assoc, List.singleton_append] at hloop1 ⊢
  rw [hloop1]
  simp only
  cases fr with
  | none =>
    simp only [frac_text, List.nil_append, List.length_nil, add_zero] at hlen hmark ⊢
    have h46 : (getch ⟨exp_text ex ++ rest, l, col + d1.length, 0, p⟩).1 ≠ 46 := by
      rw [getch_fst_no_push]
      cases ex with
      | none =>
        cases rest with
        | nil => simp [exp_text, EOF]
        | cons b r => simpa [exp_text] using hdot rfl rfl b (by simp)
      | some e =>
        obtain ⟨m, sg, d⟩ := e
        simp only [exp_ok, Bool.and_eq_true, Bool.or_eq_true, decide_eq_true_eq] at hex
        have hm := hex.1.1.1
        simp only [exp_text, List.cons_append, List.head?_cons, Option.map_some',
          Option.getD_some]
        omega
    rw [if_neg h46]
    obtain ⟨s2, e1, e2⟩ := scan_exponent_spec (ofByte c :: d1.map ofByte) L C ex rest l
      (col + d1.length) p hex hrest
      (fun h m r hr hm => ⟨(hmark h m r hr hm).1, by have := (hmark h m r hr hm).2; simp; omega⟩)
      (by simp; omega)
    exact ⟨s2, by rw [e1, htok _ (by simp [NumLit.text, frac_text])], e2⟩
  | some d =>
    simp only [frac_ok, Bool.and_eq_true, decide_eq_true_eq] at hfr
    obtain ⟨y, d2, rfl⟩ : ∃ y d2, d = y :: d2 := by
      cases d with
      | nil => exact absurd rfl hfr.1
      | cons y d2 => exact ⟨y, d2, rfl⟩
    have hd := hfr.2
    simp only [is_digits, List.all_cons, Bool.and_eq_true] at hd
    obtain ⟨hy10, _, _⟩ := isdigit_ne _ hd.1
    have h46 : ofByte (46 : Byte) = 46 := by decide
    have h4610 : ofByte (46 : Byte) ≠ 10 := by decide
    simp only [frac_text, List.cons_append, List.length_cons, List.nil_append] at hlen hmark ⊢
    rw [getch_cons _ _ _ _ _ h4610]
    simp only [h46, if_true, getch_cons _ _ _ _ _ hy10, hd.1]
    have hloop2 := digit_loop_run d2
      (budget ⟨d2 ++ (exp_text ex ++ rest), l, col + d1.length + 1 + 1, 0, p⟩)
      (ofByte c :: d1.map ofByte ++ [46] ++ [ofByte y])
      (exp_text ex ++ rest) l (col + d1.length + 1 + 1) p hd.2 hh1
      (by simp [budget]; omega) (by simp; omega)
    rw [append_char_room (ofByte c :: d1.map ofByte) _ (by simp; omega),
      append_char_room (ofByte c :: d1.map ofByte ++ [46]) _ (by simp; omega), hloop2]
    simp only
    obtain ⟨s2, e1, e2⟩ := scan_exponent_spec
      (ofByte c :: d1.map ofByte ++ [46] ++ [ofByte y] ++ d2.map ofByte) L C ex rest l
      (col + d1.length + 1 + 1 + d2.length) p hex hrest
      (fun h m r hr hm => ⟨(hmark h m r hr hm).1, by have := (hmark h m r hr hm).2; simp; omega⟩)
      (by simp; omega)
    exact ⟨s2, by rw [e1, htok _ (by simp [NumLit.text, frac_text, h46])], e2⟩

/-- At a digit `next_token` runs `scan_number`. -/
theorem next_token_digit (s s1 : Scanner) (ch : Int)
    (hskip : skip_ws_and_comments s = some (ch, s1)) (hd : isdigit ch = true) :
    next_token s = scan_number ch s1.g_line (if s1.g_col > 0 then s1.g_col else 1) s1 ∧
    s1.g_have_push = 0 := by
  have hb : 48 ≤ ch ∧ ch ≤ 57 := by
    simpa [isdigit] using hd
  have hE : ch ≠ EOF := (isdigit_ne _ hd).2.1
  have ha : ¬ (isalpha ch = true ∨ ch = 95) := by
    simp only [isalpha, Bool.or_eq_true, Bool.and_eq_true, decide_eq_true_eq]
    omega
  refine ⟨?_, skip_no_push s s1 ch hskip hE (by omega)⟩
  simp only [next_token, hskip, if_neg hE, if_neg ha, hd, if_true]

/-- C2: when the first character that `skip_ws_and_comments` delivers is the
first digit of a well-formed numeric literal `w` (digits, optionally `.` and one
or more digits, optionally `e` or `E`, an optional sign and one or more digits)
of at most 255 characters, and after `w` comes the end of the input or a
character that is not a digit, `.`, `e` or `E`, then `next_token` returns a
number token whose text is `w` and leaves what follows `w` pending for the next
call.  The file `x <= 3.14e-2` scans to identifier `x`, `<=`, number `3.14e-2`,
end-of-stream. -/
theorem number_token :
    (∀ (s s1 : Scanner) (c : Byte) (d1 : List Byte) (fr : Option (List Byte))
      (ex : Option (Byte × Option Byte × List Byte)) (rest : List Byte),
      skip_ws_and_comments s = some (ofByte c, s1) →
      NumLit.wf ⟨c :: d1, fr, ex⟩ = true →
      s1.g_in = d1 ++ frac_text fr ++ exp_text ex ++ rest →
      (∀ b ∈ rest.head?, isdigit (ofByte b) = false ∧ ofByte b ≠ 46 ∧ ofByte b ≠ 101 ∧
        ofByte b ≠ 69) →
      (NumLit.text ⟨c :: d1, fr, ex⟩).length ≤ 255 →
      ∃ s2, next_token s = some (⟨T_NUMBER, (NumLit.text ⟨c :: d1, fr, ex⟩).map ofByte,
                s1.g_line, if s1.g_col > 0 then s1.g_col else 1⟩, s2) ∧
        pending s2 = rest.map ofByte) ∧
    tokens (bytes "x <= 3.14e-2") = some
      [⟨T_IDENTIFIER, cstr "x", 1, 1⟩, ⟨T_LTE, cstr "<=", 1, 3⟩,
       ⟨T_NUMBER, cstr "3.14e-2", 1, 6⟩, ⟨T_EOF, cstr "EOF", 1, 12⟩] := by
  refine ⟨?_, by decide⟩
  intro s s1 c d1 fr ex rest hskip hwf hin hrest hlen
  have hc : isdigit (ofByte c) = true := by
    simp only [NumLit.wf, is_digits, List.all_cons, Bool.and_eq_true] at hwf
    exact hwf.1.1.2.1
  obtain ⟨hnt, hpush⟩ := next_token_digit s s1 _ hskip hc
  obtain ⟨inp, l, col, hv, p⟩ := s1
  simp only at hpush hin
  subst hpush hin
  obtain ⟨s2, e1, e2⟩ := scan_number_spec c d1 fr ex rest l (if col > 0 then col else 1) l col p
    hwf (fun b hb => (hrest b hb).1) (fun _ _ b hb => (hrest b hb).2.1)
    (fun _ m r hr hm => by
      have := hrest m (by simp [hr])
      omega)
    hlen
  exact ⟨s2, by rw [hnt]; exact e1, e2 (fun b hb => (hrest b hb).2.2)⟩

/-- C2 on the file `3.14e-2;`: the number `3.14e-2`, and `;` stays pending. -/
theorem number_token_witness :
    ∃ s2, next_token (scanner_init (bytes "3.14e-2;")) =
        some (⟨T_NUMBER, cstr "3.14e-2", 1, 1⟩, s2) ∧
      pending s2 = cstr ";" :=
  number_token.1 (scanner_init (bytes "3.14e-2;")) ⟨bytes ".14e-2;", 1, 1, 0, 0⟩ 51 []
    (some [49, 52]) (some (101, some 45, [50])) [59]
    (by decide) (by decide) (by decide) (by decide) (by decide)

/-! ## Malformed exponents and token positions: the code at its failing inputs -/

/-- C9 (the code at a failing input): on `1e+x` the integer part `1` is
followed by the marker `e`, the sign `+` and a non-digit; the number token that
`next_token` returns has the text `1e`: only the sign was taken off the buffer,
the exponent marker is still in the token text. -/
theorem signed_malformed_exponent_keeps_marker :
    tokens (bytes "1e+x") = some
      [⟨T_NUMBER, cstr "1e", 1, 1⟩, ⟨T_IDENTIFIER, cstr "x", 1, 3⟩, ⟨T_EOF, cstr "EOF", 1, 3⟩] ∧
    cstr "1e" ≠ cstr "1" := by
  decide

/-- C10 (the code at a failing input): on `1ex` the token after the number `1`
is the identifier `x`, not `ex`: the second `ungetch` overwrote the pushed-back
marker `e`, which no later call delivers. -/
theorem malformed_exponent_loses_marker :
    tokens (bytes "1ex") = some
      [⟨T_NUMBER, cstr "1", 1, 1⟩, ⟨T_IDENTIFIER, cstr "x", 1, 2⟩, ⟨T_EOF, cstr "EOF", 1, 2⟩] ∧
    (∃ s2, next_token (scanner_init (bytes "1ex")) = some (⟨T_NUMBER, cstr "1", 1, 1⟩, s2) ∧
      pending s2 = cstr "x") := by
  refine ⟨by decide, ⟨[], 1, 1, 1, 120⟩, by decide, by decide⟩

/-- C7 (the code at a failing input): in the file ` /` + newline the `/` is the
second character of line 1, so its column is 2, but the token `/` that
`next_token` returns has column 1: the newline read ahead and pushed back has
reset the column counter. -/
theorem slash_before_newline_column :
    tokens (bytes " /\n") = some [⟨T_DIV, cstr "/", 1, 1⟩, ⟨T_EOF, cstr "EOF", 2, 0⟩] ∧
    (bytes " /\n").get? 1 = some 47 ∧
    spec_line (bytes " /\n") 1 = 1 ∧ spec_col (bytes " /\n") 1 = 2 := by
  decide

/-! ## Inputs of whitespace and comments only -/

/-- Reading a byte with an empty pushback slot: the byte is returned and the
rest of the file is left, whatever happens to line and column. -/
theorem getch_byte (b : Byte) (r : List Byte) (l c p : Int) :
    ∃ l1 c1, getch ⟨b :: r, l, c, 0, p⟩ = (ofByte b, ⟨r, l1, c1, 0, p⟩) := by
  by_cases hb : ofByte b = 10
  · exact ⟨l + 1, 0, by rw [getch_newline _ _ _ _ _ hb, hb]⟩
  · exact ⟨l, c + 1, getch_cons _ _ _ _ _ hb⟩

/-- The loop of a line comment reads through a text without newline and stops
at the end of the input or behind the newline that follows. -/
theorem skip_line_run (body : List Byte) : ∀ (n : Nat) (ch : Int) (rest : List Byte)
    (l c p : Int), ch ≠ 10 → ch ≠ EOF → (∀ b ∈ body, ofByte b ≠ 10) →
    (rest = [] ∨ ∃ r, rest = 10 :: r) → body.length + 1 < n →
    ∃ x l1 c1, skip_line n ch ⟨body ++ rest, l, c, 0, p⟩ =
      some (x, ⟨rest.tail, l1, c1, 0, p⟩) := by
  induction body with
  | nil =>
    intro n ch rest l c p h10 hE _ hrest hn
    obtain ⟨m, rfl⟩ : ∃ m, n = m + 1 + 1 := ⟨n - 2, by simp at hn; omega⟩
    rcases hrest with rfl | ⟨r, rfl⟩
    · refine ⟨EOF, l, c, ?_⟩
      simp only [List.nil_append, skip_line, getch_nil, List.tail_nil]
      simp [h10, hE]
    · refine ⟨10, l + 1, 0, ?_⟩
      have h : ofByte (10 : Byte) = 10 := by decide
      simp only [List.nil_append, skip_line, getch_newline _ _ _ _ _ h, List.tail_cons]
      simp [h10, hE]
  | cons b body ih =>
    intro n ch rest l c p h10 hE hbody hrest hn
    obtain ⟨m, rfl⟩ : ∃ m, n = m + 1 := ⟨n - 1, by omega⟩
    have hb : ofByte b ≠ 10 := hbody b (by simp)
    simp only [List.length_cons] at hn
    obtain ⟨x, l1, c1, e⟩ := ih m (ofByte b) rest l (c + 1) p hb (ofByte_ne_EOF b)
      (fun y hy => hbody y (by simp [hy])) hrest (by omega)
    refine ⟨x, l1, c1, ?_⟩
    simp only [List.cons_append, skip_line, getch_cons _ _ _ _ _ hb]
    rw [if_pos ⟨h10, hE⟩, e]

/-- The loop of a block comment reads through a text and stops behind the first
`*/`. -/
theorem skip_block_run (body : List Byte) : ∀ (n : Nat) (prev : Int) (rest : List Byte)
    (l c p : Int), (prev = 42 → ∀ b ∈ body.head?, ofByte b ≠ 47) →
    has_close (body ++ [42]) = false → body.length + 2 ≤ n →
    ∃ l1 c1, skip_block n prev ⟨body ++ 42 :: 47 :: rest, l, c, 0, p⟩ =
      some (true, ⟨rest, l1, c1, 0, p⟩) := by
  induction body with
  | nil =>
    intro n prev rest l c p _ _ hn
    obtain ⟨m, rfl⟩ : ∃ m, n = m + 1 + 1 := ⟨n - 2, by simp at hn; omega⟩
    have h42 : ofByte (42 : Byte) = 42 := by decide
    have h47 : ofByte (47 : Byte) = 47 := by decide
    have h42n : ofByte (42 : Byte) ≠ 10 := by decide
    have h47n : ofByte (47 : Byte) ≠ 10 := by decide
    refine ⟨l, c + 1 + 1, ?_⟩
    simp only [List.nil_append, skip_block, getch_cons _ _ _ _ _ h42n,
      getch_cons _ _ _ _ _ h47n, h42, h47]
    simp [EOF]
  | cons b body ih =>
    intro n prev rest l c p hprev hclose hn
    obtain ⟨m, rfl⟩ : ∃ m, n = m + 1 := ⟨n - 1, by simp at hn; omega⟩
    simp only [List.length_cons] at hn
    obtain ⟨l0, c0, e0⟩ := getch_byte b (body ++ 42 :: 47 :: rest) l c p
    have hnc : ¬ (prev = 42 ∧ ofByte b = 47) := fun h => hprev h.1 b (by simp) h.2
    have hc2 : (ofByte b = 42 → ∀ x ∈ body.head?, ofByte x ≠ 47) ∧
        has_close (body ++ [42]) = false := by
      cases body with
      | nil => simp [has_close]
      | cons x body =>
        simp only [List.cons_append, has_close, Bool.or_eq_false_iff, Bool.and_eq_false_iff,
          decide_eq_false_iff_not] at hclose
        refine ⟨?_, by simpa using hclose.2⟩
        intro hb y hy
        simp only [List.head?_cons, Option.mem_def, Option.some.injEq] at hy
        subst hy
        rcases hclose.1 with h | h
        · exact absurd hb h
        · exact h
    obtain ⟨l1, c1, e⟩ := ih m (ofByte b) rest l0 c0 p hc2.1 hc2.2 (by omega)
    refine ⟨l1, c1, ?_⟩
    simp only [List.cons_append, skip_block, e0]
    rw [if_pos (ofByte_ne_EOF b), if_neg hnc, e]

/-- On a file of whitespace and comments only, the loop of
`skip_ws_and_comments` ends at the end of the input. -/
theorem skip_loop_skippable (f : List Byte) (hf : Skippable f) : ∀ (n : Nat) (l c p : Int),
    f.length < n → ∃ l1 c1, skip_loop n ⟨f, l, c, 0, p⟩ = some (EOF, ⟨[], l1, c1, 0, p⟩) := by
  have h47 : ofByte (47 : Byte) = 47 := by decide
  have h47n : ofByte (47 : Byte) ≠ 10 := by decide
  have h42 : ofByte (42 : Byte) = 42 := by decide
  have h42n : ofByte (42 : Byte) ≠ 10 := by decide
  induction hf with
  | nil =>
    intro n l c p hn
    obtain ⟨m, rfl⟩ : ∃ m, n = m + 1 := ⟨n - 1, by simp at hn; omega⟩
    exact ⟨l, c, by simp [skip_loop, getch_nil]⟩
  | space b rest hb _ ih =>
    intro n l c p hn
    obtain ⟨m, rfl⟩ : ∃ m, n = m + 1 := ⟨n - 1, by simp at hn; omega⟩
    simp only [List.length_cons] at hn
    obtain ⟨l0, c0, e0⟩ := getch_byte b rest l c p
    obtain ⟨l1, c1, e⟩ := ih m l0 c0 p (by omega)
    refine ⟨l1, c1, ?_⟩
    simp only [skip_loop, e0]
    rw [if_neg (ofByte_ne_EOF b), if_pos hb, e]
  | line_end body hbody =>
    intro n l c p hn
    obtain ⟨m, rfl⟩ : ∃ m, n = m + 1 := ⟨n - 1, by simp at hn; omega⟩
    simp only [List.length_cons] at hn
    obtain ⟨x, l1, c1, e⟩ := skip_line_run body m 47 [] l (c + 1 + 1) p (by decide) (by decide)
      hbody (Or.inl rfl) (by omega)
    obtain ⟨k, rfl⟩ : ∃ k, m = k + 1 := ⟨m - 1, by omega⟩
    refine ⟨l1, c1, ?_⟩
    simp only [List.append_nil] at e
    simp only [skip_loop, getch_cons _ _ _ _ _ h47n, h47, e, List.tail_nil, getch_nil]
    simp [isspace, EOF]
  | line body rest hbody _ ih =>
    intro n l c p hn
    obtain ⟨m, rfl⟩ : ∃ m, n = m + 1 := ⟨n - 1, by simp at hn; omega⟩
    simp only [List.length_cons, List.length_append] at hn
    obtain ⟨x, l1, c1, e⟩ := skip_line_run body m 47 (10 :: rest) l (c + 1 + 1) p (by decide)
      (by decide) hbody (Or.inr ⟨rest, rfl⟩) (by omega)
    obtain ⟨l2, c2, e2⟩ := ih m l1 c1 p (by omega)
    refine ⟨l2, c2, ?_⟩
    simp only [List.tail_cons] at e
    simp only [List.cons_append, skip_loop, getch_cons _ _ _ _ _ h47n, h47, e, e2]
    simp [isspace, EOF]
  | block body rest hbody _ ih =>
    intro n l c p hn
    obtain ⟨m, rfl⟩ : ∃ m, n = m + 1 := ⟨n - 1, by simp at hn; omega⟩
    simp only [List.length_cons, List.length_append] at hn
    obtain ⟨l1, c1, e⟩ := skip_block_run body m 0 rest l (c + 1 + 1) p
      (fun h => absurd h (by decide)) hbody (by omega)
    obtain ⟨l2, c2, e2⟩ := ih m l1 c1 p (by omega)
    refine ⟨l2, c2, ?_⟩
    simp only [List.cons_append, skip_loop, getch_cons _ _ _ _ _ h47n, h47,
      getch_cons _ _ _ _ _ h42n, h42, e, e2]
    simp [isspace, EOF]

/-- C5: for every input that consists solely of ASCII whitespace, line
comments and terminated block comments, the first call of `next_token` after
`scanner_init` returns the end-of-stream token, and scanning the file yields
exactly that one token. -/
theorem skippable_input_gives_eof (f : List Byte) (hf : Skippable f) :
    ∃ L C s2, next_token (scanner_init f) = some (⟨T_EOF, cstr "EOF", L, C⟩, s2) ∧
      tokens f = some [⟨T_EOF, cstr "EOF", L, C⟩] := by
  obtain ⟨l1, c1, e⟩ := skip_loop_skippable f hf (budget (scanner_init f)) 1 0 0
    (by simp [budget, scanner_init])
  have hnt : next_token (scanner_init f) =
      some (⟨T_EOF, cstr "EOF", l1, c1⟩, ⟨[], l1, c1, 0, 0⟩) := by
    have e' : skip_ws_and_comments (scanner_init f) = some (EOF, ⟨[], l1, c1, 0, 0⟩) := e
    simp only [next_token, e', if_true]
    simp [set_token, c_string, cstr]
  refine ⟨l1, c1, _, hnt, ?_⟩
  simp only [tokens, scan_all, hnt, if_true]

/-- C5 on the file made of a space, the line comment `//a`, a newline and the
block comment `/*b*/`. -/
theorem skippable_input_gives_eof_witness :
    ∃ L C s2, next_token (scanner_init (bytes " //a\n/*b*/")) =
        some (⟨T_EOF, cstr "EOF", L, C⟩, s2) ∧
      tokens (bytes " //a\n/*b*/") = some [⟨T_EOF, cstr "EOF", L, C⟩] :=
  skippable_input_gives_eof (bytes " //a\n/*b*/")
    (Skippable.space 32 _ (by decide)
      (Skippable.line [97] _ (by decide)
        (Skippable.block [98] [] (by decide) Skippable.nil)))

/-! ## Numbers and the longest match -/

/-- With the budget of its state the digit loop always returns. -/
theorem digit_loop_budget (buf : List Int) (s : Scanner) :
    digit_loop (budget s) buf s ≠ none := by
  obtain ⟨r, hr⟩ := digit_loop_total (budget s) buf s (by
    simp only [budget]; split_ifs <;> omega)
  rw [hr]; exact Option.some_ne_none r

theorem set_token_type (tp : TokenType) (lex : Option (List Int)) (L C : Int) :
    (set_token tp lex L C).type = tp := by
  cases lex <;> rfl

/-- The end of `scan_number` always returns a number token. -/
theorem scan_exponent_total (ch : Int) (buf : List Int) (L C : Int) (s : Scanner) :
    ∃ t s2, scan_exponent ch buf L C s = some (t, s2) ∧ t.type = T_NUMBER := by
  simp only [scan_exponent]
  split_ifs <;> first
    | exact ⟨_, _, rfl, set_token_type _ _ _ _⟩
    | (split
       · rename_i h; exact absurd h (digit_loop_budget _ _)
       · exact ⟨_, _, rfl, set_token_type _ _ _ _⟩)

/-- The function `scan_number` always returns a number token. -/
theorem scan_number_total (first : Int) (L C : Int) (s : Scanner) :
    ∃ t s2, scan_number first L C s = some (t, s2) ∧ t.type = T_NUMBER := by
  simp only [scan_number]
  split
  · rename_i h; exact absurd h (digit_loop_budget _ _)
  · split_ifs <;> first
      | exact scan_exponent_total _ _ _ _ _
      | (split
         · rename_i h; exact absurd h (digit_loop_budget _ _)
         · exact scan_exponent_total _ _ _ _ _)

theorem is_digits_append (a b : List Byte) :
    is_digits (a ++ b) = (is_digits a && is_digits b) := by
  simp [is_digits]

/-- A digit put behind a numeric literal gives a numeric literal. -/
theorem number_text_append_digit (w : List Byte) (b : Byte) (hw : is_number_text w)
    (hb : isdigit (ofByte b) = true) : is_number_text (w ++ [b]) := by
  obtain ⟨⟨i, fr, ex⟩, hwf, rfl⟩ := hw
  have hb1 : is_digits [b] = true := by simp [is_digits, hb]
  simp only [NumLit.wf, Bool.and_eq_true, decide_eq_true_eq] at hwf
  obtain ⟨⟨⟨hi, hid⟩, hfr⟩, hex⟩ := hwf
  cases ex with
  | some e =>
    obtain ⟨m, sg, d⟩ := e
    refine ⟨⟨i, fr, some (m, sg, d ++ [b])⟩, ?_, ?_⟩
    · simp only [exp_ok, Bool.and_eq_true, Bool.or_eq_true, decide_eq_true_eq] at hex
      simp only [NumLit.wf, exp_ok, is_digits_append, hid, hfr, hb1, hex.2, hex.1.1.1,
        hex.1.1.2, Bool.and_eq_true, decide_eq_true_eq, Bool.or_eq_true]
      simp [hi]
    · simp [NumLit.text, exp_text]
  | none =>
    cases fr with
    | some d =>
      refine ⟨⟨i, some (d ++ [b]), none⟩, ?_, ?_⟩
      · simp only [frac_ok, Bool.and_eq_true, decide_eq_true_eq] at hfr
        simp only [NumLit.wf, frac_ok, exp_ok, is_digits_append, hid, hfr.2, hb1]
        simp [hi]
      · simp [NumLit.text, frac_text, exp_text]
    | none =>
      refine ⟨⟨i ++ [b], none, none⟩, ?_, ?_⟩
      · simp only [NumLit.wf, frac_ok, exp_ok, is_digits_append, hid, hb1]
        simp
      · simp [NumLit.text, frac_text, exp_text]

/-- An exponent marker and a digit put behind a numeric literal without
exponent give a numeric literal. -/
theorem number_text_append_exp (i : List Byte) (fr : Option (List Byte)) (m b : Byte)
    (hwf : NumLit.wf ⟨i, fr, none⟩ = true) (hm : ofByte m = 101 ∨ ofByte m = 69)
    (hb : isdigit (ofByte b) = true) :
    is_number_text (NumLit.text ⟨i, fr, none⟩ ++ [m, b]) := by
  refine ⟨⟨i, fr, some (m, none, [b])⟩, ?_, ?_⟩
  · simp only [NumLit.wf, Bool.and_eq_true, decide_eq_true_eq] at hwf
    obtain ⟨⟨⟨hi, hid⟩, hfr⟩, _⟩ := hwf
    have hb1 : is_digits [b] = true := by simp [is_digits, hb]
    simp only [NumLit.wf, exp_ok, hb1, hid, hfr]
    simp [hi, hm]
  · simp [NumLit.text, exp_text]

/-- A digit is not an exponent marker, and neither is the point. -/
theorem no_marker_of_no_exp (i : List Byte) (fr : Option (List Byte))
    (hwf : NumLit.wf ⟨i, fr, none⟩ = true) :
    ∀ b ∈ NumLit.text ⟨i, fr, none⟩, ofByte b ≠ 101 ∧ ofByte b ≠ 69 := by
  simp only [NumLit.wf, Bool.and_eq_true, decide_eq_true_eq] at hwf
  obtain ⟨⟨⟨_, hid⟩, hfr⟩, _⟩ := hwf
  have hdig : ∀ (d : List Byte), is_digits d = true →
      ∀ b ∈ d, ofByte b ≠ 101 ∧ ofByte b ≠ 69 := by
    intro d hd b hb
    simp only [is_digits, List.all_eq_true] at hd
    have := hd b hb
    simp only [isdigit, Bool.and_eq_true, decide_eq_true_eq] at this
    omega
  intro b hb
  simp only [NumLit.text, exp_text, List.append_nil, List.mem_append] at hb
  rcases hb with hb | hb
  · exact hdig i hid b hb
  · cases fr with
    | none => simp [frac_text] at hb
    | some d =>
      simp only [frac_ok, Bool.and_eq_true] at hfr
      simp only [frac_text, List.mem_cons] at hb
      rcases hb with rfl | hb
      · decide
      · exact hdig d hfr.2 b hb

/-- The only byte with the character code of `.` is `.`. -/
theorem ofByte_inj (a b : Byte) (h : ofByte a = ofByte b) : a = b := by
  unfold ofByte at h
  exact Fin.ext (by omega)

/-- The text of a numeric literal ends with a digit. -/
theorem number_text_last (w : List Byte) (hw : is_number_text w) :
    ∃ v b, w = v ++ [b] ∧ isdigit (ofByte b) = true := by
  obtain ⟨⟨i, fr, ex⟩, hwf, rfl⟩ := hw
  have hlast : ∀ d : List Byte, d ≠ [] → is_digits d = true →
      ∃ v b, d = v ++ [b] ∧ isdigit (ofByte b) = true := by
    intro d hd hdig
    refine ⟨d.dropLast, d.getLast hd, (List.dropLast_append_getLast hd).symm, ?_⟩
    simp only [is_digits, List.all_eq_true] at hdig
    exact hdig _ (List.getLast_mem hd)
  simp only [NumLit.wf, Bool.and_eq_true, decide_eq_true_eq] at hwf
  obtain ⟨⟨⟨hi, hid⟩, hfr⟩, hex⟩ := hwf
  cases ex with
  | some e =>
    obtain ⟨m, sg, d⟩ := e
    simp only [exp_ok, Bool.and_eq_true, decide_eq_true_eq] at hex
    obtain ⟨v, b, rfl, hb⟩ := hlast d hex.1.2 hex.2
    exact ⟨i ++ frac_text fr ++ (m :: (sg.toList ++ v)), b, by simp [NumLit.text, exp_text], hb⟩
  | none =>
    cases fr with
    | some d =>
      simp only [frac_ok, Bool.and_eq_true, decide_eq_true_eq] at hfr
      obtain ⟨v, b, rfl, hb⟩ := hlast d hfr.1 hfr.2
      exact ⟨i ++ 46 :: v, b, by simp [NumLit.text, exp_text, frac_text], hb⟩
    | none =>
      obtain ⟨v, b, rfl, hb⟩ := hlast i hi hid
      exact ⟨v, b, by simp [NumLit.text, exp_text, frac_text], hb⟩

/-- The function `scan_number` on digits followed by a point that no digit
follows, and no `e` or `E` either: the point stays in the token text, and what
follows the point stays pending. -/
theorem scan_number_point (c : Byte) (d1 r : List Byte) (L C l col p : Int)
    (hd : is_digits (c :: d1) = true)
    (hr : ∀ b ∈ r.head?, isdigit (ofByte b) = false ∧ ofByte b ≠ 101 ∧ ofByte b ≠ 69)
    (hlen : d1.length + 1 + 1 ≤ 255) :
    ∃ s2, scan_number (ofByte c) L C ⟨d1 ++ 46 :: r, l, col, 0, p⟩ =
        some (⟨T_NUMBER, (c :: d1 ++ [46]).map ofByte, L, C⟩, s2) ∧
      pending s2 = r.map ofByte := by
  have h46 : ofByte (46 : Byte) = 46 := by decide
  have h4610 : ofByte (46 : Byte) ≠ 10 := by decide
  simp only [is_digits, List.all_cons, Bool.and_eq_true] at hd
  have hloop := digit_loop_run d1 (budget ⟨d1 ++ 46 :: r, l, col, 0, p⟩) [ofByte c] (46 :: r)
    l col p hd.2 (by simp; decide) (by simp [budget]; omega) (by simp; omega)
  have hnd : isdigit (getch ⟨r, l, col + d1.length + 1, 0, p⟩).1 = false := by
    rw [getch_fst_no_push]
    cases r with
    | nil => simp [EOF, isdigit]
    | cons b r => simpa using (hr b (by simp)).1
  obtain ⟨s2, e1, e2⟩ := scan_exponent_none (ofByte c :: d1.map ofByte ++ [46]) L C r l
    (col + d1.length + 1) p (fun b hb => (hr b hb).2)
  have hnz : ∀ x ∈ ofByte c :: d1.map ofByte ++ [46], x ≠ 0 := by
    intro x hx
    simp only [List.cons_append, List.mem_cons, List.mem_append, List.mem_map,
      List.mem_singleton, List.not_mem_nil, or_false] at hx
    rcases hx with rfl | ⟨b, hb, rfl⟩ | rfl
    · exact (isdigit_ne _ hd.1).2.2
    · exact (isdigit_ne _ (List.all_eq_true.1 hd.2 b hb)).2.2
    · decide
  refine ⟨s2, ?_, e2⟩
  simp only [scan_number, append_char_room [] (ofByte c) (by simp), List.nil_append]
  simp only [List.singleton_append] at hloop
  rw [hloop]
  simp only [getch_cons _ _ _ _ _ h4610, h46, if_true, hnd, Bool.false_eq_true, if_false]
  rw [append_char_room _ _ (by simp; omega), e1,
    set_token_clean _ _ _ _ hnz (by simp; omega)]
  simp [h46]

/-- C3 as stated fails on the file `5.`: the longest initial segment that
matches the grammar of numbers is `5`, but the number token has the text `5.`. -/
theorem point_kept_in_number_text :
    is_longest_number (bytes "5.") (bytes "5") ∧
    (next_token (scanner_init (bytes "5."))).map (fun r => (r.1.type, r.1.lexeme)) =
      some (T_NUMBER, cstr "5.") ∧
    cstr "5." ≠ (bytes "5").map ofByte := by
  refine ⟨⟨⟨[46], by decide⟩, ⟨⟨[53], none, none⟩, by decide, by decide⟩, ?_⟩, by decide,
    by decide⟩
  intro v r hv hnum
  have hlen : v.length + r.length = 2 := by
    have := congrArg List.length hv
    simp only [List.length_append] at this
    rw [← this]; decide
  by_contra hcon
  have hr : r = [] := by
    cases r with
    | nil => rfl
    | cons x r => simp only [List.length_cons] at hlen; change ¬ v.length ≤ 1 at hcon; omega
  subst hr
  rw [List.append_nil] at hv
  obtain ⟨u, b, hub, hb⟩ := number_text_last v hnum
  rw [← hv] at hub
  have hb46 : b = 46 := by
    have h2 : (bytes "5.").getLast? = (u ++ [b]).getLast? := by rw [hub]
    rw [List.getLast?_append, List.getLast?_singleton] at h2
    have h3 : (bytes "5.").getLast? = some 46 := by decide
    rw [h3] at h2
    simpa using h2.symm
  rw [hb46] at hb
  exact absurd hb (by decide)

/-- C3, amended: when the first character that `skip_ws_and_comments` delivers
is a digit, `next_token` returns a token of kind number.  Let `w` be the longest
initial segment of the input from that digit on that matches the grammar
`digits ('.' digits)? ((e|E) [+-]? digits)?`, with at most 255 characters.  If
`w` is not a bare run of digits with a `.` right behind it, the text of the
token is `w`.  If `w` is a bare run of at most 254 digits with a `.` right
behind it, and what follows that `.` is neither `e` nor `E` (or the input ends
there), the text is `w` followed by `.`.  Nothing is said about the text in the
other cases: a bare run of digits with a `.` behind it that has 255 digits or
has `e` or `E` behind the `.`; a `w` without exponent that is followed by an `e`
or `E` with a sign behind it; a `w` of 255 characters without exponent that is
followed by `e` or `E`. -/
theorem number_longest_match (s s1 : Scanner) (c : Byte)
    (hskip : skip_ws_and_comments s = some (ofByte c, s1))
    (hc : isdigit (ofByte c) = true) :
    ∃ t s2, next_token s = some (t, s2) ∧ t.type = T_NUMBER ∧
      (∀ w rest, c :: s1.g_in = w ++ rest → is_longest_number (c :: s1.g_in) w →
        w.length ≤ 255 →
        ¬ (is_digits w = true ∧ rest.head? = some 46) →
        (∀ m r, rest = m :: r → (ofByte m = 101 ∨ ofByte m = 69) →
          (∀ b ∈ w, ofByte b ≠ 101 ∧ ofByte b ≠ 69) →
          w.length + 1 ≤ 255 ∧ ∀ b ∈ r.head?, ofByte b ≠ 43 ∧ ofByte b ≠ 45) →
        t.lexeme = w.map ofByte) ∧
      (∀ d r, c :: s1.g_in = d ++ 46 :: r → is_digits d = true →
        (∀ b ∈ r.head?, isdigit (ofByte b) = false ∧ ofByte b ≠ 101 ∧ ofByte b ≠ 69) →
        d.length + 1 ≤ 255 →
        t.lexeme = (d ++ [46]).map ofByte) := by
  obtain ⟨hnt, hpush⟩ := next_token_digit s s1 _ hskip hc
  obtain ⟨t, s2, hsn, htype⟩ := scan_number_total (ofByte c) s1.g_line
    (if s1.g_col > 0 then s1.g_col else 1) s1
  refine ⟨t, s2, by rw [hnt, hsn], htype, ?_, ?_⟩
  · intro w rest heq hlong hlen hdot hmark
    obtain ⟨_, ⟨⟨i, fr, ex⟩, hwf, htext⟩, hmax⟩ := hlong
    have hwf' := hwf
    simp only [NumLit.wf, Bool.and_eq_true, decide_eq_true_eq] at hwf'
    obtain ⟨⟨⟨hi, hid⟩, hfr⟩, hex⟩ := hwf'
    obtain ⟨c0, d1, rfl⟩ : ∃ c0 d1, i = c0 :: d1 := by
      cases i with
      | nil => exact absurd rfl hi
      | cons c0 d1 => exact ⟨c0, d1, rfl⟩
    subst htext
    simp only [NumLit.text, List.cons_append, List.cons.injEq] at heq
    obtain ⟨hcc, hin⟩ := heq
    subst hcc
    have hnum : is_number_text (NumLit.text ⟨c :: d1, fr, ex⟩) := ⟨_, hwf, rfl⟩
    have hsplit : ∀ (x : List Byte) (r : List Byte), rest = x ++ r →
        c :: s1.g_in = (NumLit.text ⟨c :: d1, fr, ex⟩ ++ x) ++ r := by
      intro x r hr
      rw [hin, hr]
      simp [NumLit.text]
    have hrest : ∀ b ∈ rest.head?, isdigit (ofByte b) = false := by
      intro b hb
      by_contra hbd
      have hbd : isdigit (ofByte b) = true := by simpa using hbd
      cases rest with
      | nil => simp at hb
      | cons x r =>
        simp only [List.head?_cons, Option.mem_def, Option.some.injEq] at hb
        subst hb
        have := hmax _ r (hsplit [x] r rfl) (number_text_append_digit _ x hnum hbd)
        simp only [List.length_append, List.length_singleton] at this
        omega
    obtain ⟨inp, l, col, hv, p⟩ := s1
    simp only at hpush hin hsn
    subst hpush hin
    obtain ⟨s3, e1, _⟩ := scan_number_spec c d1 fr ex rest l (if col > 0 then col else 1) l col p
      hwf hrest
      (by
        intro hf he b hb hb46
        subst hf he
        apply hdot
        refine ⟨by simpa [NumLit.text, frac_text, exp_text] using hid, ?_⟩
        cases rest with
        | nil => simp at hb
        | cons x r =>
          simp only [List.head?_cons, Option.mem_def, Option.some.injEq] at hb
          subst hb
          rw [List.head?_cons, ofByte_inj x 46 (by rw [hb46]; decide)])
      (by
        intro he m r hr hm
        subst he
        obtain ⟨h1, h2⟩ := hmark m r hr hm (no_marker_of_no_exp _ _ hwf)
        refine ⟨fun b hb => ⟨?_, h2 b hb⟩, h1⟩
        by_contra hbd
        have hbd : isdigit (ofByte b) = true := by simpa using hbd
        cases r with
        | nil => simp at hb
        | cons y r2 =>
          simp only [List.head?_cons, Option.mem_def, Option.some.injEq] at hb
          subst hb
          have := hmax _ r2 (hsplit [m, y] r2 (by rw [hr]; rfl))
            (number_text_append_exp _ _ m y hwf hm hbd)
          simp only [List.length_append, List.length_cons, List.length_nil] at this
          omega)
      hlen
    rw [hsn] at e1
    simp only [Option.some.injEq, Prod.mk.injEq] at e1
    rw [e1.1]
  · intro d r heq hd hr hlen
    obtain ⟨c0, d1, rfl⟩ : ∃ c0 d1, d = c0 :: d1 := by
      cases d with
      | nil =>
        simp only [List.nil_append, List.cons.injEq] at heq
        rw [heq.1] at hc
        exact absurd hc (by decide)
      | cons c0 d1 => exact ⟨c0, d1, rfl⟩
    simp only [List.cons_append, List.cons.injEq] at heq
    obtain ⟨hcc, hin⟩ := heq
    subst hcc
    obtain ⟨inp, l, col, hv, p⟩ := s1
    simp only at hpush hin hsn
    subst hpush hin
    simp only [List.length_cons] at hlen
    obtain ⟨s3, e1, _⟩ := scan_number_point c d1 r l (if col > 0 then col else 1) l col p hd hr
      hlen
    rw [hsn] at e1
    simp only [Option.some.injEq, Prod.mk.injEq] at e1
    rw [e1.1]

/-- A numeric literal with one character that is no digit behind it is the
longest match of that text. -/
theorem longest_before_last (w : List Byte) (x : Byte) (hw : is_number_text w)
    (hx : isdigit (ofByte x) = false) : is_longest_number (w ++ [x]) w := by
  refine ⟨⟨[x], rfl⟩, hw, ?_⟩
  intro v r hv hnum
  by_contra hcon
  have hlen : v.length + r.length = w.length + 1 := by
    have := congrArg List.length hv
    simp only [List.length_append, List.length_singleton] at this
    omega
  have hr : r = [] := by
    cases r with
    | nil => rfl
    | cons y r => simp only [List.length_cons] at hlen; omega
  subst hr
  rw [List.append_nil] at hv
  obtain ⟨u, b, hub, hb⟩ := number_text_last v hnum
  rw [← hv] at hub
  have hxb : x = b := by
    have h2 := congrArg List.getLast? hub
    simpa using h2
  rw [hxb, hb] at hx
  exact absurd hx (by decide)

/-- C3, amended, on the file `12;`: a number token with the text `12`, the
longest match. -/
theorem number_longest_match_witness :
    ∃ t s2, next_token (scanner_init (bytes "12;")) = some (t, s2) ∧ t.type = T_NUMBER ∧
      t.lexeme = cstr "12" := by
  obtain ⟨t, s2, h1, h2, h3, _⟩ := number_longest_match (scanner_init (bytes "12;"))
    ⟨bytes "2;", 1, 1, 0, 0⟩ 49 (by decide) (by decide)
  refine ⟨t, s2, h1, h2, ?_⟩
  have h4 := h3 (bytes "12") (bytes ";") (by decide)
    (longest_before_last (bytes "12") 59 ⟨⟨bytes "12", none, none⟩, by decide, by decide⟩
      (by decide))
    (by decide) (by decide)
    (by
      intro m r hr hm
      have hm59 : m = 59 := by
        have h5 : (bytes ";").head? = some 59 := by decide
        have := congrArg List.head? hr
        rw [h5] at this
        simpa using this.symm
      rw [hm59] at hm
      exact absurd hm (by decide))
  rw [h4]
  decide

/-! ## Shape of the tokens -/

theorem set_token_length (tp : TokenType) (lex : Option (List Int)) (L C : Int) :
    (set_token tp lex L C).lexeme.length ≤ 255 := by
  cases lex with
  | none => simp [set_token]
  | some l => simp only [set_token, List.length_take]; omega

theorem set_token_line (tp : TokenType) (lex : Option (List Int)) (L C : Int) :
    (set_token tp lex L C).line = L ∧ (set_token tp lex L C).col = C := by
  cases lex <;> exact ⟨rfl, rfl⟩

/-- A token of `scan_identifier_or_keyword` is a keyword or an identifier at the
position handed in, with a text of at most 255 characters. -/
theorem scan_identifier_shape (first L C : Int) (s s2 : Scanner) (t : Token)
    (h : scan_identifier_or_keyword first L C s = some (t, s2)) :
    (t.type = T_KEYWORD ∨ t.type = T_IDENTIFIER) ∧ t.lexeme.length ≤ 255 ∧ t.line = L ∧
      t.col = C := by
  simp only [scan_identifier_or_keyword] at h
  split at h
  · exact absurd h (by simp)
  · simp only [Option.some.injEq, Prod.mk.injEq] at h
    rw [← h.1]
    refine ⟨?_, set_token_length _ _ _ _, (set_token_line _ _ _ _).1, (set_token_line _ _ _ _).2⟩
    rw [set_token_type]
    split_ifs <;> simp

/-- A token of the end of `scan_number` is a number at the position handed in,
with a text of at most 255 characters. -/
theorem scan_exponent_shape (ch : Int) (buf : List Int) (L C : Int) (s s2 : Scanner) (t : Token)
    (h : scan_exponent ch buf L C s = some (t, s2)) :
    t.type = T_NUMBER ∧ t.lexeme.length ≤ 255 ∧ t.line = L ∧ t.col = C := by
  have key : ∀ (b : List Int) (x : Scanner), some (set_token T_NUMBER (some b) L C, x) =
      some (t, s2) → t.type = T_NUMBER ∧ t.lexeme.length ≤ 255 ∧ t.line = L ∧ t.col = C := by
    intro b x hx
    simp only [Option.some.injEq, Prod.mk.injEq] at hx
    rw [← hx.1]
    exact ⟨set_token_type _ _ _ _, set_token_length _ _ _ _, (set_token_line _ _ _ _).1,
      (set_token_line _ _ _ _).2⟩
  simp only [scan_exponent] at h
  split_ifs at h <;> first
    | exact key _ _ h
    | (split at h
       · exact absurd h (by simp)
       · exact key _ _ h)

/-- A token of `scan_number` is a number at the position handed in, with a text
of at most 255 characters. -/
theorem scan_number_shape (first L C : Int) (s s2 : Scanner) (t : Token)
    (h : scan_number first L C s = some (t, s2)) :
    t.type = T_NUMBER ∧ t.lexeme.length ≤ 255 ∧ t.line = L ∧ t.col = C := by
  simp only [scan_number] at h
  split at h
  · exact absurd h (by simp)
  · split_ifs at h <;> first
      | exact scan_exponent_shape _ _ _ _ _ _ _ h
      | (split at h
         · exact absurd h (by simp)
         · exact scan_exponent_shape _ _ _ _ _ _ _ h)

/-- The token of a fixed kind that `set_token` builds from the text of that
kind. -/
theorem set_token_fixed (tp : TokenType) (x : String) (L C : Int)
    (hx : (c_string (cstr x)).take 255 = token_type_name tp) :
    (set_token tp (some (cstr x)) L C).lexeme = token_type_name (set_token tp (some (cstr x)) L C).type ∧
    (set_token tp (some (cstr x)) L C).line = L ∧ (set_token tp (some (cstr x)) L C).col = C ∧
    (set_token tp (some (cstr x)) L C).lexeme.length ≤ 255 := by
  refine ⟨?_, rfl, rfl, set_token_length _ _ _ _⟩
  simp only [set_token, hx]

/-- What `next_token` returns: at the end marker of `skip_ws_and_comments` the
end-of-stream token at the line and column of the state; otherwise a token at
the line of the state whose text has at most 255 characters and is, unless the
token is a keyword, an identifier, a number or an error, the name of its kind. -/
theorem next_token_cases (s s2 : Scanner) (t : Token) (h : next_token s = some (t, s2)) :
    ∃ ch s1, skip_ws_and_comments s = some (ch, s1) ∧
      ((ch = EOF ∧ t = ⟨T_EOF, cstr "EOF", s1.g_line, s1.g_col⟩ ∧ s2 = s1) ∨
       (ch ≠ EOF ∧ t.type ≠ T_EOF ∧ t.line = s1.g_line ∧
        t.col = (if s1.g_col > 0 then s1.g_col else 1) ∧ t.lexeme.length ≤ 255 ∧
        ((t.type = T_KEYWORD ∨ t.type = T_IDENTIFIER ∨ t.type = T_NUMBER ∨ t.type = T_ERROR) ∨
          t.lexeme = token_type_name t.type))) := by
  simp only [next_token] at h
  split at h
  · exact absurd h (by simp)
  · rename_i ch s1 hskip
    refine ⟨ch, s1, hskip, ?_⟩
    generalize (if s1.g_col > 0 then s1.g_col else 1) = C at h ⊢
    have fixed : ∀ (tp : TokenType) (x : String) (s3 : Scanner), tp ≠ T_EOF →
        (c_string (cstr x)).take 255 = token_type_name tp →
        some (set_token tp (some (cstr x)) s1.g_line C, s3) =
          some (t, s2) →
        t.type ≠ T_EOF ∧ t.line = s1.g_line ∧
        t.col = C ∧ t.lexeme.length ≤ 255 ∧
        ((t.type = T_KEYWORD ∨ t.type = T_IDENTIFIER ∨ t.type = T_NUMBER ∨ t.type = T_ERROR) ∨
          t.lexeme = token_type_name t.type) := by
      intro tp x s3 hne hx e
      simp only [Option.some.injEq, Prod.mk.injEq] at e
      obtain ⟨k1, k2, k3, k4⟩ := set_token_fixed tp x s1.g_line
        C hx
      rw [← e.1]
      exact ⟨by rw [set_token_type]; exact hne, k2, k3, k4, Or.inr k1⟩
    have err : ∀ (l : List Int) (s3 : Scanner),
        some (set_token T_ERROR (some l) s1.g_line C, s3) =
          some (t, s2) →
        t.type ≠ T_EOF ∧ t.line = s1.g_line ∧
        t.col = C ∧ t.lexeme.length ≤ 255 ∧
        ((t.type = T_KEYWORD ∨ t.type = T_IDENTIFIER ∨ t.type = T_NUMBER ∨ t.type = T_ERROR) ∨
          t.lexeme = token_type_name t.type) := by
      intro l s3 e
      simp only [Option.some.injEq, Prod.mk.injEq] at e
      rw [← e.1]
      exact ⟨by rw [set_token_type]; decide, rfl, rfl, set_token_length _ _ _ _,
        Or.inl (Or.inr (Or.inr (Or.inr (set_token_type _ _ _ _))))⟩
    have relop : ∀ (two one : TokenType) (x2 x1 : String), two ≠ T_EOF →
        (c_string (cstr x2)).take 255 = token_type_name two →
        (one = T_ERROR ∨ (one ≠ T_EOF ∧ (c_string (cstr x1)).take 255 = token_type_name one)) →
        some (scan_relop two x2 one x1 s1.g_line C s1) =
          some (t, s2) →
        t.type ≠ T_EOF ∧ t.line = s1.g_line ∧
        t.col = C ∧ t.lexeme.length ≤ 255 ∧
        ((t.type = T_KEYWORD ∨ t.type = T_IDENTIFIER ∨ t.type = T_NUMBER ∨ t.type = T_ERROR) ∨
          t.lexeme = token_type_name t.type) := by
      intro two one x2 x1 hne h2 h1 e
      simp only [scan_relop] at e
      split_ifs at e
      · exact fixed two x2 _ hne h2 e
      · rcases h1 with rfl | ⟨h1, h1'⟩
        · exact err _ _ e
        · exact fixed one x1 _ h1 h1' e
    by_cases c1 : ch = EOF
    · rw [if_pos c1] at h
      left
      simp only [Option.some.injEq, Prod.mk.injEq] at h
      refine ⟨c1, ?_, h.2.symm⟩
      rw [← h.1]
      have e : (c_string (cstr "EOF")).take 255 = cstr "EOF" := by decide
      simp only [set_token, e]
    rw [if_neg c1] at h
    right
    refine ⟨c1, ?_⟩
    by_cases c2 : isalpha ch = true ∨ ch = 95
    · rw [if_pos c2] at h
      obtain ⟨k1, k2, k3, k4⟩ := scan_identifier_shape _ _ _ _ _ _ h
      refine ⟨?_, k3, k4, k2, Or.inl ?_⟩
      · rcases k1 with k | k <;> rw [k] <;> decide
      · rcases k1 with k | k
        · exact Or.inl k
        · exact Or.inr (Or.inl k)
    rw [if_neg c2] at h
    by_cases c3 : isdigit ch = true
    · rw [if_pos c3] at h
      obtain ⟨k1, k2, k3, k4⟩ := scan_number_shape _ _ _ _ _ _ h
      exact ⟨by rw [k1]; decide, k3, k4, k2, Or.inl (Or.inr (Or.inr (Or.inl k1)))⟩
    rw [if_neg c3] at h
    by_cases c46 : ch = 46
    · rw [if_pos c46] at h
      exact err _ _ h
    rw [if_neg c46] at h
    by_cases c40 : ch = 40
    · rw [if_pos c40] at h
      exact fixed _ _ _ (by decide) (by decide) h
    rw [if_neg c40] at h
    by_cases c41 : ch = 41
    · rw [if_pos c41] at h
      exact fixed _ _ _ (by decide) (by decide) h
    rw [if_neg c41] at h
    by_cases c123 : ch = 123
    · rw [if_pos c123] at h
      exact fixed _ _ _ (by decide) (by decide) h
    rw [if_neg c123] at h
    by_cases c125 : ch = 125
    · rw [if_pos c125] at h
      exact fixed _ _ _ (by decide) (by decide) h
    rw [if_neg c125] at h
    by_cases c59 : ch = 59
    · rw [if_pos c59] at h
      exact fixed _ _ _ (by decide) (by decide) h
    rw [if_neg c59] at h
    by_cases c44 : ch = 44
    · rw [if_pos c44] at h
      exact fixed _ _ _ (by decide) (by decide) h
    rw [if_neg c44] at h
    by_cases c43 : ch = 43
    · rw [if_pos c43] at h
      exact fixed _ _ _ (by decide) (by decide) h
    rw [if_neg c43] at h
    by_cases c45 : ch = 45
    · rw [if_pos c45] at h
      exact fixed _ _ _ (by decide) (by decide) h
    rw [if_neg c45] at h
    by_cases c42 : ch = 42
    · rw [if_pos c42] at h
      exact fixed _ _ _ (by decide) (by decide) h
    rw [if_neg c42] at h
    by_cases c47 : ch = 47
    · rw [if_pos c47] at h
      exact fixed _ _ _ (by decide) (by decide) h
    rw [if_neg c47] at h
    by_cases c61 : ch = 61
    · rw [if_pos c61] at h
      exact relop _ _ _ _ (by decide) (by decide) (Or.inr ⟨by decide, by decide⟩) h
    rw [if_neg c61] at h
    by_cases c33 : ch = 33
    · rw [if_pos c33] at h
      exact relop _ _ _ _ (by decide) (by decide) (Or.inl rfl) h
    rw [if_neg c33] at h
    by_cases c60 : ch = 60
    · rw [if_pos c60] at h
      exact relop _ _ _ _ (by decide) (by decide) (Or.inr ⟨by decide, by decide⟩) h
    rw [if_neg c60] at h
    by_cases c62 : ch = 62
    · rw [if_pos c62] at h
      exact relop _ _ _ _ (by decide) (by decide) (Or.inr ⟨by decide, by decide⟩) h
    rw [if_neg c62] at h
    exact err _ _ h

/-- C15: every token `next_token` returns whose kind is a fixed punctuation or
operator kind or end-of-stream has the text `token_type_name(kind)`; and
`token_type_name` gives each of the kinds of `TokenType` a name other than the
fallback `??`, different kinds getting different names. -/
theorem fixed_token_text_is_name :
    (∀ (s s2 : Scanner) (t : Token), next_token s = some (t, s2) →
      t.type ∈ [T_EOF, T_LPAREN, T_RPAREN, T_LBRACE, T_RBRACE, T_SEMI, T_COMMA, T_ASSIGN, T_EQ,
        T_NEQ, T_LT, T_LTE, T_GT, T_GTE, T_PLUS, T_MINUS, T_MUL, T_DIV] →
      t.lexeme = token_type_name t.type) ∧
    (∀ k : TokenType, token_type_name k ≠ cstr "??") ∧
    (∀ k1 k2 : TokenType, token_type_name k1 = token_type_name k2 → k1 = k2) := by
  refine ⟨?_, ?_, ?_⟩
  · intro s s2 t h hk
    obtain ⟨ch, s1, _, hc⟩ := next_token_cases s s2 t h
    rcases hc with ⟨_, rfl, _⟩ | ⟨_, _, _, _, _, hc | hc⟩
    · rfl
    · rcases hc with k | k | k | k <;> rw [k] at hk <;> exact absurd hk (by decide)
    · exact hc
  · intro k
    cases k <;> decide
  · intro k1 k2
    cases k1 <;> cases k2 <;> decide

/-- C15 on the file `(`: the token returned has the text `(`, the name of its
kind. -/
theorem fixed_token_text_is_name_witness :
    next_token (scanner_init (bytes "(")) = some (⟨T_LPAREN, cstr "(", 1, 1⟩, ⟨[], 1, 1, 0, 0⟩) ∧
    (⟨T_LPAREN, cstr "(", 1, 1⟩ : Token).lexeme = token_type_name T_LPAREN :=
  ⟨by decide, fixed_token_text_is_name.1 (scanner_init (bytes "(")) ⟨[], 1, 1, 0, 0⟩
    ⟨T_LPAREN, cstr "(", 1, 1⟩ (by decide) (by decide)⟩

/-! ## Bounded token text -/

/-- The function `append_char` on a buffer of at most 255 characters: the
character is stored unless the buffer is full. -/
theorem append_char_take (buf : List Int) (ch : Int) (h : buf.length ≤ 255) :
    append_char buf 256 ch = (buf ++ [ch]).take 255 := by
  unfold append_char
  by_cases hl : buf.length + 1 < 256
  · rw [if_pos hl, List.take_of_length_le (by simp; omega)]
  · rw [if_neg hl, List.take_append_of_le_length (by omega), List.take_of_length_le (by omega)]

theorem take_append_take (l r : List Int) (n : Nat) :
    (l.take n ++ r).take n = (l ++ r).take n := by
  by_cases h : l.length ≤ n
  · rw [List.take_of_length_le h]
  · have h1 : n ≤ l.length := by omega
    rw [List.take_append_of_le_length h1,
      List.take_append_of_le_length (by rw [List.length_take]; omega), List.take_take]
    simp

/-- The loop of `scan_identifier_or_keyword` on a run of identifier characters
of any length: it reads the whole run, keeps of buffer and run the first 255
characters, and stops at the character after the run. -/
theorem ident_loop_long (run : List Byte) : ∀ (n : Nat) (buf : List Int) (rest : List Byte)
    (l c p : Int),
    (∀ b ∈ run, is_ident_char (ofByte b) = true) →
    (∀ b ∈ rest.head?, is_ident_char (ofByte b) = false) →
    run.length < n → buf.length ≤ 255 →
    ident_loop n buf ⟨run ++ rest, l, c, 0, p⟩ =
      some ((getch ⟨rest, l, c + run.length, 0, p⟩).1, (buf ++ run.map ofByte).take 255,
            (getch ⟨rest, l, c + run.length, 0, p⟩).2) := by
  induction run with
  | nil =>
    intro n buf rest l c p hrun hrest hn hlen
    have := ident_loop_run [] n buf rest l c p hrun hrest hn (by simpa using hlen)
    rw [this]
    simp [List.take_of_length_le hlen]
  | cons b run ih =>
    intro n buf rest l c p hrun hrest hn hlen
    obtain ⟨m, rfl⟩ : ∃ m, n = m + 1 := ⟨n - 1, by simp at hn; omega⟩
    have hb : is_ident_char (ofByte b) = true := hrun b (by simp)
    have hb10 : ofByte b ≠ 10 := by
      intro h; rw [h] at hb; exact absurd hb (by decide)
    have hcont : (ofByte b ≠ EOF ∧ (isalnum (ofByte b) = true ∨ ofByte b = 95)) := by
      refine ⟨ofByte_ne_EOF b, ?_⟩
      simpa [is_ident_char] using hb
    simp only [List.length_cons] at hn
    simp only [List.cons_append, ident_loop, getch_cons _ _ _ _ _ hb10]
    rw [if_pos hcont, append_char_take _ _ hlen,
      ih m ((buf ++ [ofByte b]).take 255) rest l (c + 1) p (fun x hx => hrun x (by simp [hx]))
        hrest (by omega) (by rw [List.length_take]; omega), take_append_take]
    have hc : c + 1 + (run.length : Int) = c + ((b :: run).length : Int) := by
      simp only [List.length_cons]; push_cast; ring
    rw [hc]
    simp

/-- C14: every token `next_token` returns has a text of at most 255
characters; and when the first character that `skip_ws_and_comments` delivers
is a letter or an underscore and starts a run of more than 255 letters, digits
and underscores, `next_token` returns one identifier token whose text is the
first 255 characters of the run, and the whole run is consumed: what is pending
for the next call is what follows the run. -/
theorem token_text_bounded :
    (∀ (s s2 : Scanner) (t : Token), next_token s = some (t, s2) → t.lexeme.length ≤ 255) ∧
    (∀ (s s1 : Scanner) (ch : Int) (run rest : List Byte),
      skip_ws_and_comments s = some (ch, s1) →
      (isalpha ch = true ∨ ch = 95) →
      s1.g_in = run ++ rest →
      (∀ b ∈ run, is_ident_char (ofByte b) = true) →
      (∀ b ∈ rest.head?, is_ident_char (ofByte b) = false) →
      255 < run.length + 1 →
      ∃ s2, next_token s = some
          (⟨T_IDENTIFIER, (ch :: run.map ofByte).take 255, s1.g_line,
            if s1.g_col > 0 then s1.g_col else 1⟩, s2) ∧
        pending s2 = rest.map ofByte) := by
  constructor
  · intro s s2 t h
    obtain ⟨ch, s1, _, hc⟩ := next_token_cases s s2 t h
    rcases hc with ⟨_, rfl, _⟩ | ⟨_, _, _, _, hc, _⟩
    · show (cstr "EOF").length ≤ 255
      decide
    · exact hc
  · intro s s1 ch run rest hskip hfirst hin hrun hrest hlong
    have hid : is_ident_char ch = true := by
      rcases hfirst with h | h
      · simp [is_ident_char, isalnum, h]
      · simp [is_ident_char, h]
    have hE : ch ≠ EOF := by
      intro h; rw [h] at hid; exact absurd hid (by decide)
    have h47 : ch ≠ 47 := by
      intro h; rw [h] at hid; exact absurd hid (by decide)
    have hpush : s1.g_have_push = 0 := skip_no_push s s1 ch hskip hE h47
    obtain ⟨inp, l, c, hv, p⟩ := s1
    simp only at hpush hin
    subst hpush hin
    have hloop := ident_loop_long run (budget ⟨run ++ rest, l, c, 0, p⟩) [ch] rest l c p hrun
      hrest (by simp [budget]; omega) (by simp)
    have hnz : ∀ x ∈ (ch :: run.map ofByte).take 255, x ≠ 0 := by
      intro x hx
      have hx := List.mem_of_mem_take hx
      simp only [List.mem_cons, List.mem_map] at hx
      rcases hx with rfl | ⟨b, hb, rfl⟩
      · exact ident_char_ne_zero _ hid
      · exact ident_char_ne_zero _ (hrun b hb)
    have hcs := c_string_of_nonzero _ hnz
    have hlen : ((ch :: run.map ofByte).take 255).length = 255 := by
      rw [List.length_take]; simp; omega
    have hkw : is_keyword ((ch :: run.map ofByte).take 255) = false := by
      rw [Bool.eq_false_iff]
      intro h
      have hmem := (is_keyword_iff _ hcs).1 h
      have hshort : ∀ k ∈ KW, k.length ≤ 6 := by decide
      have := hshort _ hmem
      omega
    refine ⟨ungetch (getch ⟨rest, l, c + run.length, 0, p⟩).1
      (getch ⟨rest, l, c + run.length, 0, p⟩).2, ?_, ?_⟩
    · simp only [next_token, hskip, if_neg hE, if_pos hfirst, scan_identifier_or_keyword,
        append_char_room [] ch (by simp), List.nil_append, hloop, ungetch_guarded,
        List.singleton_append, hkw, Bool.false_eq_true, if_false]
      congr 2
      simp only [set_token, hcs]
      rw [List.take_of_length_le (by omega)]
    · rw [pending_ungetch_getch _ (fun h => absurd rfl h), pending_no_push _ rfl]

/-- C14 on a file of 256 letters `a`: one identifier token of 255 letters, and
nothing is left pending. -/
theorem token_text_bounded_witness :
    ∃ s2, next_token (scanner_init (List.replicate 256 97)) = some
        (⟨T_IDENTIFIER, List.replicate 255 97, 1, 1⟩, s2) ∧
      pending s2 = [] := by
  obtain ⟨s2, h1, h2⟩ := token_text_bounded.2 (scanner_init (List.replicate 256 97))
    ⟨List.replicate 255 97, 1, 1, 0, 0⟩ 97 (List.replicate 255 97) [] (by decide) (by decide)
    (by decide)
    (by intro b hb; rw [List.eq_of_mem_replicate hb]; decide)
    (by simp) (by simp)
  refine ⟨s2, ?_, h2⟩
  rw [h1]
  have e : (97 :: List.map ofByte (List.replicate 255 97)).take 255 =
      List.replicate 255 (97 : Int) := by decide
  rw [e]
  rfl

/-! ## Skipping a text of whitespace and complete comments -/

theorem map_ofByte_inj (a b : List Byte) (h : a.map ofByte = b.map ofByte) : a = b :=
  List.map_injective_iff.2 (fun x y hxy => ofByte_inj x y hxy) h

/-- Reading in a state whose pending characters start with the byte `b`: `b` is
returned, the pushback slot is empty and the rest is left unread. -/
theorem getch_of_pending (s : Scanner) (b : Byte) (inp : List Byte)
    (h : pending s = (b :: inp).map ofByte) :
    ∃ l1 c1 p1, getch s = (ofByte b, ⟨inp, l1, c1, 0, p1⟩) := by
  obtain ⟨g, l, c, hv, p⟩ := s
  by_cases h0 : hv = 0
  · subst h0
    have hg : g = b :: inp := map_ofByte_inj _ _ (by simpa [pending] using h)
    subst hg
    obtain ⟨l1, c1, e⟩ := getch_byte b inp l c p
    exact ⟨l1, c1, p, e⟩
  · simp only [pending, ne_eq, h0, not_false_eq_true, if_true, List.singleton_append,
      List.map_cons, List.cons.injEq] at h
    obtain ⟨hp, hg⟩ := h
    have hg : g = inp := map_ofByte_inj _ _ hg
    subst hp hg
    by_cases hn : ofByte b = 10
    · refine ⟨l + 1, 0, 10, ?_⟩
      rw [hn, getch_push_newline _ _ _ _ h0]
    · exact ⟨l, c + 1, ofByte b, getch_push _ _ _ _ _ h0 hn (ofByte_ne_EOF b)⟩

/-- Reading in a state in which nothing is pending. -/
theorem getch_of_pending_nil (s : Scanner) (h : pending s = []) :
    getch s = (EOF, s) ∧ s.g_have_push = 0 ∧ s.g_in = [] := by
  obtain ⟨g, l, c, hv, p⟩ := s
  by_cases h0 : hv = 0
  · subst h0
    have hg : g = [] := by simpa [pending] using h
    subst hg
    exact ⟨getch_nil l c p, rfl, rfl⟩
  · simp [pending, h0] at h

/-- The loop of `skip_ws_and_comments` on pending characters that start with a
text of whitespace and complete comments goes on behind that text. -/
theorem skip_loop_skipped (pre : List Byte) (hpre : Skipped pre) : ∀ (n : Nat) (rest : List Byte)
    (s : Scanner), pending s = (pre ++ rest).map ofByte → (pre ++ rest).length < n →
    ∃ m s1, rest.length < m ∧ pending s1 = rest.map ofByte ∧ skip_loop n s = skip_loop m s1 := by
  have h47 : ofByte (47 : Byte) = 47 := by decide
  have h47n : ofByte (47 : Byte) ≠ 10 := by decide
  have h42 : ofByte (42 : Byte) = 42 := by decide
  have h42n : ofByte (42 : Byte) ≠ 10 := by decide
  induction hpre with
  | nil =>
    intro n rest s hs hn
    exact ⟨n, s, by simpa using hn, by simpa using hs, rfl⟩
  | space b r hb _ ih =>
    intro n rest s hs hn
    obtain ⟨m, rfl⟩ : ∃ m, n = m + 1 := ⟨n - 1, by simp at hn; omega⟩
    simp only [List.cons_append, List.length_cons] at hn hs
    obtain ⟨l0, c0, p0, e0⟩ := getch_of_pending s b (r ++ rest) hs
    obtain ⟨k, s1, h1, h2, h3⟩ := ih m rest ⟨r ++ rest, l0, c0, 0, p0⟩
      (pending_no_push _ rfl) (by omega)
    refine ⟨k, s1, h1, h2, ?_⟩
    simp only [skip_loop, e0]
    rw [if_neg (ofByte_ne_EOF b), if_pos hb, h3]
  | line body r hbody _ ih =>
    intro n rest s hs hn
    obtain ⟨m, rfl⟩ : ∃ m, n = m + 1 := ⟨n - 1, by simp at hn; omega⟩
    simp only [List.cons_append, List.append_assoc, List.length_cons, List.length_append] at hn hs
    obtain ⟨l0, c0, p0, e0⟩ := getch_of_pending s 47 (47 :: (body ++ 10 :: (r ++ rest))) hs
    obtain ⟨x, l1, c1, e⟩ := skip_line_run body m 47 (10 :: (r ++ rest)) l0 (c0 + 1) p0
      (by decide) (by decide) hbody (Or.inr ⟨_, rfl⟩) (by omega)
    obtain ⟨k, s1, h1, h2, h3⟩ := ih m rest ⟨r ++ rest, l1, c1, 0, p0⟩
      (pending_no_push _ rfl) (by rw [List.length_append]; omega)
    refine ⟨k, s1, h1, h2, ?_⟩
    simp only [List.tail_cons] at e
    simp only [skip_loop, e0, getch_cons _ _ _ _ _ h47n, h47, e, h3]
    simp [isspace, EOF]
  | block body r hbody _ ih =>
    intro n rest s hs hn
    obtain ⟨m, rfl⟩ : ∃ m, n = m + 1 := ⟨n - 1, by simp at hn; omega⟩
    simp only [List.cons_append, List.append_assoc, List.length_cons, List.length_append] at hn hs
    obtain ⟨l0, c0, p0, e0⟩ := getch_of_pending s 47 (42 :: (body ++ 42 :: 47 :: (r ++ rest))) hs
    obtain ⟨l1, c1, e⟩ := skip_block_run body m 0 (r ++ rest) l0 (c0 + 1) p0
      (fun h => absurd h (by decide)) hbody (by omega)
    obtain ⟨k, s1, h1, h2, h3⟩ := ih m rest ⟨r ++ rest, l1, c1, 0, p0⟩
      (pending_no_push _ rfl) (by rw [List.length_append]; omega)
    refine ⟨k, s1, h1, h2, ?_⟩
    simp only [skip_loop, e0, getch_cons _ _ _ _ _ h42n, h47, h42, e, h3]
    simp [isspace, EOF]

/-- The budget of a state exceeds the number of its pending characters. -/
theorem pending_length_lt_budget (s : Scanner) : (pending s).length < budget s := by
  unfold pending budget
  split_ifs <;> simp

/-! ## The division operator and unterminated block comments -/

/-- C17: when, after whitespace and complete comments, the first character
pending is `/` and the next is neither `/` nor `*` (or the input ends),
`next_token` returns the division token with the text `/`, and the character
after the `/`, if any, is the first one pending for the next call. -/
theorem lone_slash_token (s : Scanner) (pre rest : List Byte)
    (hs : pending s = (pre ++ 47 :: rest).map ofByte) (hpre : Skipped pre)
    (hrest : ∀ b ∈ rest.head?, ofByte b ≠ 47 ∧ ofByte b ≠ 42) :
    ∃ L C s2, next_token s = some (⟨T_DIV, cstr "/", L, C⟩, s2) ∧
      pending s2 = rest.map ofByte := by
  have hlen : (pre ++ 47 :: rest).length < budget s := by
    have := pending_length_lt_budget s
    rw [hs, List.length_map] at this
    exact this
  obtain ⟨m, s1, h1, h2, h3⟩ := skip_loop_skipped pre hpre (budget s) (47 :: rest) s hs hlen
  obtain ⟨k, rfl⟩ : ∃ k, m = k + 1 := ⟨m - 1, by simp at h1; omega⟩
  obtain ⟨l1, c1, p1, e1⟩ := getch_of_pending s1 47 rest h2
  have h47 : ofByte (47 : Byte) = 47 := by decide
  have hch2 : (getch ⟨rest, l1, c1, 0, p1⟩).1 ≠ 47 ∧ (getch ⟨rest, l1, c1, 0, p1⟩).1 ≠ 42 := by
    rw [getch_fst_no_push]
    cases rest with
    | nil => simp [EOF]
    | cons b r => simpa using hrest b (by simp)
  have hpend : pending (ungetch (getch ⟨rest, l1, c1, 0, p1⟩).1
      (getch ⟨rest, l1, c1, 0, p1⟩).2) = rest.map ofByte := by
    rw [pending_ungetch_getch _ (fun h => absurd rfl h), pending_no_push _ rfl]
  have hskip : skip_ws_and_comments s = some (47, ungetch (getch ⟨rest, l1, c1, 0, p1⟩).1
      (getch ⟨rest, l1, c1, 0, p1⟩).2) := by
    unfold skip_ws_and_comments
    rw [h3]
    simp only [skip_loop, e1, h47, if_neg hch2.1, if_neg hch2.2]
    simp [isspace, EOF]
  generalize ungetch (getch ⟨rest, l1, c1, 0, p1⟩).1 (getch ⟨rest, l1, c1, 0, p1⟩).2 = sk
    at hskip hpend
  refine ⟨sk.g_line, if sk.g_col > 0 then sk.g_col else 1, sk, ?_, hpend⟩
  simp only [next_token, hskip]
  have e : (c_string (cstr "/")).take 255 = cstr "/" := by decide
  simp [isalpha, isdigit, EOF, set_token, e]

/-- C17 on the file ` /x`: the token `/`, and `x` stays pending. -/
theorem lone_slash_token_witness :
    ∃ L C s2, next_token (scanner_init (bytes " /x")) = some (⟨T_DIV, cstr "/", L, C⟩, s2) ∧
      pending s2 = cstr "x" :=
  lone_slash_token (scanner_init (bytes " /x")) [32] [120] (by decide)
    (Skipped.space 32 [] (by decide) Skipped.nil) (by decide)

/-- The loop of a block comment on a text without `*/` reads to the end of the
input and reports the comment as not closed. -/
theorem skip_block_open (t : List Byte) : ∀ (n : Nat) (prev : Int) (l c p : Int),
    (prev = 42 → ∀ b ∈ t.head?, ofByte b ≠ 47) → has_close t = false → t.length < n →
    ∃ l1 c1, skip_block n prev ⟨t, l, c, 0, p⟩ = some (false, ⟨[], l1, c1, 0, p⟩) := by
  induction t with
  | nil =>
    intro n prev l c p _ _ hn
    obtain ⟨m, rfl⟩ : ∃ m, n = m + 1 := ⟨n - 1, by simp at hn; omega⟩
    exact ⟨l, c, by simp [skip_block, getch_nil]⟩
  | cons b t ih =>
    intro n prev l c p hprev hclose hn
    obtain ⟨m, rfl⟩ : ∃ m, n = m + 1 := ⟨n - 1, by simp at hn; omega⟩
    simp only [List.length_cons] at hn
    obtain ⟨l0, c0, e0⟩ := getch_byte b t l c p
    have hnc : ¬ (prev = 42 ∧ ofByte b = 47) := fun h => hprev h.1 b (by simp) h.2
    have hc2 : (ofByte b = 42 → ∀ x ∈ t.head?, ofByte x ≠ 47) ∧ has_close t = false := by
      cases t with
      | nil => simp [has_close]
      | cons x t =>
        simp only [has_close, Bool.or_eq_false_iff, Bool.and_eq_false_iff,
          decide_eq_false_iff_not] at hclose
        refine ⟨?_, hclose.2⟩
        intro hb y hy
        simp only [List.head?_cons, Option.mem_def, Option.some.injEq] at hy
        subst hy
        rcases hclose.1 with h | h
        · exact absurd hb h
        · exact h
    obtain ⟨l1, c1, e⟩ := ih m (ofByte b) l0 c0 p hc2.1 hc2.2 (by omega)
    refine ⟨l1, c1, ?_⟩
    simp only [skip_block, e0]
    rw [if_pos (ofByte_ne_EOF b), if_neg hnc, e]

/-- C11: when, after whitespace and complete comments, the pending input is
`/*` followed by a text `t` without `*/` (`t` may start with `/`), `next_token`
returns the end-of-stream token and leaves nothing pending: the whole rest of
the input, `t` included, has been consumed and no character is pushed back;
scanning a file of that form gives that one token and no error token. -/
theorem unterminated_block_comment (pre t : List Byte) (hpre : Skipped pre)
    (ht : has_close t = false) :
    (∀ s : Scanner, pending s = (pre ++ 47 :: 42 :: t).map ofByte →
      ∃ L C s2, next_token s = some (⟨T_EOF, cstr "EOF", L, C⟩, s2) ∧ pending s2 = [] ∧
        s2.g_in = [] ∧ s2.g_have_push = 0) ∧
    ∃ L C, tokens (pre ++ 47 :: 42 :: t) = some [⟨T_EOF, cstr "EOF", L, C⟩] := by
  have key : ∀ s : Scanner, pending s = (pre ++ 47 :: 42 :: t).map ofByte →
      ∃ L C s2, next_token s = some (⟨T_EOF, cstr "EOF", L, C⟩, s2) ∧ pending s2 = [] ∧
        s2.g_in = [] ∧ s2.g_have_push = 0 := by
    intro s hs
    have hlen : (pre ++ 47 :: 42 :: t).length < budget s := by
      have := pending_length_lt_budget s
      rw [hs, List.length_map] at this
      exact this
    obtain ⟨m, s1, h1, h2, h3⟩ := skip_loop_skipped pre hpre (budget s) (47 :: 42 :: t) s hs hlen
    obtain ⟨k, rfl⟩ : ∃ k, m = k + 1 := ⟨m - 1, by simp at h1; omega⟩
    simp only [List.length_cons] at h1
    obtain ⟨l1, c1, p1, e1⟩ := getch_of_pending s1 47 (42 :: t) h2
    have h47 : ofByte (47 : Byte) = 47 := by decide
    have h42 : ofByte (42 : Byte) = 42 := by decide
    have h42n : ofByte (42 : Byte) ≠ 10 := by decide
    obtain ⟨l2, c2, e2⟩ := skip_block_open t k 0 l1 (c1 + 1) p1
      (fun h => absurd h (by decide)) ht (by omega)
    have hskip : skip_ws_and_comments s = some (EOF, ⟨[], l2, c2, 0, p1⟩) := by
      unfold skip_ws_and_comments
      rw [h3]
      simp only [skip_loop, e1, h47, getch_cons _ _ _ _ _ h42n, h42, e2]
      simp [isspace, EOF]
    refine ⟨l2, c2, ⟨[], l2, c2, 0, p1⟩, ?_, by simp [pending], rfl, rfl⟩
    simp only [next_token, hskip, if_true]
    have e : (c_string (cstr "EOF")).take 255 = cstr "EOF" := by decide
    simp only [set_token, e]
  refine ⟨key, ?_⟩
  obtain ⟨L, C, s2, h, _⟩ := key (scanner_init (pre ++ 47 :: 42 :: t))
    (pending_no_push _ rfl)
  refine ⟨L, C, ?_⟩
  simp only [tokens, scan_all, h, if_true]

/-- C11 on the file ` /*/ x`: the first call returns the end-of-stream token
with nothing left pending, and the scan is that one token. -/
theorem unterminated_block_comment_witness :
    (∃ L C s2, next_token (scanner_init (bytes " /*/ x")) =
        some (⟨T_EOF, cstr "EOF", L, C⟩, s2) ∧ pending s2 = [] ∧
        s2.g_in = [] ∧ s2.g_have_push = 0) ∧
    ∃ L C, tokens (bytes " /*/ x") = some [⟨T_EOF, cstr "EOF", L, C⟩] :=
  ⟨(unterminated_block_comment [32] (bytes "/ x")
      (Skipped.space 32 [] (by decide) Skipped.nil) (by decide)).1
      (scanner_init (bytes " /*/ x")) (by decide),
   (unterminated_block_comment [32] (bytes "/ x")
      (Skipped.space 32 [] (by decide) Skipped.nil) (by decide)).2⟩

/-! ## A decimal point without digits behind it -/

/-- At the start of a file that begins with a digit, `skip_ws_and_comments`
delivers that digit. -/
theorem skip_at_digit (c : Byte) (r : List Byte) (hc : isdigit (ofByte c) = true) :
    skip_ws_and_comments (scanner_init (c :: r)) = some (ofByte c, ⟨r, 1, 1, 0, 0⟩) := by
  have hb : 48 ≤ ofByte c ∧ ofByte c ≤ 57 := by simpa [isdigit] using hc
  have h10 : ofByte c ≠ 10 := by omega
  have hsp : isspace (ofByte c) = false := by
    simp only [isspace, Bool.or_eq_false_iff, Bool.and_eq_false_iff, decide_eq_false_iff_not]
    omega
  have h47 : ofByte c ≠ 47 := by omega
  simp only [skip_ws_and_comments, budget, scanner_init, skip_loop, getch_cons _ _ _ _ _ h10,
    if_neg (ofByte_ne_EOF c), hsp, if_neg h47, Bool.false_eq_true, if_false]
  rfl

/-- C12: for every non-empty run `d` of at most 254 digits, scanning the file
`d` followed by `.` yields exactly a number token with the text `d.` (at line
1, column 1) and then the end-of-stream token; for `5.` the tokens are number
`5.` and end-of-stream. -/
theorem trailing_point_kept (d : List Byte) (hne : d ≠ []) (hd : is_digits d = true)
    (hlen : d.length ≤ 254) :
    (∃ L C, tokens (d ++ [46]) =
      some [⟨T_NUMBER, (d ++ [46]).map ofByte, 1, 1⟩, ⟨T_EOF, cstr "EOF", L, C⟩]) ∧
    tokens (bytes "5.") = some [⟨T_NUMBER, cstr "5.", 1, 1⟩, ⟨T_EOF, cstr "EOF", 1, 2⟩] := by
  refine ⟨?_, by decide⟩
  obtain ⟨c, d1, rfl⟩ : ∃ c d1, d = c :: d1 := by
    cases d with
    | nil => exact absurd rfl hne
    | cons c d1 => exact ⟨c, d1, rfl⟩
  have hc : isdigit (ofByte c) = true := by
    simp only [is_digits, List.all_cons, Bool.and_eq_true] at hd
    exact hd.1
  simp only [List.length_cons] at hlen
  have hskip := skip_at_digit c (d1 ++ [46]) hc
  obtain ⟨hnt, _⟩ := next_token_digit _ _ _ hskip hc
  obtain ⟨s2, e1, e2⟩ := scan_number_point c d1 [] 1 1 1 1 0 hd (by simp) (by omega)
  have hnt1 : next_token (scanner_init (c :: d1 ++ [46])) =
      some (⟨T_NUMBER, (c :: d1 ++ [46]).map ofByte, 1, 1⟩, s2) := by
    rw [List.cons_append, hnt]
    exact e1
  obtain ⟨_, h0, hin⟩ := getch_of_pending_nil s2 (by simpa using e2)
  have hnt2 := next_token_at_end s2 h0 hin
  refine ⟨s2.g_line, s2.g_col, ?_⟩
  simp only [tokens, scan_all, List.length_append, List.length_cons, List.length_nil, hnt1, hnt2]
  simp

/-- C12 on the file `12.`. -/
theorem trailing_point_kept_witness :
    ∃ L C, tokens (bytes "12.") =
      some [⟨T_NUMBER, cstr "12.", 1, 1⟩, ⟨T_EOF, cstr "EOF", L, C⟩] :=
  (trailing_point_kept (bytes "12") (by decide) (by decide) (by decide)).1

/-- The function `scan_number` on digits, a point and, right behind the point,
a well-formed exponent that no digit follows, all fitting the buffer: the
point and the exponent are in the token text. -/
theorem scan_number_point_exp (c : Byte) (d1 : List Byte) (m : Byte) (sg : Option Byte)
    (d3 rest : List Byte) (L C l col p : Int)
    (hd : is_digits (c :: d1) = true) (hok : exp_ok (some (m, sg, d3)) = true)
    (hrest : ∀ b ∈ rest.head?, isdigit (ofByte b) = false)
    (hlen : d1.length + 1 + 1 + (exp_text (some (m, sg, d3))).length ≤ 255) :
    ∃ s2, scan_number (ofByte c) L C ⟨d1 ++ 46 :: (exp_text (some (m, sg, d3)) ++ rest), l, col, 0, p⟩ =
        some (⟨T_NUMBER, (c :: d1 ++ 46 :: exp_text (some (m, sg, d3))).map ofByte, L, C⟩, s2) ∧
      pending s2 = rest.map ofByte := by
  have h46 : ofByte (46 : Byte) = 46 := by decide
  have h4610 : ofByte (46 : Byte) ≠ 10 := by decide
  have hok' := hok
  simp only [exp_ok, Bool.and_eq_true, Bool.or_eq_true, decide_eq_true_eq] at hok'
  have hm : ofByte m = 101 ∨ ofByte m = 69 := hok'.1.1.1
  have hwf : NumLit.wf ⟨c :: d1, none, some (m, sg, d3)⟩ = true := by
    simp only [NumLit.wf, frac_ok, hd, hok]
    simp
  have hnz0 := numlit_text_nonzero _ hwf
  simp only [is_digits, List.all_cons, Bool.and_eq_true] at hd
  have hloop := digit_loop_run d1
    (budget ⟨d1 ++ 46 :: (exp_text (some (m, sg, d3)) ++ rest), l, col, 0, p⟩) [ofByte c]
    (46 :: (exp_text (some (m, sg, d3)) ++ rest)) l col p hd.2 (by simp; decide)
    (by simp [budget]; omega) (by simp; omega)
  have hnd : isdigit (getch ⟨exp_text (some (m, sg, d3)) ++ rest, l, col + d1.length + 1, 0, p⟩).1
      = false := by
    rw [getch_fst_no_push]
    simp only [exp_text, List.cons_append, List.head?_cons, Option.map_some', Option.getD_some,
      isdigit, Bool.and_eq_false_iff, decide_eq_false_iff_not]
    omega
  obtain ⟨s2, e1, e2⟩ := scan_exponent_some (ofByte c :: d1.map ofByte ++ [46]) L C m sg d3 rest l
    (col + d1.length + 1) p hok hrest (by simp; omega)
  have hnz : ∀ x ∈ ofByte c :: d1.map ofByte ++ [46] ++ (exp_text (some (m, sg, d3))).map ofByte,
      x ≠ 0 := by
    intro x hx
    have h1 : x ∈ (NumLit.text ⟨c :: d1, none, some (m, sg, d3)⟩).map ofByte ∨ x = 46 := by
      simp only [NumLit.text, frac_text, List.append_nil, List.map_append, List.map_cons,
        List.mem_append, List.mem_cons, List.cons_append, List.mem_singleton, List.not_mem_nil,
        or_false] at hx ⊢
      tauto
    rcases h1 with h | rfl
    · exact hnz0 x h
    · decide
  refine ⟨s2, ?_, e2⟩
  simp only [scan_number, append_char_room [] (ofByte c) (by simp), List.nil_append]
  simp only [List.singleton_append] at hloop
  rw [hloop]
  simp only [getch_cons _ _ _ _ _ h4610, h46, if_true, hnd, Bool.false_eq_true, if_false]
  rw [append_char_room _ _ (by simp; omega), e1,
    set_token_clean _ _ _ _ hnz (by simp; omega)]
  simp [h46]

/-- C13 as stated fails on the file `5.e3`: the character after the point is
`e`, which is not a digit, but the number does not end at the point: the token
text is `5.e3` and nothing is left for a later call. -/
theorem exponent_after_point_scanned :
    tokens (bytes "5.e3") = some [⟨T_NUMBER, cstr "5.e3", 1, 1⟩, ⟨T_EOF, cstr "EOF", 1, 4⟩] ∧
    cstr "5.e3" ≠ cstr "5." := by
  decide

/-- C13, amended: when the first character that `skip_ws_and_comments` delivers
starts a run `d` of at most 254 digits that is followed by `.`, then: if what
comes after the `.` is not a digit and not `e` or `E` (or the input ends there),
`next_token` returns a number token whose text is `d.` and leaves what follows
the `.` pending for the next call; if a well-formed exponent (`e` or `E`, an
optional sign, one or more digits, no further digit behind) comes right after
the `.` and the text fits 255 characters, the exponent belongs to the number:
the text is `d.` followed by the exponent, and what follows it stays pending. -/
theorem number_ends_after_point (s s1 : Scanner) (c : Byte) (d1 : List Byte)
    (hskip : skip_ws_and_comments s = some (ofByte c, s1))
    (hd : is_digits (c :: d1) = true) :
    (∀ r : List Byte, s1.g_in = d1 ++ 46 :: r →
      (∀ b ∈ r.head?, isdigit (ofByte b) = false ∧ ofByte b ≠ 101 ∧ ofByte b ≠ 69) →
      (c :: d1).length ≤ 254 →
      ∃ s2, next_token s = some (⟨T_NUMBER, (c :: d1 ++ [46]).map ofByte, s1.g_line,
                if s1.g_col > 0 then s1.g_col else 1⟩, s2) ∧
        pending s2 = r.map ofByte) ∧
    (∀ (m : Byte) (sg : Option Byte) (d3 rest : List Byte),
      s1.g_in = d1 ++ 46 :: (exp_text (some (m, sg, d3)) ++ rest) →
      exp_ok (some (m, sg, d3)) = true →
      (∀ b ∈ rest.head?, isdigit (ofByte b) = false) →
      (c :: d1 ++ 46 :: exp_text (some (m, sg, d3))).length ≤ 255 →
      ∃ s2, next_token s = some (⟨T_NUMBER,
                (c :: d1 ++ 46 :: exp_text (some (m, sg, d3))).map ofByte, s1.g_line,
                if s1.g_col > 0 then s1.g_col else 1⟩, s2) ∧
        pending s2 = rest.map ofByte) := by
  have hc : isdigit (ofByte c) = true := by
    simp only [is_digits, List.all_cons, Bool.and_eq_true] at hd
    exact hd.1
  obtain ⟨hnt, hpush⟩ := next_token_digit s s1 _ hskip hc
  obtain ⟨inp, l, col, hv, p⟩ := s1
  simp only at hpush
  subst hpush
  constructor
  · intro r hin hr hlen
    simp only at hin
    subst hin
    simp only [List.length_cons] at hlen
    obtain ⟨s2, e1, e2⟩ := scan_number_point c d1 r l (if col > 0 then col else 1) l col p hd hr
      (by omega)
    exact ⟨s2, by rw [hnt]; exact e1, e2⟩
  · intro m sg d3 rest hin hok hrest hlen
    simp only at hin
    subst hin
    simp only [List.cons_append, List.length_cons, List.length_append] at hlen
    obtain ⟨s2, e1, e2⟩ := scan_number_point_exp c d1 m sg d3 rest l (if col > 0 then col else 1)
      l col p hd hok hrest (by omega)
    exact ⟨s2, by rw [hnt]; exact e1, e2⟩

/-- C13, amended, on the file `5.x`: the number `5.`, and `x` stays pending. -/
theorem number_ends_after_point_witness :
    ∃ s2, next_token (scanner_init (bytes "5.x")) = some (⟨T_NUMBER, cstr "5.", 1, 1⟩, s2) ∧
      pending s2 = cstr "x" :=
  (number_ends_after_point (scanner_init (bytes "5.x")) ⟨bytes ".x", 1, 1, 0, 0⟩ 53 []
    (by decide) (by decide)).1 (bytes "x") (by decide) (by decide) (by decide)

/-! ## The pushback slot -/

/-- C18 (the code at a failing input): on `1ex`, `scan_number` has read `1`,
`e` and `x` when it finds the exponent malformed; it calls `ungetch('e')`, after
which the pushback slot is occupied by `e`, and then `ungetch('x')` on that
state: the slot is written a second time without a `getch` in between, and the
`e` in it is overwritten by `x`. -/
theorem double_pushback_overwrites :
    next_token (scanner_init (bytes "1ex")) =
      some (⟨T_NUMBER, cstr "1", 1, 1⟩, ungetch 120 (ungetch 101 ⟨[], 1, 3, 0, 0⟩)) ∧
    scan_exponent 101 (cstr "1") 1 1 ⟨bytes "x", 1, 2, 0, 0⟩ =
      some (⟨T_NUMBER, cstr "1", 1, 1⟩, ungetch 120 (ungetch 101 ⟨[], 1, 3, 0, 0⟩)) ∧
    getch ⟨bytes "x", 1, 2, 0, 0⟩ = (120, ⟨[], 1, 3, 0, 0⟩) ∧
    (ungetch 101 ⟨[], 1, 3, 0, 0⟩).g_have_push = 1 ∧
    (ungetch 101 ⟨[], 1, 3, 0, 0⟩).g_push_ch = 101 ∧
    (ungetch 120 (ungetch 101 ⟨[], 1, 3, 0, 0⟩)).g_push_ch = 120 := by
  decide

/-! ## The scanner state and the offset in the file -/

theorem spec_line_succ (f : List Byte) (k : Nat) (b : Byte) (h : f[k]? = some b) :
    spec_line f (k + 1) = spec_line f k + (if ofByte b = 10 then 1 else 0) := by
  unfold spec_line
  rw [List.take_succ, h]
  simp only [Option.toList, List.filter_append, List.length_append]
  by_cases hb : ofByte b = 10
  · simp [hb, List.filter]
    ring
  · simp [hb, List.filter]

theorem spec_line_pos (f : List Byte) (k : Nat) : 1 ≤ spec_line f k := by
  unfold spec_line
  omega

theorem drop_of_get (f : List Byte) (k : Nat) (b : Byte) (h : f[k]? = some b) :
    k < f.length ∧ f.drop k = b :: f.drop (k + 1) := by
  have hk : k < f.length := by
    by_contra hc
    rw [List.getElem?_eq_none (by omega)] at h
    exact absurd h (by simp)
  refine ⟨hk, ?_⟩
  rw [List.getElem?_eq_getElem hk] at h
  rw [List.drop_eq_getElem_cons hk]
  simp only [Option.some.injEq] at h
  rw [h]

theorem get_of_lt (f : List Byte) (k : Nat) (h : k < f.length) : ∃ b, f[k]? = some b :=
  ⟨f[k], List.getElem?_eq_getElem h⟩

theorem clean_remaining (f : List Byte) (s : Scanner) (k : Nat) (h : Clean f s k) :
    remaining s = f.length - k := by
  obtain ⟨h0, _, hin, _⟩ := h
  simp [remaining, h0, hin]

theorem remaining_lt_budget (s : Scanner) : remaining s < budget s := by
  unfold remaining budget
  split_ifs <;> omega

/-- Reading in a clean state at offset `k`. -/
theorem getch_clean (f : List Byte) (s : Scanner) (k : Nat) (h : Clean f s k) :
    JustRead f (getch s).1 (getch s).2 k := by
  obtain ⟨g, l, c, hv, p⟩ := s
  obtain ⟨h0, hk, hin, hl⟩ := h
  simp only at h0 hin hl
  subst h0
  by_cases hlt : k < f.length
  · obtain ⟨b, hb⟩ := get_of_lt f k hlt
    obtain ⟨_, hd⟩ := drop_of_get f k b hb
    rw [hd] at hin
    subst hin
    left
    refine ⟨b, hb, ?_, ?_⟩
    · by_cases h10 : ofByte b = 10
      · rw [getch_newline _ _ _ _ _ h10, h10]
      · rw [getch_cons _ _ _ _ _ h10]
    · by_cases h10 : ofByte b = 10
      · rw [getch_newline _ _ _ _ _ h10]
        exact ⟨rfl, by omega, rfl, by rw [spec_line_succ f k b hb, hl, if_pos h10]⟩
      · rw [getch_cons _ _ _ _ _ h10]
        exact ⟨rfl, by omega, rfl, by rw [spec_line_succ f k b hb, hl, if_neg h10]; simp⟩
  · have hkl : k = f.length := by omega
    have hd : f.drop k = [] := by rw [hkl]; simp
    rw [hd] at hin
    subst hin
    right
    rw [getch_nil]
    exact ⟨rfl, hkl, rfl, hk, hd.symm, hl⟩

/-- The state behind a character just read is clean, at an offset that is not
smaller. -/
theorem just_read_clean (f : List Byte) (ch : Int) (s : Scanner) (k : Nat)
    (h : JustRead f ch s k) :
    ∃ q, Clean f s q ∧ k ≤ q ∧ (ch ≠ EOF → q = k + 1) ∧ (ch = EOF → q = f.length) := by
  rcases h with ⟨b, hb, hch, hc⟩ | ⟨hch, hk, hc⟩
  · refine ⟨k + 1, hc, by omega, fun _ => rfl, fun h => ?_⟩
    rw [hch] at h
    exact absurd h (ofByte_ne_EOF b)
  · exact ⟨k, hc, le_refl _, fun h => absurd hch h, fun _ => hk⟩

/-- Pushing back the character just read at offset `k` puts the state at
offset `k`. -/
theorem ungetch_just_read (f : List Byte) (ch : Int) (s : Scanner) (k : Nat)
    (h : JustRead f ch s k) : Tracks f (ungetch ch s) k := by
  rcases h with ⟨b, hb, hch, hc⟩ | ⟨hch, hk, hc⟩
  · obtain ⟨g, l, c, hv, p⟩ := s
    obtain ⟨h0, hk, hin, hl⟩ := hc
    simp only at h0 hin hl
    subst hch
    right
    have hs := spec_line_succ f k b hb
    by_cases h10 : ofByte b = 10
    · rw [h10, ungetch_newline]
      refine ⟨k + 1, b, by omega, hk, hb, by simp, h10.symm, hin, ?_, rfl, Or.inl rfl⟩
      simp only [hl, hs, if_pos h10]
      ring
    · rw [ungetch_char _ _ _ _ _ _ h10 (ofByte_ne_EOF b)]
      refine ⟨k + 1, b, by omega, hk, hb, by simp, rfl, hin, ?_, rfl, Or.inl rfl⟩
      simp only [hl, hs, if_neg h10]
      ring
  · subst hch
    rw [ungetch_EOF]
    exact Or.inl hc

/-- Reading in a state at offset `i`: the byte at offset `i` is delivered and
the state behind it is clean, at an offset with no newline in between; at the
end of the file the end marker is delivered and nothing changes. -/
theorem getch_tracks (f : List Byte) (s : Scanner) (i : Nat) (h : Tracks f s i) :
    (∃ b q, f[i]? = some b ∧ (getch s).1 = ofByte b ∧ Clean f (getch s).2 q ∧ i < q ∧
        spec_line f (i + 1) = spec_line f q ∧ remaining (getch s).2 < remaining s) ∨
    (i = f.length ∧ getch s = (EOF, s) ∧ Clean f s i) := by
  rcases h with hc | ⟨k, b, hik, hk, hb, hp, hpc, hin, hl, hkk, _⟩
  · have hr := clean_remaining f s i hc
    rcases getch_clean f s i hc with ⟨b, hb, hch, hc1⟩ | ⟨hch, hk, hc1⟩
    · left
      have := clean_remaining f _ _ hc1
      have hlt := (drop_of_get f i b hb).1
      exact ⟨b, i + 1, hb, hch, hc1, by omega, rfl, by omega⟩
    · right
      obtain ⟨g, l, c, hv, p⟩ := s
      have hc' := hc
      obtain ⟨h0, _, hin, _⟩ := hc'
      simp only at h0 hin
      subst h0
      have hd : g = [] := by rw [hin, hk]; simp
      subst hd
      exact ⟨hk, getch_nil _ _ _, hc⟩
  · left
    obtain ⟨g, l, c, hv, p⟩ := s
    simp only at hp hpc hin hl
    subst hpc
    have hs := spec_line_succ f i b hb
    refine ⟨b, k, hb, ?_, ?_, hik, hkk, ?_⟩
    · by_cases h10 : ofByte b = 10
      · rw [h10, getch_push_newline _ _ _ _ hp]
      · rw [getch_push _ _ _ _ _ hp h10 (ofByte_ne_EOF b)]
    · by_cases h10 : ofByte b = 10
      · rw [h10, getch_push_newline _ _ _ _ hp]
        refine ⟨rfl, hk, hin, ?_⟩
        simp only [hl, ← hkk, hs, if_pos h10]
      · rw [getch_push _ _ _ _ _ hp h10 (ofByte_ne_EOF b)]
        refine ⟨rfl, hk, hin, ?_⟩
        simp only [hl, ← hkk, hs, if_neg h10]
        ring
    · have e : (getch ⟨g, l, c, hv, ofByte b⟩).2.g_in = g ∧
          (getch ⟨g, l, c, hv, ofByte b⟩).2.g_have_push = 0 := by
        by_cases h10 : ofByte b = 10
        · rw [h10, getch_push_newline _ _ _ _ hp]; exact ⟨rfl, rfl⟩
        · rw [getch_push _ _ _ _ _ hp h10 (ofByte_ne_EOF b)]; exact ⟨rfl, rfl⟩
      simp [remaining, e.1, e.2, hp]

/-- A character other than the end marker that was just read at offset `k`
leaves a clean state at offset `k + 1`, inside the file. -/
theorem just_read_byte (f : List Byte) (ch : Int) (s : Scanner) (k : Nat)
    (h : JustRead f ch s k) (hE : ch ≠ EOF) :
    ∃ b, f[k]? = some b ∧ ch = ofByte b ∧ Clean f s (k + 1) ∧ k < f.length := by
  rcases h with ⟨b, hb, hch, hc⟩ | ⟨hch, _, _⟩
  · exact ⟨b, hb, hch, hc, (drop_of_get f k b hb).1⟩
  · exact absurd hch hE

/-- The loop of `scan_identifier_or_keyword`, started in a clean state with a
budget above the number of unread bytes, returns; its last character was just
read at an offset that is not smaller. -/
theorem ident_loop_eff (f : List Byte) : ∀ (n : Nat) (buf : List Int) (s : Scanner) (k : Nat),
    Clean f s k → f.length - k < n →
    ∃ ch b1 s1 j, ident_loop n buf s = some (ch, b1, s1) ∧ JustRead f ch s1 j ∧ k ≤ j := by
  intro n
  induction n with
  | zero => intro buf s k _ h; omega
  | succ n ih =>
    intro buf s k hc hn
    have hj := getch_clean f s k hc
    simp only [ident_loop]
    by_cases hcond : (getch s).1 ≠ EOF ∧ (isalnum (getch s).1 = true ∨ (getch s).1 = 95)
    · rw [if_pos hcond]
      obtain ⟨b, _, _, hc1, hlt⟩ := just_read_byte f _ _ k hj hcond.1
      obtain ⟨ch, b1, s1, j, e, h1, h2⟩ := ih (append_char buf 256 (getch s).1) (getch s).2 (k + 1)
        hc1 (by omega)
      exact ⟨ch, b1, s1, j, e, h1, by omega⟩
    · rw [if_neg hcond]
      exact ⟨_, _, _, k, rfl, hj, le_refl k⟩

/-- The digit loop of `scan_number`, started in a clean state with a budget
above the number of unread bytes, returns; its last character was just read at
an offset that is not smaller. -/
theorem digit_loop_eff (f : List Byte) : ∀ (n : Nat) (buf : List Int) (s : Scanner) (k : Nat),
    Clean f s k → f.length - k < n →
    ∃ ch b1 s1 j, digit_loop n buf s = some (ch, b1, s1) ∧ JustRead f ch s1 j ∧ k ≤ j := by
  intro n
  induction n with
  | zero => intro buf s k _ h; omega
  | succ n ih =>
    intro buf s k hc hn
    have hj := getch_clean f s k hc
    simp only [digit_loop]
    by_cases hcond : (getch s).1 ≠ EOF ∧ isdigit (getch s).1 = true
    · rw [if_pos hcond]
      obtain ⟨b, _, _, hc1, hlt⟩ := just_read_byte f _ _ k hj hcond.1
      obtain ⟨ch, b1, s1, j, e, h1, h2⟩ := ih (append_char buf 256 (getch s).1) (getch s).2 (k + 1)
        hc1 (by omega)
      exact ⟨ch, b1, s1, j, e, h1, by omega⟩
    · rw [if_neg hcond]
      exact ⟨_, _, _, k, rfl, hj, le_refl k⟩

/-- The loop of a line comment, started in a clean state with enough budget,
returns in a clean state at an offset that is not smaller. -/
theorem skip_line_eff (f : List Byte) : ∀ (n : Nat) (ch : Int) (s : Scanner) (k : Nat),
    Clean f s k → f.length - k + (if ch ≠ 10 ∧ ch ≠ EOF then 1 else 0) < n →
    ∃ x s1 q, skip_line n ch s = some (x, s1) ∧ Clean f s1 q ∧ k ≤ q := by
  intro n
  induction n with
  | zero => intro ch s k _ h; omega
  | succ n ih =>
    intro ch s k hc hn
    simp only [skip_line]
    by_cases hcond : ch ≠ 10 ∧ ch ≠ EOF
    · rw [if_pos hcond]
      rw [if_pos hcond] at hn
      have hj := getch_clean f s k hc
      by_cases hE : (getch s).1 = EOF
      · obtain ⟨q, hq, _, _, _⟩ := just_read_clean f _ _ k hj
        obtain ⟨x, s1, q1, e, h1, h2⟩ := ih (getch s).1 (getch s).2 q hq (by
          rw [if_neg (by rw [hE]; simp)]; omega)
        exact ⟨x, s1, q1, e, h1, by omega⟩
      · obtain ⟨b, _, _, hc1, hlt⟩ := just_read_byte f _ _ k hj hE
        obtain ⟨x, s1, q1, e, h1, h2⟩ := ih (getch s).1 (getch s).2 (k + 1) hc1 (by
          split_ifs <;> omega)
        exact ⟨x, s1, q1, e, h1, by omega⟩
    · rw [if_neg hcond]
      exact ⟨ch, s, k, rfl, hc, le_refl k⟩

/-- The loop of a block comment, started in a clean state with a budget above
the number of unread bytes, returns in a clean state at an offset that is not
smaller: the end of the file if the comment was not closed. -/
theorem skip_block_eff (f : List Byte) : ∀ (n : Nat) (prev : Int) (s : Scanner) (k : Nat),
    Clean f s k → f.length - k < n →
    ∃ closed s1 q, skip_block n prev s = some (closed, s1) ∧ Clean f s1 q ∧ k ≤ q ∧
      (closed = false → q = f.length) := by
  intro n
  induction n with
  | zero => intro prev s k _ h; omega
  | succ n ih =>
    intro prev s k hc hn
    have hj := getch_clean f s k hc
    simp only [skip_block]
    by_cases hE : (getch s).1 ≠ EOF
    · rw [if_pos hE]
      obtain ⟨b, _, _, hc1, hlt⟩ := just_read_byte f _ _ k hj hE
      by_cases hcl : prev = 42 ∧ (getch s).1 = 47
      · rw [if_pos hcl]
        exact ⟨true, _, k + 1, rfl, hc1, by omega, fun h => absurd h (by simp)⟩
      · rw [if_neg hcl]
        obtain ⟨cl, s1, q, e, h1, h2, h3⟩ := ih (getch s).1 (getch s).2 (k + 1) hc1 (by omega)
        exact ⟨cl, s1, q, e, h1, by omega, h3⟩
    · rw [if_neg hE]
      have hE' : (getch s).1 = EOF := by simpa using hE
      obtain ⟨q, hq, hkq, _, hq2⟩ := just_read_clean f _ _ k hj
      exact ⟨false, _, q, rfl, hq, hkq, fun _ => hq2 hE'⟩

theorem delivered_mono (f : List Byte) (i q : Nat) (ch : Int) (s1 : Scanner) (hiq : i ≤ q)
    (h : Delivered f q ch s1) : Delivered f i ch s1 := by
  rcases h with h | ⟨j, q1, b, h1, h2⟩
  · exact Or.inl h
  · exact Or.inr ⟨j, q1, b, by omega, h2⟩

/-- The loop of `skip_ws_and_comments`, started at offset `i` with a budget
above the number of characters that can still be read, returns, and delivers
the first character behind whitespace and comments. -/
theorem skip_loop_eff (f : List Byte) : ∀ (n : Nat) (s : Scanner) (i : Nat),
    Tracks f s i → remaining s < n →
    ∃ ch s1, skip_loop n s = some (ch, s1) ∧ Delivered f i ch s1 := by
  intro n
  induction n with
  | zero => intro s i _ h; omega
  | succ n ih =>
    intro s i ht hn
    simp only [skip_loop]
    rcases getch_tracks f s i ht with ⟨b, q, hb, hch, hc1, hiq, hsl, hrem⟩ | ⟨hi, hg, hc⟩
    · have hE : (getch s).1 ≠ EOF := by rw [hch]; exact ofByte_ne_EOF b
      have hr1 := clean_remaining f _ _ hc1
      rw [if_neg hE]
      by_cases hsp : isspace (getch s).1 = true
      · rw [if_pos hsp]
        obtain ⟨ch, s1, e, hd⟩ := ih (getch s).2 q (Or.inl hc1) (by omega)
        exact ⟨ch, s1, e, delivered_mono f i q ch s1 (by omega) hd⟩
      · rw [if_neg hsp]
        have hsp' : isspace (getch s).1 = false := by simpa using hsp
        by_cases h47 : (getch s).1 = 47
        · rw [if_pos h47]
          have hj2 := getch_clean f _ q hc1
          by_cases h2 : (getch (getch s).2).1 = 47
          · rw [if_pos h2]
            obtain ⟨b2, _, _, hc2, hlt⟩ := just_read_byte f _ _ q hj2 (by rw [h2]; decide)
            obtain ⟨x, s3, q3, e3, hc3, hq3⟩ := skip_line_eff f n (getch s).1
              (getch (getch s).2).2 (q + 1) hc2 (by split_ifs <;> omega)
            rw [e3]
            simp only
            have hr3 := clean_remaining f _ _ hc3
            obtain ⟨ch, s1, e, hd⟩ := ih s3 q3 (Or.inl hc3) (by omega)
            exact ⟨ch, s1, e, delivered_mono f i q3 ch s1 (by omega) hd⟩
          · rw [if_neg h2]
            by_cases h3 : (getch (getch s).2).1 = 42
            · rw [if_pos h3]
              obtain ⟨b2, _, _, hc2, hlt⟩ := just_read_byte f _ _ q hj2 (by rw [h3]; decide)
              obtain ⟨cl, s3, q3, e3, hc3, hq3, hcl⟩ := skip_block_eff f n 0
                (getch (getch s).2).2 (q + 1) hc2 (by omega)
              rw [e3]
              simp only
              cases cl with
              | false =>
                simp only [Bool.not_false, if_true]
                refine ⟨EOF, s3, rfl, Or.inl ⟨rfl, ?_⟩⟩
                rw [← hcl rfl]
                exact hc3
              | true =>
                simp only [Bool.not_true, Bool.false_eq_true, if_false]
                have hr3 := clean_remaining f _ _ hc3
                obtain ⟨ch, s1, e, hd⟩ := ih s3 q3 (Or.inl hc3) (by omega)
                exact ⟨ch, s1, e, delivered_mono f i q3 ch s1 (by omega) hd⟩
            · rw [if_neg h3]
              refine ⟨47, _, rfl, Or.inr ⟨i, q, b, le_refl i, hb, by rw [← hch, h47], by decide,
                hiq, ungetch_just_read f _ _ q hj2, hsl, fun h => absurd rfl h⟩⟩
        · rw [if_neg h47]
          exact ⟨_, _, rfl, Or.inr ⟨i, q, b, le_refl i, hb, hch, hsp', hiq, Or.inl hc1, hsl,
            fun _ => hc1⟩⟩
    · rw [hg]
      simp only [if_true]
      refine ⟨EOF, s, rfl, Or.inl ⟨rfl, ?_⟩⟩
      rw [← hi]
      exact hc

/-- The function `scan_identifier_or_keyword`, started in a clean state, returns
a token and leaves the state at an offset that is not smaller. -/
theorem scan_identifier_eff (f : List Byte) (first L C : Int) (s : Scanner) (k : Nat)
    (hc : Clean f s k) :
    ∃ t s2 j, scan_identifier_or_keyword first L C s = some (t, s2) ∧ Tracks f s2 j ∧ k ≤ j := by
  have hb := remaining_lt_budget s
  rw [clean_remaining f s k hc] at hb
  obtain ⟨ch, b1, s1, j, e, hj, hle⟩ := ident_loop_eff f (budget s) (append_char [] 256 first) s k
    hc hb
  simp only [scan_identifier_or_keyword, e, ungetch_guarded]
  exact ⟨_, _, j, rfl, ungetch_just_read f ch s1 j hj, hle⟩

/-- The two calls of `ungetch` of the malformed-exponent branch: `b` is the
exponent marker read at offset `k`, `c` the character just read at offset `q`
behind it, with no newline in between.  The state is left at offset `q`, or,
when `c` is the end marker, at the offset `k` of the marker. -/
theorem malformed_unget (f : List Byte) (k q : Nat) (b : Byte) (c : Int) (st : Scanner)
    (hread : JustRead f c st q) (hb : f[k]? = some b) (hn : ofByte b ≠ 10) (hkq : k < q)
    (hsl : spec_line f (k + 1) = spec_line f q) (hm : ofByte b = 101 ∨ ofByte b = 69)
    (hnear : q = k + 1 ∨
      (q = k + 2 ∧ ∃ sg, f[k + 1]? = some sg ∧ (ofByte sg = 43 ∨ ofByte sg = 45))) :
    ∃ j, Tracks f (if c ≠ EOF then ungetch c (ungetch (ofByte b) st)
      else ungetch (ofByte b) st) j ∧ k ≤ j := by
  have hsk := spec_line_succ f k b hb
  rw [if_neg hn] at hsk
  obtain ⟨g, l, col, hv, p⟩ := st
  rcases hread with ⟨b2, hb2, hc2, hcl⟩ | ⟨hE, hq, hcl⟩
  · have hcE : c ≠ EOF := by rw [hc2]; exact ofByte_ne_EOF b2
    obtain ⟨_, hq1, hin, hl⟩ := hcl
    simp only at hin hl
    have hs2 := spec_line_succ f q b2 hb2
    rw [if_pos hcE, ungetch_char _ _ _ _ _ _ hn (ofByte_ne_EOF b)]
    refine ⟨q, Or.inr ⟨q + 1, b2, by omega, hq1, hb2, ?_⟩, by omega⟩
    subst hc2
    by_cases h10 : ofByte b2 = 10
    · rw [h10, ungetch_newline]
      refine ⟨by simp, rfl, hin, ?_, rfl, Or.inl rfl⟩
      simp only [hl, hs2, if_pos h10]
      ring
    · rw [ungetch_char _ _ _ _ _ _ h10 hcE]
      refine ⟨by simp, rfl, hin, ?_, rfl, Or.inl rfl⟩
      simp only [hl, hs2, if_neg h10]
      ring
  · obtain ⟨_, hq1, hin, hl⟩ := hcl
    simp only at hin hl
    rw [if_neg (by simp [hE]), ungetch_char _ _ _ _ _ _ hn (ofByte_ne_EOF b)]
    have hnear2 : q = k + 1 ∨
        (q = k + 2 ∧ q = f.length ∧ (ofByte b = 101 ∨ ofByte b = 69) ∧
          ∃ sg, f[k + 1]? = some sg ∧ (ofByte sg = 43 ∨ ofByte sg = 45)) := by
      rcases hnear with h | ⟨h, hsg⟩
      · exact Or.inl h
      · exact Or.inr ⟨h, hq, hm, hsg⟩
    refine ⟨k, Or.inr ⟨q, b, hkq, hq1, hb, by simp, rfl, hin, ?_, hsl, hnear2⟩, le_refl k⟩
    simp only [hl, ← hsl, hsk]
    ring

/-- The end of the exponent branch of `scan_number`: `b` is the marker read at
offset `k`, `c` the character just read at offset `q` behind marker and sign.
Either the exponent is malformed and the characters are pushed back, or its
digits are read; a token is returned and the state is left at an offset not
before `k`. -/
theorem exponent_tail_eff (f : List Byte) (k q : Nat) (b : Byte) (c : Int) (st : Scanner)
    (B : List Int) (L C : Int)
    (hread : JustRead f c st q) (hb : f[k]? = some b) (hn : ofByte b ≠ 10) (hkq : k < q)
    (hsl : spec_line f (k + 1) = spec_line f q) (hm : ofByte b = 101 ∨ ofByte b = 69)
    (hnear : q = k + 1 ∨
      (q = k + 2 ∧ ∃ sg, f[k + 1]? = some sg ∧ (ofByte sg = 43 ∨ ofByte sg = 45))) :
    ∃ t s2 j,
      (if ¬ isdigit c = true then
          some (set_token T_NUMBER (some (if B.length ≠ 0 then B.dropLast else B)) L C,
            if c ≠ EOF then ungetch c (ungetch (ofByte b) st) else ungetch (ofByte b) st)
        else
          match digit_loop (budget st) (append_char B 256 c) st with
          | none => none
          | some (ch, buf, s3) =>
            some (set_token T_NUMBER (some buf) L C, if ch ≠ EOF then ungetch ch s3 else s3)) =
        some (t, s2) ∧
      Tracks f s2 j ∧ k ≤ j := by
  by_cases hd : isdigit c = true
  · rw [if_neg (by simpa using hd)]
    obtain ⟨b2, _, _, hc2, hlt⟩ := just_read_byte f c st q hread (isdigit_ne c hd).2.1
    have hbud := remaining_lt_budget st
    rw [clean_remaining f st _ hc2] at hbud
    obtain ⟨ch, b1, s3, j, e, hj, hle⟩ := digit_loop_eff f (budget st) (append_char B 256 c) st
      (q + 1) hc2 hbud
    rw [e]
    simp only [ungetch_guarded]
    exact ⟨_, _, j, rfl, ungetch_just_read f ch s3 j hj, by omega⟩
  · rw [if_pos hd]
    obtain ⟨j, h1, h2⟩ := malformed_unget f k q b c st hread hb hn hkq hsl hm hnear
    exact ⟨_, _, j, rfl, h1, h2⟩

/-- The end of `scan_number`, entered with the character just read at offset
`k`, returns a token and leaves the state at an offset not before `k`. -/
theorem scan_exponent_eff (f : List Byte) (ch : Int) (buf : List Int) (L C : Int) (s : Scanner)
    (k : Nat) (hj : JustRead f ch s k) :
    ∃ t s2 j, scan_exponent ch buf L C s = some (t, s2) ∧ Tracks f s2 j ∧ k ≤ j := by
  simp only [scan_exponent]
  by_cases hm : ch = 101 ∨ ch = 69
  · rw [if_pos hm]
    have hE : ch ≠ EOF := by rcases hm with h | h <;> rw [h] <;> decide
    obtain ⟨b, hb, hch, hc1, hlt⟩ := just_read_byte f _ _ k hj hE
    have hn : ofByte b ≠ 10 := by rw [← hch]; rcases hm with h | h <;> rw [h] <;> decide
    have hj1 := getch_clean f s (k + 1) hc1
    subst hch
    by_cases hsg : (getch s).1 = 43 ∨ (getch s).1 = 45
    · simp only [hsg, decide_True, if_true]
      have hE2 : (getch s).1 ≠ EOF := by rcases hsg with h | h <;> rw [h] <;> decide
      obtain ⟨b2, hb2, hch2, hc2, hlt2⟩ := just_read_byte f _ _ (k + 1) hj1 hE2
      have hn2 : ofByte b2 ≠ 10 := by rw [← hch2]; rcases hsg with h | h <;> rw [h] <;> decide
      have hs2 := spec_line_succ f (k + 1) b2 hb2
      rw [if_neg hn2] at hs2
      exact exponent_tail_eff f k (k + 1 + 1) b _ _ _ L C (getch_clean f _ _ hc2) hb hn
        (by omega) (by rw [hs2]; simp) hm
        (Or.inr ⟨rfl, b2, hb2, by rw [← hch2]; exact hsg⟩)
    · simp only [hsg, decide_False, Bool.false_eq_true, if_false]
      exact exponent_tail_eff f k (k + 1) b _ _ _ L C hj1 hb hn (by omega) rfl hm (Or.inl rfl)
  · rw [if_neg hm, ungetch_guarded]
    exact ⟨_, _, k, rfl, ungetch_just_read f ch s k hj, le_refl k⟩

/-- The function `scan_number`, started in a clean state, returns a token and
leaves the state at an offset that is not smaller. -/
theorem scan_number_eff (f : List Byte) (first L C : Int) (s : Scanner) (k : Nat)
    (hc : Clean f s k) :
    ∃ t s2 j, scan_number first L C s = some (t, s2) ∧ Tracks f s2 j ∧ k ≤ j := by
  have hbud := remaining_lt_budget s
  rw [clean_remaining f s k hc] at hbud
  obtain ⟨ch, b1, s1, j1, e1, hj1, hle1⟩ := digit_loop_eff f (budget s)
    (append_char [] 256 first) s k hc hbud
  simp only [scan_number, e1]
  by_cases h46 : ch = 46
  · rw [if_pos h46]
    obtain ⟨b, _, _, hc1, hlt⟩ := just_read_byte f ch s1 j1 hj1 (by rw [h46]; decide)
    have hj2 := getch_clean f s1 (j1 + 1) hc1
    by_cases hd : isdigit (getch s1).1 = true
    · rw [if_pos hd]
      obtain ⟨b2, _, _, hc2, hlt2⟩ := just_read_byte f _ _ (j1 + 1) hj2 (isdigit_ne _ hd).2.1
      have hbud2 := remaining_lt_budget (getch s1).2
      rw [clean_remaining f _ _ hc2] at hbud2
      obtain ⟨ch3, b3, s3, j3, e3, hj3, hle3⟩ := digit_loop_eff f (budget (getch s1).2)
        (append_char (append_char b1 256 ch) 256 (getch s1).1) (getch s1).2 (j1 + 1 + 1) hc2 hbud2
      rw [e3]
      simp only
      obtain ⟨t, s2, j, e, h1, h2⟩ := scan_exponent_eff f ch3 b3 L C s3 j3 hj3
      exact ⟨t, s2, j, e, h1, by omega⟩
    · rw [if_neg hd]
      obtain ⟨t, s2, j, e, h1, h2⟩ := scan_exponent_eff f (getch s1).1 (append_char b1 256 ch) L C
        (getch s1).2 (j1 + 1) hj2
      exact ⟨t, s2, j, e, h1, by omega⟩
  · rw [if_neg h46]
    obtain ⟨t, s2, j, e, h1, h2⟩ := scan_exponent_eff f ch b1 L C s1 j1 hj1
    exact ⟨t, s2, j, e, h1, by omega⟩

/-- The cases `=`, `!`, `<`, `>` of `next_token`, started in a clean state,
leave the state at an offset that is not smaller. -/
theorem scan_relop_eff (f : List Byte) (two one : TokenType) (x2 x1 : String) (L C : Int)
    (s : Scanner) (k : Nat) (hc : Clean f s k) :
    ∃ j, Tracks f (scan_relop two x2 one x1 L C s).2 j ∧ k ≤ j := by
  have hj := getch_clean f s k hc
  simp only [scan_relop]
  by_cases h : (getch s).1 = 61
  · rw [if_pos h]
    obtain ⟨b, _, _, hc1, _⟩ := just_read_byte f _ _ k hj (by rw [h]; decide)
    exact ⟨k + 1, Or.inl hc1, by omega⟩
  · rw [if_neg h]
    exact ⟨k, ungetch_just_read f _ _ k hj, le_refl k⟩

/-- How `next_token` goes on with a character other than the end marker that
`skip_ws_and_comments` has delivered: with `scan_identifier_or_keyword`, with
`scan_number`, with one of the four cases that look at the next character, or
with a token without reading further. -/
theorem next_token_dispatch (s s1 : Scanner) (ch : Int)
    (hskip : skip_ws_and_comments s = some (ch, s1)) (hE : ch ≠ EOF) :
    (ch ≠ 47 ∧ next_token s =
        scan_identifier_or_keyword ch s1.g_line (if s1.g_col > 0 then s1.g_col else 1) s1) ∨
    (ch ≠ 47 ∧ next_token s =
        scan_number ch s1.g_line (if s1.g_col > 0 then s1.g_col else 1) s1) ∨
    (ch ≠ 47 ∧ ∃ two x2 one x1, next_token s =
        some (scan_relop two x2 one x1 s1.g_line (if s1.g_col > 0 then s1.g_col else 1) s1)) ∨
    (∃ tok, next_token s = some (tok, s1)) := by
  simp only [next_token, hskip]
  rw [if_neg hE]
  generalize (if s1.g_col > 0 then s1.g_col else 1) = C
  by_cases c2 : isalpha ch = true ∨ ch = 95
  · rw [if_pos c2]
    refine Or.inl ⟨?_, rfl⟩
    intro h
    rw [h] at c2
    exact absurd c2 (by decide)
  rw [if_neg c2]
  by_cases c3 : isdigit ch = true
  · rw [if_pos c3]
    refine Or.inr (Or.inl ⟨?_, rfl⟩)
    intro h
    rw [h] at c3
    exact absurd c3 (by decide)
  rw [if_neg c3]
  by_cases c46 : ch = 46
  · rw [if_pos c46]
    exact Or.inr (Or.inr (Or.inr ⟨_, rfl⟩))
  rw [if_neg c46]
  by_cases c40 : ch = 40
  · rw [if_pos c40]
    exact Or.inr (Or.inr (Or.inr ⟨_, rfl⟩))
  rw [if_neg c40]
  by_cases c41 : ch = 41
  · rw [if_pos c41]
    exact Or.inr (Or.inr (Or.inr ⟨_, rfl⟩))
  rw [if_neg c41]
  by_cases c123 : ch = 123
  · rw [if_pos c123]
    exact Or.inr (Or.inr (Or.inr ⟨_, rfl⟩))
  rw [if_neg c123]
  by_cases c125 : ch = 125
  · rw [if_pos c125]
    exact Or.inr (Or.inr (Or.inr ⟨_, rfl⟩))
  rw [if_neg c125]
  by_cases c59 : ch = 59
  · rw [if_pos c59]
    exact Or.inr (Or.inr (Or.inr ⟨_, rfl⟩))
  rw [if_neg c59]
  by_cases c44 : ch = 44
  · rw [if_pos c44]
    exact Or.inr (Or.inr (Or.inr ⟨_, rfl⟩))
  rw [if_neg c44]
  by_cases c43 : ch = 43
  · rw [if_pos c43]
    exact Or.inr (Or.inr (Or.inr ⟨_, rfl⟩))
  rw [if_neg c43]
  by_cases c45 : ch = 45
  · rw [if_pos c45]
    exact Or.inr (Or.inr (Or.inr ⟨_, rfl⟩))
  rw [if_neg c45]
  by_cases c42 : ch = 42
  · rw [if_pos c42]
    exact Or.inr (Or.inr (Or.inr ⟨_, rfl⟩))
  rw [if_neg c42]
  by_cases c47 : ch = 47
  · rw [if_pos c47]
    exact Or.inr (Or.inr (Or.inr ⟨_, rfl⟩))
  rw [if_neg c47]
  by_cases c61 : ch = 61
  · rw [if_pos c61]
    exact Or.inr (Or.inr (Or.inl ⟨c47, _, _, _, _, rfl⟩))
  rw [if_neg c61]
  by_cases c33 : ch = 33
  · rw [if_pos c33]
    exact Or.inr (Or.inr (Or.inl ⟨c47, _, _, _, _, rfl⟩))
  rw [if_neg c33]
  by_cases c60 : ch = 60
  · rw [if_pos c60]
    exact Or.inr (Or.inr (Or.inl ⟨c47, _, _, _, _, rfl⟩))
  rw [if_neg c60]
  by_cases c62 : ch = 62
  · rw [if_pos c62]
    exact Or.inr (Or.inr (Or.inl ⟨c47, _, _, _, _, rfl⟩))
  rw [if_neg c62]
  exact Or.inr (Or.inr (Or.inr ⟨_, rfl⟩))

theorem tracks_le (f : List Byte) (s : Scanner) (i : Nat) (h : Tracks f s i) :
    i ≤ f.length ∧ s.g_line = spec_line f i := by
  rcases h with ⟨_, h1, _, h2⟩ | ⟨k, b, h1, h2, _, _, _, _, h3, _, _⟩
  · exact ⟨h1, h2⟩
  · exact ⟨by omega, h3⟩

/-- One call of `next_token` in a state at offset `i` of the file: a token is
returned and the state is left at an offset `i2` not before `i`.  Either the
token is the end-of-stream token, built from line and column of the state
left, which is clean at the end of the file; or it is another token, whose first
character is the byte at an offset `j` with `i ≤ j < i2`, and whose line is the
line of offset `j`. -/
theorem next_token_eff (f : List Byte) (s : Scanner) (i : Nat) (ht : Tracks f s i) :
    ∃ t s2 i2, next_token s = some (t, s2) ∧ Tracks f s2 i2 ∧ i ≤ i2 ∧
      ((t.type = T_EOF ∧ Clean f s2 f.length ∧ i2 = f.length ∧
          t = ⟨T_EOF, cstr "EOF", s2.g_line, s2.g_col⟩) ∨
       (t.type ≠ T_EOF ∧ ∃ ch s1 j b, skip_ws_and_comments s = some (ch, s1) ∧
          f[j]? = some b ∧ ch = ofByte b ∧ i ≤ j ∧ j < i2 ∧ t.line = spec_line f j)) := by
  obtain ⟨ch, s1, hskip, hdel⟩ := skip_loop_eff f (budget s) s i ht (remaining_lt_budget s)
  have hskip : skip_ws_and_comments s = some (ch, s1) := hskip
  rcases hdel with ⟨hE, hcl⟩ | ⟨j, q, b, hij, hb, hch, hsp, hjq, htr, hsl, hcl⟩
  · refine ⟨⟨T_EOF, cstr "EOF", s1.g_line, s1.g_col⟩, s1, f.length, ?_, Or.inl hcl,
      (tracks_le f s i ht).1, Or.inl ⟨rfl, hcl, rfl, rfl⟩⟩
    have e : (c_string (cstr "EOF")).take 255 = cstr "EOF" := by decide
    simp only [next_token, hskip, hE, if_true, set_token, e]
  · have hE : ch ≠ EOF := by rw [hch]; exact ofByte_ne_EOF b
    have hn : ofByte b ≠ 10 := by
      intro h
      rw [hch, h] at hsp
      exact absurd hsp (by decide)
    have hline : s1.g_line = spec_line f j := by
      have hs := spec_line_succ f j b hb
      rw [if_neg hn] at hs
      rw [(tracks_le f s1 q htr).2, ← hsl, hs]
      simp
    have finish : ∀ (t : Token) (s2 : Scanner) (j2 : Nat), next_token s = some (t, s2) →
        Tracks f s2 j2 → q ≤ j2 →
        ∃ t s2 i2, next_token s = some (t, s2) ∧ Tracks f s2 i2 ∧ i ≤ i2 ∧
          ((t.type = T_EOF ∧ Clean f s2 f.length ∧ i2 = f.length ∧
              t = ⟨T_EOF, cstr "EOF", s2.g_line, s2.g_col⟩) ∨
           (t.type ≠ T_EOF ∧ ∃ ch s1 j b, skip_ws_and_comments s = some (ch, s1) ∧
              f[j]? = some b ∧ ch = ofByte b ∧ i ≤ j ∧ j < i2 ∧ t.line = spec_line f j)) := by
      intro t s2 j2 e htr2 hle
      refine ⟨t, s2, j2, e, htr2, by omega, Or.inr ?_⟩
      obtain ⟨ch0, s0, hs0, hcase⟩ := next_token_cases s s2 t e
      rw [hskip] at hs0
      simp only [Option.some.injEq, Prod.mk.injEq] at hs0
      obtain ⟨rfl, rfl⟩ := hs0
      rcases hcase with ⟨h, _⟩ | ⟨_, hty, hl, _⟩
      · exact absurd h hE
      · exact ⟨hty, ch, s1, j, b, hskip, hb, hch, hij, by omega, by rw [hl, hline]⟩
    rcases next_token_dispatch s s1 ch hskip hE with ⟨h47, e⟩ | ⟨h47, e⟩ | ⟨h47, two, x2, one, x1, e⟩ |
      ⟨tok, e⟩
    · obtain ⟨t, s2, j2, e2, h1, h2⟩ := scan_identifier_eff f ch s1.g_line
        (if s1.g_col > 0 then s1.g_col else 1) s1 q (hcl h47)
      exact finish t s2 j2 (by rw [e, e2]) h1 h2
    · obtain ⟨t, s2, j2, e2, h1, h2⟩ := scan_number_eff f ch s1.g_line
        (if s1.g_col > 0 then s1.g_col else 1) s1 q (hcl h47)
      exact finish t s2 j2 (by rw [e, e2]) h1 h2
    · obtain ⟨j2, h1, h2⟩ := scan_relop_eff f two one x2 x1 s1.g_line
        (if s1.g_col > 0 then s1.g_col else 1) s1 q (hcl h47)
      exact finish _ _ j2 e h1 h2
    · exact finish tok s1 q e htr (le_refl q)

/-! ## Totality, end of stream, and lines -/

theorem clean_init (f : List Byte) : Clean f (scanner_init f) 0 := by
  refine ⟨rfl, Nat.zero_le _, by simp [scanner_init], ?_⟩
  simp [scanner_init, spec_line]

/-- Every state in which the driver calls `next_token` is at some offset of the
file. -/
theorem scanned_tracks (f : List Byte) (s : Scanner) (h : Scanned f s) : ∃ i, Tracks f s i := by
  induction h with
  | init => exact ⟨0, Or.inl (clean_init f)⟩
  | @next s s2 t _ e ih =>
    obtain ⟨i, ht⟩ := ih
    obtain ⟨t1, s3, i2, e1, ht2, _⟩ := next_token_eff f s i ht
    rw [e] at e1
    simp only [Option.some.injEq, Prod.mk.injEq] at e1
    rw [e1.2]
    exact ⟨i2, ht2⟩

/-- The loop of `main`, started at offset `i` with a budget above the number of
bytes from `i` on, returns the tokens up to the end-of-stream token; before it
come at most as many tokens as there are bytes from `i` on. -/
theorem scan_all_eff (f : List Byte) : ∀ (n : Nat) (s : Scanner) (i : Nat),
    Tracks f s i → f.length - i < n →
    ∃ init last, scan_all n s = some (init ++ [last]) ∧ init.length ≤ f.length - i ∧
      last.type = T_EOF ∧ ∀ t ∈ init, t.type ≠ T_EOF := by
  intro n
  induction n with
  | zero => intro s i _ h; omega
  | succ n ih =>
    intro s i ht hn
    obtain ⟨t, s2, i2, e, ht2, hle, hcase⟩ := next_token_eff f s i ht
    simp only [scan_all, e]
    rcases hcase with ⟨hty, _⟩ | ⟨hty, ch, s1, j, b, _, _, _, hij, hji, _⟩
    · rw [if_pos hty]
      exact ⟨[], t, rfl, Nat.zero_le _, hty, fun x hx => absurd hx (by simp)⟩
    · rw [if_neg hty]
      have hi2 := (tracks_le f s2 i2 ht2).1
      obtain ⟨init, last, e2, h1, h2, h3⟩ := ih s2 i2 ht2 (by omega)
      rw [e2]
      refine ⟨t :: init, last, rfl, by simp only [List.length_cons]; omega, h2, ?_⟩
      intro x hx
      simp only [List.mem_cons] at hx
      rcases hx with rfl | hx
      · exact hty
      · exact h3 x hx

/-- C16: for every file `f` of `n` bytes, of whatever values, every call of
`next_token` that the driver makes after `scanner_init` returns a token, and
the loop of the driver reaches the end-of-stream token after at most `n` other
tokens. -/
theorem scanner_total (f : List Byte) :
    (∀ s : Scanner, Scanned f s → ∃ t s2, next_token s = some (t, s2)) ∧
    ∃ init last, tokens f = some (init ++ [last]) ∧ init.length ≤ f.length ∧
      last.type = T_EOF ∧ ∀ t ∈ init, t.type ≠ T_EOF := by
  constructor
  · intro s hs
    obtain ⟨i, ht⟩ := scanned_tracks f s hs
    obtain ⟨t, s2, _, e, _⟩ := next_token_eff f s i ht
    exact ⟨t, s2, e⟩
  · obtain ⟨init, last, e, h1, h2, h3⟩ := scan_all_eff f (f.length + 1) (scanner_init f) 0
      (Or.inl (clean_init f)) (by omega)
    exact ⟨init, last, e, by omega, h2, h3⟩

/-- C16 on the file `1e+$`, with a malformed exponent and a character outside
the language: the first call returns a token, and all tokens are returned. -/
theorem scanner_total_witness :
    (∃ t s2, next_token (scanner_init (bytes "1e+$")) = some (t, s2)) ∧
    ∃ init last, tokens (bytes "1e+$") = some (init ++ [last]) ∧ init.length ≤ 4 ∧
      last.type = T_EOF ∧ ∀ t ∈ init, t.type ≠ T_EOF :=
  ⟨(scanner_total (bytes "1e+$")).1 _ Scanned.init, (scanner_total (bytes "1e+$")).2⟩

/-- C19: once a call of `next_token` made by the driver has returned the
end-of-stream token, the pushback slot is empty, and every later call of
`next_token` returns the end-of-stream token again, with the same line and
column, leaving the state as it is. -/
theorem eof_absorbing (f : List Byte) (s s2 : Scanner) (t : Token) (hs : Scanned f s)
    (h : next_token s = some (t, s2)) (hty : t.type = T_EOF) :
    s2.g_have_push = 0 ∧
    ∀ n : Nat, calls n s2 = some (⟨T_EOF, cstr "EOF", t.line, t.col⟩, s2) := by
  obtain ⟨i, ht⟩ := scanned_tracks f s hs
  obtain ⟨t1, s3, i2, e1, _, _, hcase⟩ := next_token_eff f s i ht
  rw [h] at e1
  simp only [Option.some.injEq, Prod.mk.injEq] at e1
  obtain ⟨rfl, rfl⟩ := e1
  rcases hcase with ⟨_, hcl, _, ht1⟩ | ⟨hne, _⟩
  · obtain ⟨h0, _, hin, _⟩ := hcl
    have hin : s2.g_in = [] := by rw [hin]; simp
    refine ⟨h0, ?_⟩
    have hnext := next_token_at_end s2 h0 hin
    have hl : t.line = s2.g_line ∧ t.col = s2.g_col := by rw [ht1]; exact ⟨rfl, rfl⟩
    rw [hl.1, hl.2]
    intro n
    induction n with
    | zero => exact hnext
    | succ n ih => simp only [calls, hnext]; exact ih
  · exact absurd hty hne

/-- C19 on the file `a`: after the identifier the end-of-stream token is
returned, and again by the third call after that. -/
theorem eof_absorbing_witness :
    calls 2 ⟨[], 1, 1, 0, 0⟩ = some (⟨T_EOF, cstr "EOF", 1, 1⟩, ⟨[], 1, 1, 0, 0⟩) :=
  (eof_absorbing (bytes "a") ⟨[], 1, 1, 0, 0⟩ ⟨[], 1, 1, 0, 0⟩ ⟨T_EOF, cstr "EOF", 1, 1⟩
    (Scanned.next (t := ⟨T_IDENTIFIER, cstr "a", 1, 1⟩) Scanned.init (by decide))
    (by decide) rfl).2 2


/-! ## The first character of a token -/

/-- Reading in a state whose pending characters start with the byte `b`: `b` is
returned, the pushback slot is empty, the rest is left unread, and the line
counter goes up by one exactly if `b` is a newline. -/
theorem getch_of_pending_line (s : Scanner) (b : Byte) (inp : List Byte)
    (h : pending s = (b :: inp).map ofByte) :
    ∃ c1 p1, getch s =
      (ofByte b, ⟨inp, s.g_line + (if ofByte b = 10 then 1 else 0), c1, 0, p1⟩) := by
  obtain ⟨g, l, c, hv, p⟩ := s
  by_cases h0 : hv = 0
  · subst h0
    have hg : g = b :: inp := map_ofByte_inj _ _ (by simpa [pending] using h)
    subst hg
    by_cases hb : ofByte b = 10
    · exact ⟨0, p, by rw [getch_newline _ _ _ _ _ hb, hb, if_pos rfl]⟩
    · exact ⟨c + 1, p, by rw [getch_cons _ _ _ _ _ hb, if_neg hb]; simp⟩
  · simp only [pending, ne_eq, h0, not_false_eq_true, if_true, List.singleton_append,
      List.map_cons, List.cons.injEq] at h
    obtain ⟨hp, hg⟩ := h
    have hg : g = inp := map_ofByte_inj _ _ hg
    subst hp hg
    by_cases hn : ofByte b = 10
    · refine ⟨0, 10, ?_⟩
      rw [hn, getch_push_newline _ _ _ _ h0, if_pos rfl]
    · refine ⟨c + 1, ofByte b, ?_⟩
      rw [getch_push _ _ _ _ _ h0 hn (ofByte_ne_EOF b), if_neg hn]
      simp

/-- The loop of a line comment reads through a text without newline and the
newline behind it; the line counter goes up by one. -/
theorem skip_line_newline (body : List Byte) : ∀ (n : Nat) (ch : Int) (rest : List Byte)
    (l c p : Int), ch ≠ 10 → ch ≠ EOF → (∀ b ∈ body, ofByte b ≠ 10) → body.length + 1 < n →
    ∃ x c1, skip_line n ch ⟨body ++ 10 :: rest, l, c, 0, p⟩ =
      some (x, ⟨rest, l + 1, c1, 0, p⟩) := by
  induction body with
  | nil =>
    intro n ch rest l c p h10 hE _ hn
    obtain ⟨m, rfl⟩ : ∃ m, n = m + 1 + 1 := ⟨n - 2, by simp at hn; omega⟩
    refine ⟨10, 0, ?_⟩
    have h : ofByte (10 : Byte) = 10 := by decide
    simp only [List.nil_append, skip_line, getch_newline _ _ _ _ _ h]
    simp [h10, hE]
  | cons b body ih =>
    intro n ch rest l c p h10 hE hbody hn
    obtain ⟨m, rfl⟩ : ∃ m, n = m + 1 := ⟨n - 1, by omega⟩
    have hb : ofByte b ≠ 10 := hbody b (by simp)
    simp only [List.length_cons] at hn
    obtain ⟨x, c1, e⟩ := ih m (ofByte b) rest l (c + 1) p hb (ofByte_ne_EOF b)
      (fun y hy => hbody y (by simp [hy])) (by omega)
    refine ⟨x, c1, ?_⟩
    simp only [List.cons_append, skip_line, getch_cons _ _ _ _ _ hb]
    rw [if_pos ⟨h10, hE⟩, e]

/-- Reading a byte with an empty pushback slot: the line counter goes up by one
exactly if the byte is a newline. -/
theorem getch_byte_line (b : Byte) (r : List Byte) (l c p : Int) :
    ∃ c1, getch ⟨b :: r, l, c, 0, p⟩ =
      (ofByte b, ⟨r, l + (if ofByte b = 10 then 1 else 0), c1, 0, p⟩) := by
  by_cases hb : ofByte b = 10
  · exact ⟨0, by rw [getch_newline _ _ _ _ _ hb, hb, if_pos rfl]⟩
  · exact ⟨c + 1, by rw [getch_cons _ _ _ _ _ hb, if_neg hb]; simp⟩

theorem filter_newline_cons (b : Byte) (r : List Byte) :
    (((b :: r).filter (fun x => ofByte x = 10)).length : Int) =
      (if ofByte b = 10 then 1 else 0) + ((r.filter (fun x => ofByte x = 10)).length : Int) := by
  by_cases hb : ofByte b = 10
  · simp [List.filter, hb]
    ring
  · simp [List.filter, hb]

/-- The loop of a block comment reads through a text and stops behind the first
`*/`; the line counter goes up by the number of newlines in the text. -/
theorem skip_block_line (body : List Byte) : ∀ (n : Nat) (prev : Int) (rest : List Byte)
    (l c p : Int), (prev = 42 → ∀ b ∈ body.head?, ofByte b ≠ 47) →
    has_close (body ++ [42]) = false → body.length + 2 ≤ n →
    ∃ c1, skip_block n prev ⟨body ++ 42 :: 47 :: rest, l, c, 0, p⟩ =
      some (true, ⟨rest, l + ((body.filter (fun x => ofByte x = 10)).length : Int), c1, 0, p⟩) := by
  induction body with
  | nil =>
    intro n prev rest l c p _ _ hn
    obtain ⟨m, rfl⟩ : ∃ m, n = m + 1 + 1 := ⟨n - 2, by simp at hn; omega⟩
    have h42 : ofByte (42 : Byte) = 42 := by decide
    have h47 : ofByte (47 : Byte) = 47 := by decide
    have h42n : ofByte (42 : Byte) ≠ 10 := by decide
    have h47n : ofByte (47 : Byte) ≠ 10 := by decide
    refine ⟨c + 1 + 1, ?_⟩
    simp only [List.nil_append, skip_block, getch_cons _ _ _ _ _ h42n,
      getch_cons _ _ _ _ _ h47n, h42, h47]
    simp [EOF]
  | cons b body ih =>
    intro n prev rest l c p hprev hclose hn
    obtain ⟨m, rfl⟩ : ∃ m, n = m + 1 := ⟨n - 1, by simp at hn; omega⟩
    simp only [List.length_cons] at hn
    obtain ⟨c0, e0⟩ := getch_byte_line b (body ++ 42 :: 47 :: rest) l c p
    have hnc : ¬ (prev = 42 ∧ ofByte b = 47) := fun h => hprev h.1 b (by simp) h.2
    have hc2 : (ofByte b = 42 → ∀ x ∈ body.head?, ofByte x ≠ 47) ∧
        has_close (body ++ [42]) = false := by
      cases body with
      | nil => simp [has_close]
      | cons x body =>
        simp only [List.cons_append, has_close, Bool.or_eq_false_iff, Bool.and_eq_false_iff,
          decide_eq_false_iff_not] at hclose
        refine ⟨?_, by simpa using hclose.2⟩
        intro hb y hy
        simp only [List.head?_cons, Option.mem_def, Option.some.injEq] at hy
        subst hy
        rcases hclose.1 with h | h
        · exact absurd hb h
        · exact h
    obtain ⟨c1, e⟩ := ih m (ofByte b) rest (l + (if ofByte b = 10 then 1 else 0)) c0 p
      hc2.1 hc2.2 (by omega)
    refine ⟨c1, ?_⟩
    simp only [List.cons_append, skip_block, e0]
    rw [if_pos (ofByte_ne_EOF b), if_neg hnc, e, filter_newline_cons]
    simp only [Option.some.injEq, Prod.mk.injEq, true_and, Scanner.mk.injEq, and_true]
    ring

/-- A text has no newline, or it is a text without newline, a newline, and a
rest. -/
theorem split_at_newline (r : List Byte) :
    (∀ b ∈ r, ofByte b ≠ 10) ∨
    ∃ body rest, r = body ++ 10 :: rest ∧ ∀ b ∈ body, ofByte b ≠ 10 := by
  induction r with
  | nil => exact Or.inl (fun b hb => absurd hb (by simp))
  | cons a r ih =>
    by_cases ha : ofByte a = 10
    · have : a = 10 := ofByte_inj a 10 (by rw [ha]; decide)
      subst this
      exact Or.inr ⟨[], r, rfl, fun b hb => absurd hb (by simp)⟩
    · rcases ih with h | ⟨body, rest, h1, h2⟩
      · left
        intro b hb
        rcases List.mem_cons.1 hb with rfl | hb
        · exact ha
        · exact h b hb
      · right
        refine ⟨a :: body, rest, by rw [h1]; rfl, ?_⟩
        intro b hb
        rcases List.mem_cons.1 hb with rfl | hb
        · exact ha
        · exact h2 b hb

/-- A text has no `*/`, or it is a text, the first `*/`, and a rest. -/
theorem split_at_close : ∀ (r : List Byte),
    has_close r = false ∨
    ∃ body rest, r = body ++ 42 :: 47 :: rest ∧ has_close (body ++ [42]) = false
  | [] => Or.inl rfl
  | [_] => Or.inl rfl
  | a :: b :: t => by
    by_cases hab : ofByte a = 42 ∧ ofByte b = 47
    · have ha : a = 42 := ofByte_inj a 42 (by rw [hab.1]; decide)
      have hb : b = 47 := ofByte_inj b 47 (by rw [hab.2]; decide)
      subst ha hb
      exact Or.inr ⟨[], t, rfl, rfl⟩
    · have hab2 : (decide (ofByte a = 42) && decide (ofByte b = 47)) = false := by
        simpa using hab
      rcases split_at_close (b :: t) with h | ⟨body, rest, h1, h2⟩
      · left
        simp only [has_close, hab2, h, Bool.or_self]
      · right
        refine ⟨a :: body, rest, by rw [h1]; rfl, ?_⟩
        cases body with
        | nil =>
          simp only [List.nil_append, List.cons.injEq] at h1
          simp only [List.cons_append, List.nil_append, has_close, Bool.or_false,
            Bool.and_eq_false_iff, decide_eq_false_iff_not]
          right
          decide
        | cons x body =>
          simp only [List.cons_append, List.cons.injEq] at h1
          obtain ⟨rfl, _⟩ := h1
          simp only [List.cons_append] at h2
          show (decide (ofByte a = 42) && decide (ofByte b = 47) ||
            has_close (b :: (body ++ [42]))) = false
          rw [hab2, h2]
          rfl


theorem filter_newline_append (a b : List Byte) :
    (((a ++ b).filter (fun x => ofByte x = 10)).length : Int) =
      ((a.filter (fun x => ofByte x = 10)).length : Int) +
        ((b.filter (fun x => ofByte x = 10)).length : Int) := by
  simp [List.filter_append]

theorem filter_newline_none (a : List Byte) (h : ∀ b ∈ a, ofByte b ≠ 10) :
    ((a.filter (fun x => ofByte x = 10)).length : Int) = 0 := by
  have hf : a.filter (fun x => ofByte x = 10) = [] := by
    rw [List.filter_eq_nil_iff]
    intro x hx
    simpa using h x hx
  rw [hf]
  rfl

/-- The loop of `skip_ws_and_comments`, started with the bytes `inp` pending
and a budget above their number, returns.  It delivers the end marker; or `inp`
is a text `pre` of whitespace and complete comments, a byte `b` that is no
whitespace and does not start a comment, and a rest: then `b` is delivered, the
rest is left pending, and the line counter has gone up by the number of
newlines in `pre`. -/
theorem skip_loop_shape : ∀ (n : Nat) (inp : List Byte) (s : Scanner),
    pending s = inp.map ofByte → inp.length < n →
    ∃ ch s1, skip_loop n s = some (ch, s1) ∧
      (ch = EOF ∨
       ∃ pre b rest, inp = pre ++ b :: rest ∧ Skipped pre ∧ ch = ofByte b ∧
         isspace (ofByte b) = false ∧
         (ofByte b = 47 → ∀ x ∈ rest.head?, ofByte x ≠ 47 ∧ ofByte x ≠ 42) ∧
         pending s1 = rest.map ofByte ∧
         s1.g_line = s.g_line + ((pre.filter (fun x => ofByte x = 10)).length : Int)) := by
  have h47 : ofByte (47 : Byte) = 47 := by decide
  have h47n : ofByte (47 : Byte) ≠ 10 := by decide
  have h42 : ofByte (42 : Byte) = 42 := by decide
  have h42n : ofByte (42 : Byte) ≠ 10 := by decide
  intro n
  induction n with
  | zero => intro inp s _ h; omega
  | succ n ih =>
    intro inp s hs hn
    cases inp with
    | nil =>
      obtain ⟨e, _, _⟩ := getch_of_pending_nil s (by simpa using hs)
      exact ⟨EOF, s, by simp [skip_loop, e], Or.inl rfl⟩
    | cons b r =>
      simp only [List.length_cons] at hn
      obtain ⟨c0, p0, e0⟩ := getch_of_pending_line s b r hs
      by_cases hsp : isspace (ofByte b) = true
      · obtain ⟨ch, s1, e1, hcase⟩ := ih r ⟨r, s.g_line + (if ofByte b = 10 then 1 else 0), c0, 0, p0⟩
          (pending_no_push _ rfl) (by omega)
        refine ⟨ch, s1, ?_, ?_⟩
        · simp only [skip_loop, e0]
          rw [if_neg (ofByte_ne_EOF b), if_pos hsp, e1]
        · rcases hcase with h | ⟨pre, b1, rest, h1, h2, h3, h4, h5, h6, h7⟩
          · exact Or.inl h
          · refine Or.inr ⟨b :: pre, b1, rest, by rw [h1]; rfl, Skipped.space b pre hsp h2, h3, h4,
              h5, h6, ?_⟩
            rw [h7, filter_newline_cons]
            simp only
            ring
      · have hsp2 : isspace (ofByte b) = false := by simpa using hsp
        have hb10 : ofByte b ≠ 10 := by
          intro h
          rw [h] at hsp
          exact hsp (by decide)
        rw [if_neg hb10, add_zero] at e0
        by_cases hb : ofByte b = 47
        · have hbb : b = 47 := ofByte_inj b 47 (by rw [hb]; decide)
          subst hbb
          cases r with
          | nil =>
            refine ⟨47, ⟨[], s.g_line, c0, 0, p0⟩, ?_, Or.inr ⟨[], 47, [], rfl, Skipped.nil, rfl,
              hsp2, fun _ x hx => absurd hx (by simp), by simp [pending], by simp⟩⟩
            simp only [skip_loop, e0, getch_nil, h47, ungetch_EOF]
            simp [isspace, EOF]
          | cons y r =>
            simp only [List.length_cons] at hn
            obtain ⟨c1, e1⟩ := getch_byte_line y r s.g_line c0 p0
            by_cases hy47 : ofByte y = 47
            · have hyy : y = 47 := ofByte_inj y 47 (by rw [hy47]; decide)
              subst hyy
              rw [if_neg h47n, add_zero] at e1
              rcases split_at_newline r with hr | ⟨body, rest, hr, hbody⟩
              · obtain ⟨x, l1, c2, e2⟩ := skip_line_run r n 47 [] s.g_line c1 p0
                  (by decide) (by decide) hr (Or.inl rfl) (by omega)
                obtain ⟨m, rfl⟩ : ∃ m, n = m + 1 := ⟨n - 1, by omega⟩
                rw [List.append_nil] at e2
                have e3 : skip_loop (m + 1) ⟨[], l1, c2, 0, p0⟩ =
                    some (EOF, ⟨[], l1, c2, 0, p0⟩) := by
                  simp [skip_loop, getch_nil]
                refine ⟨EOF, ⟨[], l1, c2, 0, p0⟩, ?_, Or.inl rfl⟩
                rw [skip_loop]
                simp only [e0, e1, h47, e2, List.tail_nil, e3]
                simp [isspace, EOF]
              · subst hr
                obtain ⟨x, c2, e2⟩ := skip_line_newline body n 47 rest s.g_line c1 p0
                  (by decide) (by decide) hbody
                  (by simp only [List.length_append, List.length_cons] at hn; omega)
                obtain ⟨ch, s1, e3, hcase⟩ := ih rest ⟨rest, s.g_line + 1, c2, 0, p0⟩
                  (pending_no_push _ rfl)
                  (by simp only [List.length_append, List.length_cons] at hn; omega)
                refine ⟨ch, s1, ?_, ?_⟩
                · rw [skip_loop]
                  simp only [e0, e1, h47, e2, e3]
                  simp [isspace, EOF]
                · rcases hcase with h | ⟨pre, b1, rest1, h1, h2, h3, h4, h5, h6, h7⟩
                  · exact Or.inl h
                  · refine Or.inr ⟨47 :: 47 :: body ++ 10 :: pre, b1, rest1, ?_,
                      Skipped.line body pre hbody h2, h3, h4, h5, h6, ?_⟩
                    · rw [h1]; simp
                    · have h10 : ofByte (10 : Byte) = 10 := by decide
                      rw [h7, filter_newline_append, filter_newline_cons, filter_newline_cons,
                        filter_newline_cons, filter_newline_none body hbody, if_neg h47n,
                        if_pos h10]
                      dsimp only
                      ring
            · by_cases hy42 : ofByte y = 42
              · have hyy : y = 42 := ofByte_inj y 42 (by rw [hy42]; decide)
                subst hyy
                rw [if_neg h42n, add_zero] at e1
                rcases split_at_close r with hr | ⟨body, rest, hr, hbody⟩
                · obtain ⟨l1, c2, e2⟩ := skip_block_open r n 0 s.g_line c1 p0
                    (fun h => absurd h (by decide)) hr (by omega)
                  refine ⟨EOF, ⟨[], l1, c2, 0, p0⟩, ?_, Or.inl rfl⟩
                  rw [skip_loop]
                  simp only [e0, e1, h47, h42, e2]
                  simp [isspace, EOF]
                · subst hr
                  obtain ⟨c2, e2⟩ := skip_block_line body n 0 rest s.g_line c1 p0
                    (fun h => absurd h (by decide)) hbody
                    (by simp only [List.length_append, List.length_cons] at hn; omega)
                  obtain ⟨ch, s1, e3, hcase⟩ := ih rest
                    ⟨rest, s.g_line + ((body.filter (fun x => ofByte x = 10)).length : Int), c2, 0, p0⟩
                    (pending_no_push _ rfl)
                    (by simp only [List.length_append, List.length_cons] at hn; omega)
                  refine ⟨ch, s1, ?_, ?_⟩
                  · rw [skip_loop]
                    simp only [e0, e1, h47, h42, e2, e3]
                    simp [isspace, EOF]
                  · rcases hcase with h | ⟨pre, b1, rest1, h1, h2, h3, h4, h5, h6, h7⟩
                    · exact Or.inl h
                    · refine Or.inr ⟨47 :: 42 :: body ++ 42 :: 47 :: pre, b1, rest1, ?_,
                        Skipped.block body pre hbody h2, h3, h4, h5, h6, ?_⟩
                      · rw [h1]; simp
                      · rw [h7, filter_newline_append, filter_newline_cons, filter_newline_cons,
                          filter_newline_cons, filter_newline_cons, if_neg h47n, if_neg h42n]
                        dsimp only
                        ring
              · refine ⟨47, ungetch (ofByte y) ⟨r, s.g_line + (if ofByte y = 10 then 1 else 0),
                    c1, 0, p0⟩, ?_, Or.inr ⟨[], 47, y :: r, rfl, Skipped.nil, rfl, hsp2, ?_, ?_, ?_⟩⟩
                · rw [skip_loop]
                  simp only [e0, e1, h47]
                  simp [isspace, EOF, hy47, hy42]
                · intro _ x hx
                  simp only [List.head?_cons, Option.mem_def, Option.some.injEq] at hx
                  subst hx
                  exact ⟨hy47, hy42⟩
                · by_cases hy10 : ofByte y = 10
                  · rw [hy10, ungetch_newline]
                    simp [pending, hy10]
                  · rw [ungetch_char _ _ _ _ _ _ hy10 (ofByte_ne_EOF y)]
                    simp [pending]
                · by_cases hy10 : ofByte y = 10
                  · rw [hy10, ungetch_newline]
                    simp
                  · rw [ungetch_char _ _ _ _ _ _ hy10 (ofByte_ne_EOF y), if_neg hy10]
                    simp
        · refine ⟨ofByte b, ⟨r, s.g_line, c0, 0, p0⟩, ?_, Or.inr ⟨[], b, r, rfl, Skipped.nil, rfl,
            hsp2, fun h => absurd h hb, pending_no_push _ rfl, by simp⟩⟩
          simp only [skip_loop, e0]
          rw [if_neg (ofByte_ne_EOF b), hsp2, if_neg hb]
          simp


/-- A state that the invariant puts at offset `i` is at offset `i` in terms of
what is pending. -/
theorem tracks_at_offset (f : List Byte) (s : Scanner) (i : Nat) (h : Tracks f s i) :
    AtOffset f s i := by
  rcases h with ⟨h0, hk, hin, _⟩ | ⟨k, b, hik, hk, hb, hp, hpc, hin, _, _, hnear⟩
  · exact Or.inl ⟨hk, by rw [pending_no_push s h0, hin]⟩
  · have hpend : pending s = ofByte b :: (f.drop k).map ofByte := by
      simp [pending, hp, hpc, hin]
    obtain ⟨hlt, hd⟩ := drop_of_get f i b hb
    rcases hnear with rfl | ⟨rfl, hlen, hm, sg, hsg, hsign⟩
    · exact Or.inl ⟨by omega, by rw [hpend, hd]; rfl⟩
    · obtain ⟨_, hd2⟩ := drop_of_get f (i + 1) sg hsg
      have hd3 : f.drop (i + 1 + 1) = [] := by
        rw [List.drop_eq_nil_iff]
        omega
      rw [hd3] at hd2
      have hd4 : f.drop (i + 2) = [] := hd3
      refine Or.inr ⟨b, sg, by rw [hd, hd2], hm, hsign, ?_⟩
      rw [hpend, hd4]
      rfl

/-- A state is at one offset only. -/
theorem at_offset_unique (f : List Byte) (s : Scanner) (i j : Nat) (hi : AtOffset f s i)
    (hj : AtOffset f s j) : i = j := by
  have key : ∀ a b : Nat, (a ≤ f.length ∧ pending s = (f.drop a).map ofByte) →
      (∃ m sg, f.drop b = [m, sg] ∧ (ofByte m = 101 ∨ ofByte m = 69) ∧
        (ofByte sg = 43 ∨ ofByte sg = 45) ∧ pending s = [ofByte m]) → False := by
    intro a b ⟨ha, hpa⟩ ⟨m, sg, hd, hm, hsign, hpb⟩
    have hlb := congrArg List.length hd
    simp only [List.length_drop, List.length_cons, List.length_nil] at hlb
    rw [hpa] at hpb
    have hla := congrArg List.length hpb
    simp only [List.length_map, List.length_drop, List.length_cons, List.length_nil] at hla
    have hab : a = b + 1 := by omega
    subst hab
    have hd2 : f.drop (b + 1) = [sg] := by
      have := congrArg (List.drop 1) hd
      simpa [List.drop_drop, Nat.add_comm] using this
    rw [hd2] at hpb
    simp only [List.map_cons, List.map_nil, List.cons.injEq, and_true] at hpb
    rcases hm with h | h <;> rcases hsign with h2 | h2 <;> omega
  rcases hi with ⟨hi1, hi2⟩ | hi
  · rcases hj with ⟨hj1, hj2⟩ | hj
    · rw [hi2] at hj2
      have := congrArg List.length hj2
      simp only [List.length_map, List.length_drop] at this
      omega
    · exact absurd (key i j ⟨hi1, hi2⟩ hj) id
  · rcases hj with hj | hj
    · exact absurd (key j i hj hi) id
    · obtain ⟨m, sg, hd, _⟩ := hi
      obtain ⟨m2, sg2, hd2, _⟩ := hj
      have h1 := congrArg List.length hd
      have h2 := congrArg List.length hd2
      simp only [List.length_drop, List.length_cons, List.length_nil] at h1 h2
      omega

/-- The loop of `skip_ws_and_comments` in a state in which a byte that starts
a token is pending first: the byte is delivered and what is behind it is left
pending. -/
theorem skip_loop_first (s : Scanner) (b : Byte) (rest : List Byte) (n : Nat)
    (hs : pending s = (b :: rest).map ofByte) (hb : TokenStart b rest) (hn : 0 < n) :
    ∃ s1, skip_loop n s = some (ofByte b, s1) ∧ pending s1 = rest.map ofByte := by
  obtain ⟨m, rfl⟩ : ∃ m, n = m + 1 := ⟨n - 1, by omega⟩
  obtain ⟨hsp, hslash⟩ := hb
  obtain ⟨l0, c0, p0, e0⟩ := getch_of_pending s b rest hs
  by_cases h47 : ofByte b = 47
  · cases rest with
    | nil =>
      refine ⟨⟨[], l0, c0, 0, p0⟩, ?_, by simp [pending]⟩
      simp only [skip_loop, e0, getch_nil, ungetch_EOF]
      rw [if_neg (ofByte_ne_EOF b), hsp, h47]
      simp [EOF]
    | cons y r =>
      obtain ⟨hy47, hy42⟩ := hslash h47 y (by simp)
      obtain ⟨l1, c1, e1⟩ := getch_byte y r l0 c0 p0
      refine ⟨ungetch (ofByte y) ⟨r, l1, c1, 0, p0⟩, ?_, ?_⟩
      · simp only [skip_loop, e0, e1]
        rw [if_neg (ofByte_ne_EOF b), hsp, h47]
        simp [hy47, hy42]
      · by_cases hy10 : ofByte y = 10
        · rw [hy10, ungetch_newline]
          simp [pending, hy10]
        · rw [ungetch_char _ _ _ _ _ _ hy10 (ofByte_ne_EOF y)]
          simp [pending]
  · refine ⟨⟨rest, l0, c0, 0, p0⟩, ?_, pending_no_push _ rfl⟩
    simp only [skip_loop, e0]
    rw [if_neg (ofByte_ne_EOF b), hsp, if_neg h47]
    simp

/-- When the pending characters are whitespace and complete comments, a byte
that starts a token, and a rest, `skip_ws_and_comments` delivers that byte and
leaves the rest pending. -/
theorem skip_to_token_start (s : Scanner) (pre : List Byte) (b : Byte) (rest : List Byte)
    (hs : pending s = (pre ++ b :: rest).map ofByte) (hpre : Skipped pre)
    (hb : TokenStart b rest) :
    ∃ s1, skip_ws_and_comments s = some (ofByte b, s1) ∧ pending s1 = rest.map ofByte := by
  have hlen : (pre ++ b :: rest).length < budget s := by
    have := pending_length_lt_budget s
    rw [hs, List.length_map] at this
    exact this
  obtain ⟨m, s0, h1, h2, h3⟩ := skip_loop_skipped pre hpre (budget s) (b :: rest) s hs hlen
  obtain ⟨s1, e1, e2⟩ := skip_loop_first s0 b rest m h2 hb (by omega)
  exact ⟨s1, by unfold skip_ws_and_comments; rw [h3, e1], e2⟩

/-- The pending characters are whitespace and complete comments followed by a
byte that starts a token in one way only. -/
theorem token_start_unique (s : Scanner) (pre pre2 : List Byte) (b b2 : Byte)
    (rest rest2 : List Byte)
    (hs : pending s = (pre ++ b :: rest).map ofByte) (hpre : Skipped pre)
    (hb : TokenStart b rest)
    (hs2 : pending s = (pre2 ++ b2 :: rest2).map ofByte) (hpre2 : Skipped pre2)
    (hb2 : TokenStart b2 rest2) : pre = pre2 ∧ b = b2 ∧ rest = rest2 := by
  obtain ⟨s1, e1, p1⟩ := skip_to_token_start s pre b rest hs hpre hb
  obtain ⟨s3, e3, p3⟩ := skip_to_token_start s pre2 b2 rest2 hs2 hpre2 hb2
  rw [e1] at e3
  simp only [Option.some.injEq, Prod.mk.injEq] at e3
  obtain ⟨hbb, rfl⟩ := e3
  have hbb : b = b2 := ofByte_inj b b2 hbb
  have hrr : rest = rest2 := map_ofByte_inj _ _ (by rw [← p1, ← p3])
  subst hbb hrr
  rw [hs] at hs2
  have := map_ofByte_inj _ _ hs2
  exact ⟨List.append_cancel_right this, rfl, rfl⟩


/-! ## The line counter during a call -/

theorem getch_line (s : Scanner) :
    (getch s).2.g_line = s.g_line + (if (getch s).1 = 10 then 1 else 0) := by
  unfold getch
  by_cases h : s.g_have_push = 0 <;> simp only [h] <;> split_ifs <;> simp_all

theorem ungetch_line (ch : Int) (s : Scanner) :
    (ungetch ch s).g_line = s.g_line - (if ch = 10 then 1 else 0) := by
  unfold ungetch
  by_cases hE : ch = EOF
  · subst hE
    simp [EOF]
  · by_cases h10 : ch = 10
    · subst h10
      rw [if_neg hE]
      simp
    · simp only [hE, h10, if_false]
      split_ifs <;> simp

/-- After a call of `getch` in a state in order, state and log are in order,
and a newline read has taken the line counter to 2 at least. -/
theorem getch_logged_ok (s : Logged) (h : LogOk s) :
    ReadOk (getch_logged s).1 (getch_logged s).2 := by
  obtain ⟨h1, h2⟩ := h
  have hl := getch_line s.st
  have hge : 1 ≤ (getch s.st).2.g_line := by
    rw [hl]
    split_ifs <;> omega
  refine ⟨⟨hge, ?_⟩, ?_⟩
  · intro l hl2
    rcases List.mem_cons.1 hl2 with rfl | hl2
    · exact hge
    · exact h2 l hl2
  · intro h10
    show 2 ≤ (getch s.st).2.g_line
    have h10 : (getch s.st).1 = 10 := h10
    rw [hl, if_pos h10]
    omega

/-- Pushing back the character just read leaves state and log in order. -/
theorem ungetch_logged_ok (ch : Int) (s : Logged) (h : ReadOk ch s) :
    LogOk (ungetch_logged ch s) := by
  obtain ⟨⟨h1, h2⟩, h3⟩ := h
  have hl := ungetch_line ch s.st
  have hge : 1 ≤ (ungetch ch s.st).g_line := by
    rw [hl]
    by_cases h10 : ch = 10
    · rw [if_pos h10]
      have := h3 h10
      omega
    · rw [if_neg h10]
      omega
  refine ⟨hge, ?_⟩
  intro l hl2
  rcases List.mem_cons.1 hl2 with rfl | hl2
  · exact hge
  · exact h2 l hl2

/-- Pushing back a character other than a newline does not change the line
counter. -/
theorem ungetch_logged_keep (m ch : Int) (s : Logged) (h : ReadOk ch s) (hm : m ≠ 10) :
    ReadOk ch (ungetch_logged m s) := by
  obtain ⟨⟨h1, h2⟩, h3⟩ := h
  have hl : (ungetch m s.st).g_line = s.st.g_line := by
    rw [ungetch_line, if_neg hm]
    omega
  refine ⟨⟨by show 1 ≤ (ungetch m s.st).g_line; rw [hl]; exact h1, ?_⟩, ?_⟩
  · intro l hl2
    rcases List.mem_cons.1 hl2 with rfl | hl2
    · rw [hl]; exact h1
    · exact h2 l hl2
  · intro h10
    show 2 ≤ (ungetch m s.st).g_line
    rw [hl]
    exact h3 h10

theorem ungetch_logged_guarded_ok (ch : Int) (s : Logged) (h : ReadOk ch s) :
    LogOk (if ch ≠ EOF then ungetch_logged ch s else s) := by
  split_ifs
  · exact ungetch_logged_ok ch s h
  · exact h.1

theorem skip_line_logged_ok : ∀ (n : Nat) (ch : Int) (s : Logged) (x : Int) (s1 : Logged),
    skip_line_logged n ch s = some (x, s1) → LogOk s → LogOk s1 := by
  intro n
  induction n with
  | zero => intro ch s x s1 h; simp [skip_line_logged] at h
  | succ n ih =>
    intro ch s x s1 h hs
    simp only [skip_line_logged] at h
    split_ifs at h
    · exact ih _ _ _ _ h (getch_logged_ok s hs).1
    · simp only [Option.some.injEq, Prod.mk.injEq] at h
      rw [← h.2]
      exact hs

theorem skip_block_logged_ok : ∀ (n : Nat) (prev : Int) (s : Logged) (x : Bool) (s1 : Logged),
    skip_block_logged n prev s = some (x, s1) → LogOk s → LogOk s1 := by
  intro n
  induction n with
  | zero => intro prev s x s1 h; simp [skip_block_logged] at h
  | succ n ih =>
    intro prev s x s1 h hs
    simp only [skip_block_logged] at h
    have hg := (getch_logged_ok s hs).1
    split_ifs at h
    · simp only [Option.some.injEq, Prod.mk.injEq] at h
      rw [← h.2]
      exact hg
    · exact ih _ _ _ _ h hg
    · simp only [Option.some.injEq, Prod.mk.injEq] at h
      rw [← h.2]
      exact hg

theorem skip_loop_logged_ok : ∀ (n : Nat) (s : Logged) (ch : Int) (s1 : Logged),
    skip_loop_logged n s = some (ch, s1) → LogOk s → LogOk s1 := by
  intro n
  induction n with
  | zero => intro s ch s1 h; simp [skip_loop_logged] at h
  | succ n ih =>
    intro s ch s1 h hs
    simp only [skip_loop_logged] at h
    have hg := (getch_logged_ok s hs).1
    have hg2 := getch_logged_ok _ hg
    by_cases c1 : (getch_logged s).1 = EOF
    · rw [if_pos c1] at h
      simp only [Option.some.injEq, Prod.mk.injEq] at h
      rw [← h.2]
      exact hg
    rw [if_neg c1] at h
    by_cases c2 : isspace (getch_logged s).1 = true
    · rw [if_pos c2] at h
      exact ih _ _ _ h hg
    rw [if_neg c2] at h
    by_cases c3 : (getch_logged s).1 = 47
    · rw [if_pos c3] at h
      by_cases c4 : (getch_logged (getch_logged s).2).1 = 47
      · rw [if_pos c4] at h
        cases e : skip_line_logged n (getch_logged s).1 (getch_logged (getch_logged s).2).2 with
        | none => rw [e] at h; simp at h
        | some r =>
          obtain ⟨x, s3⟩ := r
          rw [e] at h
          exact ih _ _ _ h (skip_line_logged_ok _ _ _ _ _ e hg2.1)
      rw [if_neg c4] at h
      by_cases c5 : (getch_logged (getch_logged s).2).1 = 42
      · rw [if_pos c5] at h
        cases e : skip_block_logged n 0 (getch_logged (getch_logged s).2).2 with
        | none => rw [e] at h; simp at h
        | some r =>
          obtain ⟨x, s3⟩ := r
          rw [e] at h
          have h3 := skip_block_logged_ok _ _ _ _ _ e hg2.1
          cases x with
          | false =>
            simp only [Bool.not_false, if_true, Option.some.injEq, Prod.mk.injEq] at h
            rw [← h.2]
            exact h3
          | true =>
            simp only [Bool.not_true, Bool.false_eq_true, if_false] at h
            exact ih _ _ _ h h3
      rw [if_neg c5] at h
      simp only [Option.some.injEq, Prod.mk.injEq] at h
      rw [← h.2]
      exact ungetch_logged_ok _ _ hg2
    rw [if_neg c3] at h
    simp only [Option.some.injEq, Prod.mk.injEq] at h
    rw [← h.2]
    exact hg

theorem ident_loop_logged_ok : ∀ (n : Nat) (buf : List Int) (s : Logged) (ch : Int)
    (b : List Int) (s1 : Logged),
    ident_loop_logged n buf s = some (ch, b, s1) → LogOk s → ReadOk ch s1 := by
  intro n
  induction n with
  | zero => intro buf s ch b s1 h; simp [ident_loop_logged] at h
  | succ n ih =>
    intro buf s ch b s1 h hs
    simp only [ident_loop_logged] at h
    have hg := getch_logged_ok s hs
    split_ifs at h
    · exact ih _ _ _ _ _ h hg.1
    · simp only [Option.some.injEq, Prod.mk.injEq] at h
      rw [← h.1, ← h.2.2]
      exact hg

theorem digit_loop_logged_ok : ∀ (n : Nat) (buf : List Int) (s : Logged) (ch : Int)
    (b : List Int) (s1 : Logged),
    digit_loop_logged n buf s = some (ch, b, s1) → LogOk s → ReadOk ch s1 := by
  intro n
  induction n with
  | zero => intro buf s ch b s1 h; simp [digit_loop_logged] at h
  | succ n ih =>
    intro buf s ch b s1 h hs
    simp only [digit_loop_logged] at h
    have hg := getch_logged_ok s hs
    split_ifs at h
    · exact ih _ _ _ _ _ h hg.1
    · simp only [Option.some.injEq, Prod.mk.injEq] at h
      rw [← h.1, ← h.2.2]
      exact hg

theorem scan_identifier_logged_ok (first L C : Int) (s : Logged) (t : Token) (s2 : Logged)
    (h : scan_identifier_or_keyword_logged first L C s = some (t, s2)) (hs : LogOk s) :
    LogOk s2 := by
  simp only [scan_identifier_or_keyword_logged] at h
  cases e : ident_loop_logged (budget s.st) (append_char [] 256 first) s with
  | none => rw [e] at h; simp at h
  | some r =>
    obtain ⟨ch, b, s1⟩ := r
    rw [e] at h
    simp only [Option.some.injEq, Prod.mk.injEq] at h
    rw [← h.2]
    exact ungetch_logged_guarded_ok ch s1 (ident_loop_logged_ok _ _ _ _ _ _ e hs)

theorem scan_exponent_logged_ok (ch : Int) (buf : List Int) (L C : Int) (s : Logged)
    (t : Token) (s2 : Logged)
    (h : scan_exponent_logged ch buf L C s = some (t, s2)) (hs : ReadOk ch s) : LogOk s2 := by
  simp only [scan_exponent_logged] at h
  by_cases hm : ch = 101 ∨ ch = 69
  · rw [if_pos hm] at h
    have hm10 : ch ≠ 10 := by rcases hm with h | h <;> rw [h] <;> decide
    have hg := getch_logged_ok s hs.1
    have hg2 := getch_logged_ok _ hg.1
    by_cases hsg : (getch_logged s).1 = 43 ∨ (getch_logged s).1 = 45
    · simp only [hsg, decide_True, if_true] at h
      by_cases hd : isdigit (getch_logged (getch_logged s).2).1 = true
      · rw [if_neg (by simpa using hd)] at h
        cases e : digit_loop_logged (budget (getch_logged (getch_logged s).2).2.st)
            (append_char (append_char (append_char buf 256 ch) 256 (getch_logged s).1) 256
              (getch_logged (getch_logged s).2).1) (getch_logged (getch_logged s).2).2 with
        | none => rw [e] at h; simp at h
        | some r =>
          obtain ⟨c3, b3, s3⟩ := r
          rw [e] at h
          simp only [Option.some.injEq, Prod.mk.injEq] at h
          rw [← h.2]
          exact ungetch_logged_guarded_ok c3 s3 (digit_loop_logged_ok _ _ _ _ _ _ e hg2.1)
      · rw [if_pos hd] at h
        simp only [Option.some.injEq, Prod.mk.injEq] at h
        rw [← h.2]
        exact ungetch_logged_guarded_ok _ _ (ungetch_logged_keep ch _ _ hg2 hm10)
    · simp only [hsg, decide_False, Bool.false_eq_true, if_false] at h
      by_cases hd : isdigit (getch_logged s).1 = true
      · rw [if_neg (by simpa using hd)] at h
        cases e : digit_loop_logged (budget (getch_logged s).2.st)
            (append_char (append_char buf 256 ch) 256 (getch_logged s).1) (getch_logged s).2 with
        | none => rw [e] at h; simp at h
        | some r =>
          obtain ⟨c3, b3, s3⟩ := r
          rw [e] at h
          simp only [Option.some.injEq, Prod.mk.injEq] at h
          rw [← h.2]
          exact ungetch_logged_guarded_ok c3 s3 (digit_loop_logged_ok _ _ _ _ _ _ e hg.1)
      · rw [if_pos hd] at h
        simp only [Option.some.injEq, Prod.mk.injEq] at h
        rw [← h.2]
        exact ungetch_logged_guarded_ok _ _ (ungetch_logged_keep ch _ _ hg hm10)
  · rw [if_neg hm] at h
    simp only [Option.some.injEq, Prod.mk.injEq] at h
    rw [← h.2]
    exact ungetch_logged_guarded_ok ch s hs

theorem scan_number_logged_ok (first L C : Int) (s : Logged) (t : Token) (s2 : Logged)
    (h : scan_number_logged first L C s = some (t, s2)) (hs : LogOk s) : LogOk s2 := by
  simp only [scan_number_logged] at h
  cases e : digit_loop_logged (budget s.st) (append_char [] 256 first) s with
  | none => rw [e] at h; simp at h
  | some r =>
    obtain ⟨ch, b, s1⟩ := r
    rw [e] at h
    have h1 := digit_loop_logged_ok _ _ _ _ _ _ e hs
    by_cases h46 : ch = 46
    · simp only [h46, if_true] at h
      have hg := getch_logged_ok s1 h1.1
      by_cases hd : isdigit (getch_logged s1).1 = true
      · rw [if_pos hd] at h
        cases e2 : digit_loop_logged (budget (getch_logged s1).2.st)
            (append_char (append_char b 256 46) 256 (getch_logged s1).1) (getch_logged s1).2 with
        | none => rw [e2] at h; simp at h
        | some r =>
          obtain ⟨c3, b3, s3⟩ := r
          rw [e2] at h
          exact scan_exponent_logged_ok _ _ _ _ _ _ _ h
            (digit_loop_logged_ok _ _ _ _ _ _ e2 hg.1)
      · rw [if_neg hd] at h
        exact scan_exponent_logged_ok _ _ _ _ _ _ _ h hg
    · simp only [h46, if_false] at h
      exact scan_exponent_logged_ok _ _ _ _ _ _ _ h h1

theorem scan_relop_logged_ok (two : TokenType) (x2 : String) (one : TokenType) (x1 : String)
    (L C : Int) (s : Logged) (hs : LogOk s) : LogOk (scan_relop_logged two x2 one x1 L C s).2 := by
  simp only [scan_relop_logged]
  have hg := getch_logged_ok s hs
  split_ifs
  · exact hg.1
  · exact ungetch_logged_ok _ _ hg


/-! ## The log does not influence the scan -/

theorem skip_line_logged_erase : ∀ (n : Nat) (ch : Int) (s : Logged),
    (skip_line_logged n ch s).map (fun r => (r.1, r.2.st)) = skip_line n ch s.st := by
  intro n
  induction n with
  | zero => intro ch s; rfl
  | succ n ih =>
    intro ch s
    simp only [skip_line_logged, skip_line]
    split_ifs
    · exact ih _ _
    · rfl

theorem skip_block_logged_erase : ∀ (n : Nat) (prev : Int) (s : Logged),
    (skip_block_logged n prev s).map (fun r => (r.1, r.2.st)) = skip_block n prev s.st := by
  intro n
  induction n with
  | zero => intro prev s; rfl
  | succ n ih =>
    intro prev s
    simp only [skip_block_logged, skip_block]
    have e1 : (getch_logged s).1 = (getch s.st).1 := rfl
    rw [e1]
    split_ifs
    · rfl
    · exact ih _ _
    · rfl

theorem skip_loop_logged_erase : ∀ (n : Nat) (s : Logged),
    (skip_loop_logged n s).map (fun r => (r.1, r.2.st)) = skip_loop n s.st := by
  intro n
  induction n with
  | zero => intro s; rfl
  | succ n ih =>
    intro s
    simp only [skip_loop_logged, skip_loop]
    have e1 : (getch_logged s).1 = (getch s.st).1 := rfl
    have e2 : (getch_logged (getch_logged s).2).1 = (getch (getch s.st).2).1 := rfl
    rw [e1, e2]
    by_cases c1 : (getch s.st).1 = EOF
    · rw [if_pos c1, if_pos c1]
      rfl
    rw [if_neg c1, if_neg c1]
    by_cases c2 : isspace (getch s.st).1 = true
    · rw [if_pos c2, if_pos c2]
      exact ih _
    rw [if_neg c2, if_neg c2]
    by_cases c3 : (getch s.st).1 = 47
    · rw [if_pos c3, if_pos c3]
      by_cases c4 : (getch (getch s.st).2).1 = 47
      · rw [if_pos c4, if_pos c4]
        have e := skip_line_logged_erase n (getch s.st).1 (getch_logged (getch_logged s).2).2
        have e3 : (getch_logged (getch_logged s).2).2.st = (getch (getch s.st).2).2 := rfl
        rw [e3] at e
        rw [← e]
        cases skip_line_logged n (getch s.st).1 (getch_logged (getch_logged s).2).2 with
        | none => rfl
        | some r => exact ih _
      rw [if_neg c4, if_neg c4]
      by_cases c5 : (getch (getch s.st).2).1 = 42
      · rw [if_pos c5, if_pos c5]
        have e := skip_block_logged_erase n 0 (getch_logged (getch_logged s).2).2
        have e3 : (getch_logged (getch_logged s).2).2.st = (getch (getch s.st).2).2 := rfl
        rw [e3] at e
        rw [← e]
        cases skip_block_logged n 0 (getch_logged (getch_logged s).2).2 with
        | none => rfl
        | some r =>
          obtain ⟨x, s3⟩ := r
          cases x with
          | false => rfl
          | true => exact ih _
      rw [if_neg c5, if_neg c5]
      rfl
    rw [if_neg c3, if_neg c3]
    rfl

theorem ident_loop_logged_erase : ∀ (n : Nat) (buf : List Int) (s : Logged),
    (ident_loop_logged n buf s).map (fun r => (r.1, r.2.1, r.2.2.st)) =
      ident_loop n buf s.st := by
  intro n
  induction n with
  | zero => intro buf s; rfl
  | succ n ih =>
    intro buf s
    simp only [ident_loop_logged, ident_loop]
    have e1 : (getch_logged s).1 = (getch s.st).1 := rfl
    rw [e1]
    split_ifs
    · exact ih _ _
    · rfl

theorem digit_loop_logged_erase : ∀ (n : Nat) (buf : List Int) (s : Logged),
    (digit_loop_logged n buf s).map (fun r => (r.1, r.2.1, r.2.2.st)) =
      digit_loop n buf s.st := by
  intro n
  induction n with
  | zero => intro buf s; rfl
  | succ n ih =>
    intro buf s
    simp only [digit_loop_logged, digit_loop]
    have e1 : (getch_logged s).1 = (getch s.st).1 := rfl
    rw [e1]
    split_ifs
    · exact ih _ _
    · rfl

theorem ungetch_logged_guarded_st (ch : Int) (s : Logged) :
    (if ch ≠ EOF then ungetch_logged ch s else s).st = if ch ≠ EOF then ungetch ch s.st else s.st := by
  split_ifs <;> rfl

theorem scan_identifier_logged_erase (first L C : Int) (s : Logged) :
    (scan_identifier_or_keyword_logged first L C s).map (fun r => (r.1, r.2.st)) =
      scan_identifier_or_keyword first L C s.st := by
  simp only [scan_identifier_or_keyword_logged, scan_identifier_or_keyword]
  rw [← ident_loop_logged_erase]
  cases ident_loop_logged (budget s.st) (append_char [] 256 first) s with
  | none => rfl
  | some r =>
    obtain ⟨ch, b, s1⟩ := r
    simp only [Option.map_some', ungetch_logged_guarded_st]

theorem scan_exponent_logged_erase (ch : Int) (buf : List Int) (L C : Int) (s : Logged) :
    (scan_exponent_logged ch buf L C s).map (fun r => (r.1, r.2.st)) =
      scan_exponent ch buf L C s.st := by
  simp only [scan_exponent_logged, scan_exponent]
  have e1 : (getch_logged s).1 = (getch s.st).1 := rfl
  have e2 : (getch_logged (getch_logged s).2).1 = (getch (getch s.st).2).1 := rfl
  rw [e1, e2]
  by_cases hm : ch = 101 ∨ ch = 69
  · rw [if_pos hm, if_pos hm]
    by_cases hsg : (getch s.st).1 = 43 ∨ (getch s.st).1 = 45
    · simp only [hsg, decide_True, if_true]
      by_cases hd : isdigit (getch (getch s.st).2).1 = true
      · rw [if_neg (by simpa using hd), if_neg (by simpa using hd)]
        have e := digit_loop_logged_erase (budget (getch (getch s.st).2).2)
          (append_char (append_char (append_char buf 256 ch) 256 (getch s.st).1) 256
            (getch (getch s.st).2).1) (getch_logged (getch_logged s).2).2
        have e3 : (getch_logged (getch_logged s).2).2.st = (getch (getch s.st).2).2 := rfl
        rw [e3] at e
        rw [e3, ← e]
        cases digit_loop_logged (budget (getch (getch s.st).2).2)
          (append_char (append_char (append_char buf 256 ch) 256 (getch s.st).1) 256
            (getch (getch s.st).2).1) (getch_logged (getch_logged s).2).2 with
        | none => rfl
        | some r =>
          obtain ⟨c3, b3, s3⟩ := r
          simp only [Option.map_some', ungetch_logged_guarded_st]
      · rw [if_pos hd, if_pos hd]
        simp only [Option.map_some', ungetch_logged_guarded_st]
        rfl
    · simp only [hsg, decide_False, Bool.false_eq_true, if_false]
      by_cases hd : isdigit (getch s.st).1 = true
      · rw [if_neg (by simpa using hd), if_neg (by simpa using hd)]
        have e := digit_loop_logged_erase (budget (getch s.st).2)
          (append_char (append_char buf 256 ch) 256 (getch s.st).1) (getch_logged s).2
        have e3 : (getch_logged s).2.st = (getch s.st).2 := rfl
        rw [e3] at e
        rw [e3, ← e]
        cases digit_loop_logged (budget (getch s.st).2)
          (append_char (append_char buf 256 ch) 256 (getch s.st).1) (getch_logged s).2 with
        | none => rfl
        | some r =>
          obtain ⟨c3, b3, s3⟩ := r
          simp only [Option.map_some', ungetch_logged_guarded_st]
      · rw [if_pos hd, if_pos hd]
        simp only [Option.map_some', ungetch_logged_guarded_st]
        rfl
  · rw [if_neg hm, if_neg hm]
    simp only [Option.map_some', ungetch_logged_guarded_st]

theorem scan_number_logged_erase (first L C : Int) (s : Logged) :
    (scan_number_logged first L C s).map (fun r => (r.1, r.2.st)) =
      scan_number first L C s.st := by
  simp only [scan_number_logged, scan_number]
  rw [← digit_loop_logged_erase]
  cases digit_loop_logged (budget s.st) (append_char [] 256 first) s with
  | none => rfl
  | some r =>
    obtain ⟨ch, b, s1⟩ := r
    simp only [Option.map_some']
    have e1 : (getch_logged s1).1 = (getch s1.st).1 := rfl
    rw [e1]
    by_cases h46 : ch = 46
    · rw [if_pos h46, if_pos h46]
      by_cases hd : isdigit (getch s1.st).1 = true
      · rw [if_pos hd, if_pos hd]
        have e := digit_loop_logged_erase (budget (getch s1.st).2)
          (append_char (append_char b 256 ch) 256 (getch s1.st).1) (getch_logged s1).2
        have e3 : (getch_logged s1).2.st = (getch s1.st).2 := rfl
        rw [e3] at e
        rw [e3, ← e]
        cases digit_loop_logged (budget (getch s1.st).2)
          (append_char (append_char b 256 ch) 256 (getch s1.st).1) (getch_logged s1).2 with
        | none => rfl
        | some r =>
          obtain ⟨c3, b3, s3⟩ := r
          exact scan_exponent_logged_erase _ _ _ _ _
      · rw [if_neg hd, if_neg hd]
        exact scan_exponent_logged_erase _ _ _ _ _
    · rw [if_neg h46, if_neg h46]
      exact scan_exponent_logged_erase _ _ _ _ _

theorem scan_relop_logged_erase (two : TokenType) (x2 : String) (one : TokenType) (x1 : String)
    (L C : Int) (s : Logged) :
    ((scan_relop_logged two x2 one x1 L C s).1, (scan_relop_logged two x2 one x1 L C s).2.st) =
      scan_relop two x2 one x1 L C s.st := by
  simp only [scan_relop_logged, scan_relop]
  have e1 : (getch_logged s).1 = (getch s.st).1 := rfl
  rw [e1]
  split_ifs <;> rfl


/-- How `next_token` goes on with a character other than the end marker, with
and without the log: in the same way. -/
theorem next_token_logged_dispatch (s s1 : Logged) (ch : Int)
    (hskip : skip_ws_and_comments_logged s = some (ch, s1)) (hE : ch ≠ EOF) :
    (next_token_logged s = scan_identifier_or_keyword_logged ch s1.st.g_line
          (if s1.st.g_col > 0 then s1.st.g_col else 1) s1 ∧
      next_token s.st = scan_identifier_or_keyword ch s1.st.g_line
          (if s1.st.g_col > 0 then s1.st.g_col else 1) s1.st) ∨
    (next_token_logged s = scan_number_logged ch s1.st.g_line
          (if s1.st.g_col > 0 then s1.st.g_col else 1) s1 ∧
      next_token s.st = scan_number ch s1.st.g_line
          (if s1.st.g_col > 0 then s1.st.g_col else 1) s1.st) ∨
    (∃ two x2 one x1,
      next_token_logged s = some (scan_relop_logged two x2 one x1 s1.st.g_line
          (if s1.st.g_col > 0 then s1.st.g_col else 1) s1) ∧
      next_token s.st = some (scan_relop two x2 one x1 s1.st.g_line
          (if s1.st.g_col > 0 then s1.st.g_col else 1) s1.st)) ∨
    (∃ tok, next_token_logged s = some (tok, s1) ∧ next_token s.st = some (tok, s1.st)) := by
  have hsk : skip_ws_and_comments s.st = some (ch, s1.st) := by
    have := skip_loop_logged_erase (budget s.st) s
    unfold skip_ws_and_comments_logged at hskip
    rw [hskip] at this
    exact this.symm
  simp only [next_token_logged, next_token, hskip, hsk]
  rw [if_neg hE, if_neg hE]
  generalize (if s1.st.g_col > 0 then s1.st.g_col else 1) = C
  by_cases c2 : isalpha ch = true ∨ ch = 95
  · rw [if_pos c2, if_pos c2]
    exact Or.inl ⟨rfl, rfl⟩
  rw [if_neg c2, if_neg c2]
  by_cases c3 : isdigit ch = true
  · rw [if_pos c3, if_pos c3]
    exact Or.inr (Or.inl ⟨rfl, rfl⟩)
  rw [if_neg c3, if_neg c3]
  by_cases c46 : ch = 46
  · rw [if_pos c46, if_pos c46]
    exact Or.inr (Or.inr (Or.inr ⟨_, rfl, rfl⟩))
  rw [if_neg c46, if_neg c46]
  by_cases c40 : ch = 40
  · rw [if_pos c40, if_pos c40]
    exact Or.inr (Or.inr (Or.inr ⟨_, rfl, rfl⟩))
  rw [if_neg c40, if_neg c40]
  by_cases c41 : ch = 41
  · rw [if_pos c41, if_pos c41]
    exact Or.inr (Or.inr (Or.inr ⟨_, rfl, rfl⟩))
  rw [if_neg c41, if_neg c41]
  by_cases c123 : ch = 123
  · rw [if_pos c123, if_pos c123]
    exact Or.inr (Or.inr (Or.inr ⟨_, rfl, rfl⟩))
  rw [if_neg c123, if_neg c123]
  by_cases c125 : ch = 125
  · rw [if_pos c125, if_pos c125]
    exact Or.inr (Or.inr (Or.inr ⟨_, rfl, rfl⟩))
  rw [if_neg c125, if_neg c125]
  by_cases c59 : ch = 59
  · rw [if_pos c59, if_pos c59]
    exact Or.inr (Or.inr (Or.inr ⟨_, rfl, rfl⟩))
  rw [if_neg c59, if_neg c59]
  by_cases c44 : ch = 44
  · rw [if_pos c44, if_pos c44]
    exact Or.inr (Or.inr (Or.inr ⟨_, rfl, rfl⟩))
  rw [if_neg c44, if_neg c44]
  by_cases c43 : ch = 43
  · rw [if_pos c43, if_pos c43]
    exact Or.inr (Or.inr (Or.inr ⟨_, rfl, rfl⟩))
  rw [if_neg c43, if_neg c43]
  by_cases c45 : ch = 45
  · rw [if_pos c45, if_pos c45]
    exact Or.inr (Or.inr (Or.inr ⟨_, rfl, rfl⟩))
  rw [if_neg c45, if_neg c45]
  by_cases c42 : ch = 42
  · rw [if_pos c42, if_pos c42]
    exact Or.inr (Or.inr (Or.inr ⟨_, rfl, rfl⟩))
  rw [if_neg c42, if_neg c42]
  by_cases c47 : ch = 47
  · rw [if_pos c47, if_pos c47]
    exact Or.inr (Or.inr (Or.inr ⟨_, rfl, rfl⟩))
  rw [if_neg c47, if_neg c47]
  by_cases c61 : ch = 61
  · rw [if_pos c61, if_pos c61]
    exact Or.inr (Or.inr (Or.inl ⟨_, _, _, _, rfl, rfl⟩))
  rw [if_neg c61, if_neg c61]
  by_cases c33 : ch = 33
  · rw [if_pos c33, if_pos c33]
    exact Or.inr (Or.inr (Or.inl ⟨_, _, _, _, rfl, rfl⟩))
  rw [if_neg c33, if_neg c33]
  by_cases c60 : ch = 60
  · rw [if_pos c60, if_pos c60]
    exact Or.inr (Or.inr (Or.inl ⟨_, _, _, _, rfl, rfl⟩))
  rw [if_neg c60, if_neg c60]
  by_cases c62 : ch = 62
  · rw [if_pos c62, if_pos c62]
    exact Or.inr (Or.inr (Or.inl ⟨_, _, _, _, rfl, rfl⟩))
  rw [if_neg c62, if_neg c62]
  exact Or.inr (Or.inr (Or.inr ⟨_, rfl, rfl⟩))

/-- The scanner with the log returns the token and leaves the state that the
scanner without it does. -/
theorem next_token_logged_erase (s : Logged) :
    (next_token_logged s).map (fun r => (r.1, r.2.st)) = next_token s.st := by
  have hsk := skip_loop_logged_erase (budget s.st) s
  cases e : skip_ws_and_comments_logged s with
  | none =>
    have e2 : skip_loop_logged (budget s.st) s = none := e
    rw [e2] at hsk
    have hsk2 : skip_ws_and_comments s.st = none := hsk.symm
    simp only [next_token_logged, next_token, e, hsk2]
    rfl
  | some r =>
    obtain ⟨ch, s1⟩ := r
    have e2 : skip_loop_logged (budget s.st) s = some (ch, s1) := e
    rw [e2] at hsk
    have hsk2 : skip_ws_and_comments s.st = some (ch, s1.st) := hsk.symm
    by_cases hE : ch = EOF
    · simp only [next_token_logged, next_token, e, hsk2]
      rw [if_pos hE, if_pos hE]
      rfl
    · rcases next_token_logged_dispatch s s1 ch e hE with ⟨h1, h2⟩ | ⟨h1, h2⟩ |
        ⟨two, x2, one, x1, h1, h2⟩ | ⟨tok, h1, h2⟩
      · rw [h1, h2]
        exact scan_identifier_logged_erase _ _ _ _
      · rw [h1, h2]
        exact scan_number_logged_erase _ _ _ _
      · rw [h1, h2, ← scan_relop_logged_erase]
        rfl
      · rw [h1, h2]
        rfl

/-- A call of `next_token` in a state in order leaves state and log in order:
no value the line counter takes during the call is below 1. -/
theorem next_token_logged_ok (s : Logged) (t : Token) (s2 : Logged)
    (h : next_token_logged s = some (t, s2)) (hs : LogOk s) : LogOk s2 := by
  cases e : skip_ws_and_comments_logged s with
  | none => simp [next_token_logged, e] at h
  | some r =>
    obtain ⟨ch, s1⟩ := r
    have h1 : LogOk s1 := skip_loop_logged_ok (budget s.st) s ch s1 e hs
    by_cases hE : ch = EOF
    · simp only [next_token_logged, e] at h
      rw [if_pos hE] at h
      simp only [Option.some.injEq, Prod.mk.injEq] at h
      rw [← h.2]
      exact h1
    · rcases next_token_logged_dispatch s s1 ch e hE with ⟨h2, _⟩ | ⟨h2, _⟩ |
        ⟨two, x2, one, x1, h2, _⟩ | ⟨tok, h2, _⟩
      · rw [h2] at h
        exact scan_identifier_logged_ok _ _ _ _ _ _ h h1
      · rw [h2] at h
        exact scan_number_logged_ok _ _ _ _ _ _ h h1
      · rw [h2] at h
        simp only [Option.some.injEq] at h
        have := scan_relop_logged_ok two x2 one x1 s1.st.g_line
          (if s1.st.g_col > 0 then s1.st.g_col else 1) s1 h1
        rw [h] at this
        exact this
      · rw [h2] at h
        simp only [Option.some.injEq, Prod.mk.injEq] at h
        rw [← h.2]
        exact h1

/-- A call of `next_token` that returns, run with an empty log in a state
whose line counter is at least 1: the same token is returned, the same state is
left, and every value the line counter has taken during the call is at least
1. -/
theorem next_token_lines (s s2 : Scanner) (t : Token) (h : next_token s = some (t, s2))
    (hl : 1 ≤ s.g_line) :
    ∃ lines, next_token_logged ⟨s, []⟩ = some (t, ⟨s2, lines⟩) ∧ ∀ l ∈ lines, 1 ≤ l := by
  have he := next_token_logged_erase ⟨s, []⟩
  cases e : next_token_logged ⟨s, []⟩ with
  | none =>
    rw [e, h] at he
    exact absurd he (by simp)
  | some r =>
    obtain ⟨t1, s3⟩ := r
    rw [e, h] at he
    simp only [Option.map_some', Option.some.injEq, Prod.mk.injEq] at he
    obtain ⟨rfl, rfl⟩ := he
    have hok := next_token_logged_ok ⟨s, []⟩ t1 s3 e ⟨hl, fun l hl2 => absurd hl2 (by simp)⟩
    exact ⟨s3.lines, rfl, hok.2⟩


/-! ## The line of a token -/

/-- When the bytes of the file from offset `i` on start with `pre` and the byte
`b`, the byte at offset `i + |pre|` is `b`, and the line of that offset is the
line of offset `i` plus the number of newlines in `pre`. -/
theorem offset_behind (f : List Byte) (i : Nat) (pre : List Byte) (b : Byte) (tl : List Byte)
    (h : f.drop i = pre ++ b :: tl) :
    f[i + pre.length]? = some b ∧
    spec_line f (i + pre.length) =
      spec_line f i + ((pre.filter (fun x => ofByte x = 10)).length : Int) := by
  constructor
  · rw [← List.getElem?_drop, h, List.getElem?_append_right (le_refl _)]
    simp
  · unfold spec_line
    have ht : f.take (i + pre.length) = f.take i ++ pre := by
      rw [List.take_add, h]
      simp
    rw [ht, filter_newline_append]
    ring

/-- C20: for every token that a call of `next_token` made by the driver
returns.  The line of the end-of-stream token is 1 plus the number of newlines
in the file.  For any other token, the characters pending at the call are a text
`pre` of whitespace and complete comments, then a byte `b` that is no
whitespace and does not open a comment, then a rest; the state is at an offset
`i` of the file; and in whatever way the pending characters are read so (there
is one way only), `b` is the character `skip_ws_and_comments` delivers for the
token, it is the byte at offset `i + |pre|` of the file, and the line of the
token is 1 plus the number of newlines before that offset.  The line counter is
at least 1 when the call starts, and so is every value it takes during the
call: the same call, run with a log of the line counter, returns the same token
and state, and all values logged after the calls of `getch` and `ungetch` are
at least 1. -/
theorem token_line_exact (f : List Byte) (s s2 : Scanner) (t : Token) (hs : Scanned f s)
    (h : next_token s = some (t, s2)) :
    (t.type = T_EOF → t.line = 1 + ((f.filter (fun b => ofByte b = 10)).length : Int)) ∧
    (t.type ≠ T_EOF →
      (∃ i pre b rest, AtOffset f s i ∧ pending s = (pre ++ b :: rest).map ofByte ∧
        Skipped pre ∧ TokenStart b rest) ∧
      ∀ i pre b rest, AtOffset f s i → pending s = (pre ++ b :: rest).map ofByte →
        Skipped pre → TokenStart b rest →
        (∃ s1, skip_ws_and_comments s = some (ofByte b, s1)) ∧
        f[i + pre.length]? = some b ∧
        t.line =
          1 + (((f.take (i + pre.length)).filter (fun b => ofByte b = 10)).length : Int)) ∧
    1 ≤ s.g_line ∧
    ∃ lines, next_token_logged ⟨s, []⟩ = some (t, ⟨s2, lines⟩) ∧ ∀ l ∈ lines, 1 ≤ l := by
  obtain ⟨i, ht⟩ := scanned_tracks f s hs
  have hat := tracks_at_offset f s i ht
  have hline := (tracks_le f s i ht).2
  have hl1 : 1 ≤ s.g_line := by rw [hline]; exact spec_line_pos f i
  refine ⟨?_, ?_, hl1, next_token_lines s s2 t h hl1⟩
  · intro hty
    obtain ⟨t1, s3, i2, e1, _, _, hcase⟩ := next_token_eff f s i ht
    rw [h] at e1
    simp only [Option.some.injEq, Prod.mk.injEq] at e1
    obtain ⟨rfl, rfl⟩ := e1
    rcases hcase with ⟨_, hcl, _, ht1⟩ | ⟨hne, _⟩
    · have hl : t.line = spec_line f f.length := by
        rw [ht1]
        exact hcl.2.2.2
      rw [hl]
      simp [spec_line]
    · exact absurd hty hne
  · intro hne
    obtain ⟨ch, s1, hskip, hcase⟩ := next_token_cases s s2 t h
    have hcase2 : ch ≠ EOF ∧ t.line = s1.g_line := by
      rcases hcase with ⟨_, ht1, _⟩ | ⟨hE, _, hl, _⟩
      · rw [ht1] at hne
        exact absurd rfl hne
      · exact ⟨hE, hl⟩
    obtain ⟨hE, htl⟩ := hcase2
    -- the bytes pending, and what the file holds from offset `i` on
    obtain ⟨inp, hpend, hdrop⟩ : ∃ inp, pending s = inp.map ofByte ∧
        ∀ pre b rest, inp = pre ++ b :: rest → ∃ tl, f.drop i = pre ++ b :: tl := by
      rcases hat with ⟨_, hp⟩ | ⟨m, sg, hd, _, _, hp⟩
      · exact ⟨f.drop i, hp, fun pre b rest e => ⟨rest, e⟩⟩
      · refine ⟨[m], by rw [hp]; rfl, ?_⟩
        intro pre b rest e
        cases pre with
        | nil =>
          simp only [List.nil_append, List.cons.injEq] at e
          exact ⟨[sg], by rw [hd, ← e.1]; rfl⟩
        | cons x pre =>
          have := congrArg List.length e
          simp at this
    have hlen : inp.length < budget s := by
      have := pending_length_lt_budget s
      rw [hpend, List.length_map] at this
      exact this
    obtain ⟨ch2, s3, e3, hshape⟩ := skip_loop_shape (budget s) inp s hpend hlen
    have e4 : skip_ws_and_comments s = some (ch2, s3) := e3
    rw [hskip] at e4
    simp only [Option.some.injEq, Prod.mk.injEq] at e4
    obtain ⟨rfl, rfl⟩ := e4
    rcases hshape with hE2 | ⟨pre, b, rest, hinp, hpre, hch, hsp, hslash, hp1, hl1⟩
    · exact absurd hE2 hE
    · have hp : pending s = (pre ++ b :: rest).map ofByte := by rw [hpend, hinp]
      refine ⟨⟨i, pre, b, rest, hat, hp, hpre, hsp, hslash⟩, ?_⟩
      intro i2 pre2 b2 rest2 hat2 hp2 hpre2 hb2
      have hi : i2 = i := at_offset_unique f s i2 i hat2 hat
      obtain ⟨h1, h2, h3⟩ := token_start_unique s pre pre2 b b2 rest rest2 hp hpre
        ⟨hsp, hslash⟩ hp2 hpre2 hb2
      subst h1 h2 h3 hi
      obtain ⟨tl2, hd⟩ := hdrop pre b rest hinp
      obtain ⟨k1, k2⟩ := offset_behind f i2 pre b tl2 hd
      refine ⟨⟨s1, by rw [hskip, hch]⟩, k1, ?_⟩
      have k3 : spec_line f (i2 + pre.length) =
          1 + (((f.take (i2 + pre.length)).filter (fun b => ofByte b = 10)).length : Int) := rfl
      rw [← k3, k2, htl, hl1, hline]

/-- C20 on the file made of an empty block comment, a newline and `/`.  The
first token is the division token: its first character is the `/` at offset 5,
behind the comment and the newline, and its line is 2; no value the line
counter takes during the call is below 1.  The second token is the
end-of-stream token, on line 2 as well. -/
theorem token_line_exact_witness :
    ((∃ s1, skip_ws_and_comments (scanner_init (bytes "/**/\n/")) = some (ofByte 47, s1)) ∧
      (bytes "/**/\n/")[0 + [(47 : Byte), 42, 42, 47, 10].length]? = some 47 ∧
      (2 : Int) = 1 + ((((bytes "/**/\n/").take (0 + [(47 : Byte), 42, 42, 47, 10].length)).filter
        (fun b => ofByte b = 10)).length : Int)) ∧
    (∃ lines, next_token_logged ⟨scanner_init (bytes "/**/\n/"), []⟩ =
      some (⟨T_DIV, cstr "/", 2, 1⟩, ⟨⟨[], 2, 1, 0, 0⟩, lines⟩) ∧ ∀ l ∈ lines, 1 ≤ l) ∧
    (2 : Int) = 1 + (((bytes "/**/\n/").filter (fun b => ofByte b = 10)).length : Int) :=
  ⟨((token_line_exact (bytes "/**/\n/") (scanner_init (bytes "/**/\n/")) ⟨[], 2, 1, 0, 0⟩
      ⟨T_DIV, cstr "/", 2, 1⟩ Scanned.init (by decide)).2.1 (by decide)).2
      0 [47, 42, 42, 47, 10] 47 [] (Or.inl ⟨by decide, by decide⟩) (by decide)
      (Skipped.block [] [10] (by decide) (Skipped.space 10 [] (by decide) Skipped.nil))
      ⟨by decide, by decide⟩,
   (token_line_exact (bytes "/**/\n/") (scanner_init (bytes "/**/\n/")) ⟨[], 2, 1, 0, 0⟩
      ⟨T_DIV, cstr "/", 2, 1⟩ Scanned.init (by decide)).2.2.2,
   (token_line_exact (bytes "/**/\n/") ⟨[], 2, 1, 0, 0⟩ ⟨[], 2, 1, 0, 0⟩
      ⟨T_EOF, cstr "EOF", 2, 1⟩
      (Scanned.next (t := ⟨T_DIV, cstr "/", 2, 1⟩) Scanned.init (by decide))
      (by decide)).1 rfl⟩

end Lexer
